import Mathlib

/-! Spam e-mail classifier: word-frequency stores, classifier, CSV file, feedback.

A shallow embedding of `spam_email_classifier.cpp`.

* A C++ `std::string` is the list of its bytes; a byte is written as the
  character with that code, so `Str := List Char`.
* A `double` is modelled by a rational number: arithmetic is exact.
* `int` values are integers.  The hash accumulator wraps at 32 bits, as it
  does in the compiled program; table sizes, entry counts and probe indices
  are far below `2^31` for any table that fits in memory and are not wrapped.
* Indexing a `std::vector` outside its bounds is undefined behaviour; every
  operation that does so returns `none`.
-/

/-- A C++ string: its bytes, in order. -/
abbrev Str := List Char

/-- Source: `struct WordFreq { string word; double spamFreq; double hamFreq; }`. -/
structure WordFreq where
  word : Str
  spamFreq : ℚ
  hamFreq : ℚ
deriving DecidableEq

/-- Source: the default arguments of the constructor, `WordFreq("", 0.0, 0.0)`. -/
def WordFreq.default : WordFreq := ⟨[], 0, 0⟩

/-- Reduction of an integer to the range of a 32-bit signed `int`
(two's-complement wrap-around). -/
def wrapInt32 (x : Int) : Int := (x + 2147483648) % 4294967296 - 2147483648

/-- The value of a `char` (signed, 8 bits) when it is promoted to `int`. -/
def charCode (c : Char) : Int :=
  if c.toNat < 128 then (c.toNat : Int) else (c.toNat : Int) - 256

/-- Source: `std::abs(int)`; the negation wraps, so `abs(INT_MIN)` is `INT_MIN`. -/
def absInt32 (x : Int) : Int := wrapInt32 (if x < 0 then -x else x)

/-- Source: the loop of `HashMap::hash`,
`int hashVal = 0; for (char c : key) hashVal = 37 * hashVal + c;`. -/
def HashMap.hashVal (key : Str) : Int :=
  key.foldl (fun hashVal c => wrapInt32 (37 * hashVal + charCode c)) 0

/-- Source: `HashMap::hash`, `return abs(hashVal) % size;`
(`%` on `int` truncates towards zero). -/
def HashMap.hash (key : Str) (size : Nat) : Int :=
  Int.tmod (absInt32 (HashMap.hashVal key)) (size : Int)

/-- Source: `table[index]` on a `std::vector`, with an `int` index.
Outside the bounds the access is undefined: `none`. -/
def vecGet {α : Type} (table : List α) (index : Int) : Option α :=
  if index < 0 then none else table[index.toNat]?

/-! ## Separate chaining -/

/-- Source: `class ChainingHashMap`; a bucket (a `Node*` chain) is the list of
the entries of its nodes, `nullptr` is the empty list. -/
structure ChainingHashMap where
  size : Nat
  count : Int
  table : List (List WordFreq)
deriving DecidableEq

/-- Source: `ChainingHashMap(int s)`: `table.resize(size, nullptr)`, `count(0)`. -/
def ChainingHashMap.mk0 (s : Nat) : ChainingHashMap :=
  { size := s, count := 0, table := List.replicate s [] }

/-- Source: the chain walk of `ChainingHashMap::insert`.  The first node whose
word equals `data.word` is overwritten in place; when there is none, a new node
is linked after the last one.  The flag says whether a node was added
(`count++`). -/
def ChainingHashMap.insertChain (data : WordFreq) : List WordFreq → List WordFreq × Bool
  | [] => ([data], true)
  | node :: next =>
    if node.word = data.word then (data :: next, false)
    else
      let r := ChainingHashMap.insertChain data next
      (node :: r.1, r.2)

/-- Source: `ChainingHashMap::insert`. -/
def ChainingHashMap.insert (m : ChainingHashMap) (data : WordFreq) : Option ChainingHashMap :=
  let index := HashMap.hash data.word m.size
  match vecGet m.table index with
  | none => none
  | some head =>
    let r := ChainingHashMap.insertChain data head
    some { m with
      table := m.table.set index.toNat r.1
      count := if r.2 then m.count + 1 else m.count }

/-- Source: the `while (current)` loop of `ChainingHashMap::search`. -/
def ChainingHashMap.searchChain (key : Str) : List WordFreq → Option WordFreq
  | [] => none
  | node :: next =>
    if node.word = key then some node else ChainingHashMap.searchChain key next

/-- Source: `ChainingHashMap::search`; the inner `none` is `nullptr`. -/
def ChainingHashMap.search (m : ChainingHashMap) (key : Str) : Option (Option WordFreq) :=
  match vecGet m.table (HashMap.hash key m.size) with
  | none => none
  | some head => some (ChainingHashMap.searchChain key head)

/-- Source: `ChainingHashMap::clear`: every node is deleted, then
`table.clear(); count = 0;`.  The vector is left with no bucket at all. -/
def ChainingHashMap.clear (m : ChainingHashMap) : ChainingHashMap :=
  { m with table := [], count := 0 }

/-- Source: `HashMap::getCount`. -/
def ChainingHashMap.getCount (m : ChainingHashMap) : Int := m.count

/-! ## Open addressing with linear probing -/

/-- Source: `class OpenAddressingHashMap`; a slot is `pair<bool, WordFreq>`. -/
structure OpenAddressingHashMap where
  size : Nat
  count : Int
  table : List (Bool × WordFreq)
deriving DecidableEq

/-- Source: `OpenAddressingHashMap(int s)`:
`table.resize(size, {false, WordFreq()})`. -/
def OpenAddressingHashMap.mk0 (s : Nat) : OpenAddressingHashMap :=
  { size := s, count := 0, table := List.replicate s (false, WordFreq.default) }

/-- What a call of `insert` leaves behind: the store, and the lines it wrote to
standard output.  The C++ function returns `void`: nothing goes back to the
caller. -/
structure InsertOutcome where
  map : OpenAddressingHashMap
  stdout : List Str
deriving DecidableEq

/-- Source: the `while (i < size)` loop of `OpenAddressingHashMap::insert`;
`left` is `size - i`.  When the loop ends without a free or matching slot the
function prints a line and returns. -/
def OpenAddressingHashMap.insertLoop (m : OpenAddressingHashMap) (data : WordFreq)
    (index : Int) : (left : Nat) → (i : Nat) → Option InsertOutcome
  | 0, _ => some { map := m, stdout := ["Hash table is full!".toList] }
  | left + 1, i =>
    let currentIndex := Int.tmod (index + (i : Int)) (m.size : Int)
    match vecGet m.table currentIndex with
    | none => none
    | some slot =>
      if !slot.1 then
        some { map := { m with
                 table := m.table.set currentIndex.toNat (true, data)
                 count := m.count + 1 },
               stdout := [] }
      else if slot.2.word = data.word then
        some { map := { m with table := m.table.set currentIndex.toNat (slot.1, data) },
               stdout := [] }
      else OpenAddressingHashMap.insertLoop m data index left (i + 1)

/-- Source: `OpenAddressingHashMap::insert`. -/
def OpenAddressingHashMap.insert (m : OpenAddressingHashMap) (data : WordFreq) :
    Option InsertOutcome :=
  OpenAddressingHashMap.insertLoop m data (HashMap.hash data.word m.size) m.size 0

/-- Source: the `while (i < size)` loop of `OpenAddressingHashMap::search`. -/
def OpenAddressingHashMap.searchLoop (m : OpenAddressingHashMap) (key : Str)
    (index : Int) : (left : Nat) → (i : Nat) → Option (Option WordFreq)
  | 0, _ => some none
  | left + 1, i =>
    let currentIndex := Int.tmod (index + (i : Int)) (m.size : Int)
    match vecGet m.table currentIndex with
    | none => none
    | some slot =>
      if !slot.1 then some none
      else if slot.2.word = key then some (some slot.2)
      else OpenAddressingHashMap.searchLoop m key index left (i + 1)

/-- Source: `OpenAddressingHashMap::search`; the inner `none` is `nullptr`. -/
def OpenAddressingHashMap.search (m : OpenAddressingHashMap) (key : Str) :
    Option (Option WordFreq) :=
  OpenAddressingHashMap.searchLoop m key (HashMap.hash key m.size) m.size 0

/-- Source: `OpenAddressingHashMap::clear`:
`table.clear(); table.resize(size, {false, WordFreq()}); count = 0;`. -/
def OpenAddressingHashMap.clear (m : OpenAddressingHashMap) : OpenAddressingHashMap :=
  { m with table := List.replicate m.size (false, WordFreq.default), count := 0 }

/-- Source: `HashMap::getCount`. -/
def OpenAddressingHashMap.getCount (m : OpenAddressingHashMap) : Int := m.count

/-! ## Rounding to a `double` -/

/-- The integer nearest to `q`, the even one when `q` lies halfway between two
integers. -/
def roundHalfEven (q : ℚ) : ℤ :=
  if q - ⌊q⌋ < 1 / 2 then ⌊q⌋
  else if q - ⌊q⌋ > 1 / 2 then ⌊q⌋ + 1
  else if ⌊q⌋ % 2 = 0 then ⌊q⌋ else ⌊q⌋ + 1

/-- The result of an arithmetic operation on `double`s whose exact value is
`x`: the nearest number with 53 binary digits, the one with an even last digit
when `x` lies halfway between two of them (IEEE 754 binary64, rounding to
nearest). The exponent range is not modelled (no overflow, no subnormal
numbers). -/
def roundDouble (x : ℚ) : ℚ :=
  if x = 0 then 0
  else (if x < 0 then -1 else 1) *
    ((roundHalfEven (|x| / (2 : ℚ) ^ (Int.log 2 |x| - 52)) : ℤ) : ℚ) *
      (2 : ℚ) ^ (Int.log 2 |x| - 52)

/-! ## The classifier -/

/-- Source: the body of the loop of `classifyWithProbability`; `acc` is the pair
`(spamScore, totalWords)`, both `double`. Every operation is a `double`
operation: the addition `wf->spamFreq + wf->hamFreq`, the division
`wf->spamFreq / totalFreq`, `spamScore += ...` and `totalWords += 1.0`. -/
def classifyStep (search : Str → Option WordFreq) (acc : ℚ × ℚ) (word : Str) : ℚ × ℚ :=
  match search word with
  | some wf =>
    let totalFreq := roundDouble (wf.spamFreq + wf.hamFreq)
    if totalFreq > 0 then
      (roundDouble (acc.1 + roundDouble (wf.spamFreq / totalFreq)), roundDouble (acc.2 + 1))
    else acc
  | none => acc

/-- Source: `EmailClassifier::classifyWithProbability`.  The classifier holds a
`HashMap*` and only calls its virtual `search`, which hands back an entry or
`nullptr`: the store is the lookup function `search`.  The final division
`spamScore / totalWords` is a `double` division. -/
def classifyWithProbability (search : Str → Option WordFreq) (threshold : ℚ)
    (emailWords : List Str) : Bool × ℚ :=
  let acc := emailWords.foldl (classifyStep search) ((0 : ℚ), (0 : ℚ))
  let prob := if acc.2 > 0 then roundDouble (acc.1 / acc.2) else 0
  (decide (prob ≥ threshold), prob)

/-! ## Text of numbers -/

/-- The characters the CSV code treats specially. -/
def commaChar : Char := Char.ofNat 44

/-- The double quote. -/
def quoteChar : Char := Char.ofNat 34

/-- The line terminator written by `endl`. -/
def newlineChar : Char := Char.ofNat 10

/-- Source: `isspace` in the C locale (space, and the controls 9 to 13). -/
def isspace (c : Char) : Bool := c.toNat = 32 || (9 ≤ c.toNat && c.toNat ≤ 13)

/-- The number written by a run of decimal digits. -/
def digitsVal (ds : List Char) : Nat := ds.foldl (fun n c => 10 * n + (c.toNat - 48)) 0

/-- The sign and digits of an exponent suffix `e[+-]ddd`; the suffix counts only
when at least one digit follows, otherwise the exponent is 0. -/
def stodExponent (s : Str) : Int :=
  match s with
  | [] => 0
  | c :: r =>
    if c = Char.ofNat 101 ∨ c = Char.ofNat 69 then
      let neg := r.head? = some (Char.ofNat 45)
      let r1 := match r with
        | [] => []
        | d :: r2 => if d = Char.ofNat 45 ∨ d = Char.ofNat 43 then r2 else r
      let ds := r1.takeWhile Char.isDigit
      if ds = [] then 0 else if neg then -(digitsVal ds : Int) else (digitsVal ds : Int)
    else 0

/-- Source: `std::stod` on a decimal numeral: leading white space is skipped, an
optional sign, digits with an optional point, an optional exponent; characters
after the numeral are ignored; `none` is the exception thrown when no digit can
be read.  The value is the exact rational (no rounding to a `double`, no range
check); the spellings `inf`, `nan` and hexadecimal numerals are not modelled. -/
def stod (str : Str) : Option ℚ :=
  let s0 := str.dropWhile isspace
  let neg := s0.head? = some (Char.ofNat 45)
  let s1 := match s0 with
    | [] => []
    | c :: r => if c = Char.ofNat 45 ∨ c = Char.ofNat 43 then r else s0
  let intDigits := s1.takeWhile Char.isDigit
  let s2 := s1.dropWhile Char.isDigit
  let hasPoint := s2.head? = some (Char.ofNat 46)
  let fracDigits := if hasPoint then (s2.drop 1).takeWhile Char.isDigit else []
  let s3 := if hasPoint then (s2.drop 1).dropWhile Char.isDigit else s2
  if intDigits = [] ∧ fracDigits = [] then none
  else
    let exp := stodExponent s3
    let mant : ℚ := (digitsVal (intDigits ++ fracDigits) : ℚ) / ((10 ^ fracDigits.length : Nat) : ℚ)
    let v : ℚ := if 0 ≤ exp then mant * ((10 ^ exp.toNat : Nat) : ℚ)
                 else mant / ((10 ^ (-exp).toNat : Nat) : ℚ)
    some (if neg then -v else v)

/-- The least `k ≥ start` with `q ≤ p * 10^k`, searched over `fuel` candidates. -/
def firstScale (p q : Nat) : (fuel : Nat) → (k : Nat) → Nat
  | 0, k => k
  | fuel + 1, k => if q ≤ p * 10 ^ k then k else firstScale p q fuel (k + 1)

/-- The decimal exponent of `p / q` (both positive): `10^e ≤ p / q < 10^(e+1)`. -/
def decimalExponent (p q : Nat) : Int :=
  if q ≤ p then (((Nat.toDigits 10 (p / q)).length : Int) - 1)
  else -((firstScale p q (Nat.toDigits 10 q).length 1 : Nat) : Int)

/-- Division rounded to the nearest integer, ties to even. -/
def roundDiv (num den : Nat) : Nat :=
  let r := num / den
  let rem := num % den
  if den < 2 * rem ∨ (2 * rem = den ∧ r % 2 = 1) then r + 1 else r

/-- A digit string without its trailing zeros. -/
def stripZeros (ds : List Char) : List Char :=
  (ds.reverse.dropWhile (fun c => c = Char.ofNat 48)).reverse

/-- A fraction part: nothing when all digits are stripped, else a point and the digits. -/
def pointAnd (ds : List Char) : List Char :=
  if stripZeros ds = [] then [] else Char.ofNat 46 :: stripZeros ds

/-- Source: `file << x` for a `double` on a stream in its default state, that
is `printf("%g")` with precision 6: six significant digits; fixed notation when
the decimal exponent is between -4 and 5, otherwise scientific notation with an
exponent of at least two digits; trailing zeros are removed. -/
def showDouble (x : ℚ) : Str :=
  if x = 0 then [Char.ofNat 48]
  else
    let p := x.num.natAbs
    let q := x.den
    let e0 := decimalExponent p q
    let m0 := if e0 ≤ 5 then roundDiv (p * 10 ^ (5 - e0).toNat) q
              else roundDiv p (q * 10 ^ (e0 - 5).toNat)
    let e := if m0 = 1000000 then e0 + 1 else e0
    let m := if m0 = 1000000 then 100000 else m0
    let ds := Nat.toDigits 10 m
    let sign := if x < 0 then [Char.ofNat 45] else []
    let body :=
      if e < -4 ∨ 6 ≤ e then
        let ex := Nat.toDigits 10 e.natAbs
        ds.take 1 ++ pointAnd (ds.drop 1) ++ [Char.ofNat 101] ++
          [if e < 0 then Char.ofNat 45 else Char.ofNat 43] ++
          (if ex.length < 2 then Char.ofNat 48 :: ex else ex)
      else if 0 ≤ e then
        ds.take (e.toNat + 1) ++ pointAnd (ds.drop (e.toNat + 1))
      else
        Char.ofNat 48 :: pointAnd (List.replicate ((-e).toNat - 1) (Char.ofNat 48) ++ ds)
    sign ++ body

/-! ## The transposed CSV file -/

/-- Source: `getline(stream, token, delim)`: `none` when the stream is at its
end (nothing can be extracted); otherwise the characters before the first
delimiter, and the stream after that delimiter. -/
def getlineDelim (delim : Char) (stream : Str) : Option (Str × Str) :=
  match stream with
  | [] => none
  | _ :: _ =>
    some (stream.takeWhile (fun c => c ≠ delim), (stream.dropWhile (fun c => c ≠ delim)).drop 1)

/-- Source: the body of the loop of `splitCSVLine`: a token that is not empty
and both starts and ends with a double quote becomes
`token.substr(1, token.length() - 2)`.  (For the one-character token the length
argument wraps to `npos`; the substring from position 1 is empty either way.) -/
def stripQuotes (token : Str) : Str :=
  if token ≠ [] ∧ token.head? = some quoteChar ∧ token.getLast? = some quoteChar then
    (token.drop 1).take (token.length - 2)
  else token

/-- Source: the loop `while (getline(ss, token, ','))` of `splitCSVLine`; each
round consumes at least one character, so `fuel` rounds are enough for a stream
of fewer than `fuel` characters. -/
def splitCSVLineLoop : (fuel : Nat) → (ss : Str) → (tokens : List Str) → List Str
  | 0, _, tokens => tokens
  | fuel + 1, ss, tokens =>
    match getlineDelim commaChar ss with
    | none => tokens
    | some (token, rest) => splitCSVLineLoop fuel rest (tokens ++ [stripQuotes token])

/-- Source: `splitCSVLine`. -/
def splitCSVLine (line : Str) : List Str :=
  splitCSVLineLoop (line.length + 1) line []

/-- Source: `getline(file, line)`: the characters before the first newline, and
the rest of the file after it.  At the end of the file the line is empty. -/
def getline (file : Str) : Str × Str :=
  (file.takeWhile (fun c => c ≠ newlineChar), (file.dropWhile (fun c => c ≠ newlineChar)).drop 1)

/-- The three objects `loadWordFrequenciesFromTransposedCSV` works on. -/
structure Dataset where
  chainMap : ChainingHashMap
  openMap : OpenAddressingHashMap
  wordsOrder : List Str
deriving DecidableEq

/-- Source: the body of the column loop of `loadWordFrequenciesFromTransposedCSV`
for one column. -/
def loadColumn (d : Dataset) (column : Str × Str × Str) : Option Dataset :=
  let word := column.1
  if word = [] ∨ word = "Word".toList ∨ word = "word".toList then some d
  else
    match stod column.2.1, stod column.2.2 with
    | some spamFreq, some hamFreq =>
      let wordFreq : WordFreq := ⟨word, spamFreq, hamFreq⟩
      match d.chainMap.insert wordFreq with
      | none => none
      | some chainMap =>
        match d.openMap.insert wordFreq with
        | none => none
        | some o =>
          some { chainMap := chainMap, openMap := o.map, wordsOrder := d.wordsOrder ++ [word] }
    | _, _ => some d

/-- Source: the column loop of `loadWordFrequenciesFromTransposedCSV`. -/
def loadColumns : Dataset → List (Str × Str × Str) → Option Dataset
  | d, [] => some d
  | d, column :: rest =>
    match loadColumn d column with
    | none => none
    | some d1 => loadColumns d1 rest

/-- Source: `loadWordFrequenciesFromTransposedCSV` from the three lines on:
split, compare the field counts, then the column loop. -/
def loadLines (wordsLine spamLine hamLine : Str) (d : Dataset) : Option Dataset :=
  let words := splitCSVLine wordsLine
  let spamCounts := splitCSVLine spamLine
  let hamCounts := splitCSVLine hamLine
  if spamCounts.length ≠ words.length ∨ hamCounts.length ≠ words.length then some d
  else loadColumns d (words.zip (spamCounts.zip hamCounts))

/-- Source: `loadWordFrequenciesFromTransposedCSV`; `file` is the content of
the file, `none` when it cannot be opened. -/
def loadWordFrequenciesFromTransposedCSV (file : Option Str) (d : Dataset) : Option Dataset :=
  match file with
  | none => some d
  | some content =>
    let l1 := getline content
    let l2 := getline l1.2
    let l3 := getline l2.2
    loadLines l1.1 l2.1 l3.1 d

/-- Source: one of the three loops of `saveWordFrequenciesToTransposedCSV`:
the fields separated by commas, then `endl`. -/
def csvLine (fields : List Str) : Str :=
  (List.intercalate [commaChar] fields) ++ [newlineChar]

/-- Source: `saveWordFrequenciesToTransposedCSV` once the words have been
looked up: `rows` pairs each word of `wordsOrder` with the result of
`wordMap->search`.  The result is the text written to the file. -/
def saveRows (rows : List (Str × Option WordFreq)) : Str :=
  csvLine (rows.map fun r => [quoteChar] ++ r.1 ++ [quoteChar]) ++
  csvLine (rows.map fun r => showDouble (match r.2 with | some wf => wf.spamFreq | none => 0)) ++
  csvLine (rows.map fun r => showDouble (match r.2 with | some wf => wf.hamFreq | none => 0))

/-- Source: `saveWordFrequenciesToTransposedCSV`, for a store given through the
`HashMap*` interface. -/
def saveWordFrequenciesToTransposedCSV (wordsOrder : List Str)
    (search : Str → Option WordFreq) : Str :=
  saveRows (wordsOrder.map fun w => (w, search w))

/-! ## Feedback -/

/-- Source: `struct AppData`, without the widgets. -/
structure AppData where
  wordsOrder : List Str
  chainMap : ChainingHashMap
  openMap : OpenAddressingHashMap
  currentEmailWords : List Str
  spamThreshold : ℚ
deriving DecidableEq

/-- Source: `::tolower` in the C locale: the letters `A` to `Z` become `a` to
`z`, every other character is unchanged. -/
def tolower (c : Char) : Char := c.toLower

/-- Source: `isalnum` in the C locale: the letters `A` to `Z`, `a` to `z` and the
digits `0` to `9`. -/
def isalnum (c : Char) : Bool := c.isAlphanum

/-- Source: the normalisation in `updateFrequencies` and in
`on_classify_button_clicked`: `transform(..., ::tolower)` followed by the
removal of every character that is not `isalnum`. -/
def normalizeWord (word : Str) : Str :=
  (word.map tolower).filter isalnum

/-- A write through the pointer returned by `ChainingHashMap::search`: the first
node of the chain whose word is `key` gets the new content. -/
def ChainingHashMap.writeChain (key : Str) (wf : WordFreq) : List WordFreq → List WordFreq
  | [] => []
  | node :: next =>
    if node.word = key then wf :: next else node :: ChainingHashMap.writeChain key wf next

/-- A write through the pointer returned by `search(key)`, in the store. -/
def ChainingHashMap.write (m : ChainingHashMap) (key : Str) (wf : WordFreq) : ChainingHashMap :=
  let index := (HashMap.hash key m.size).toNat
  { m with table := m.table.set index (ChainingHashMap.writeChain key wf (m.table.getD index [])) }

/-- Source: the body of the loop of `updateFrequencies` for one word. -/
def updateWord (isSpam : Bool) (app : AppData) (rawWord : Str) : Option AppData :=
  let word := normalizeWord rawWord
  if word = [] then some app
  else
    match app.chainMap.search word with
    | none => none
    | some (some wf) =>
      let wf1 : WordFreq :=
        if isSpam then { wf with spamFreq := wf.spamFreq + 1 }
        else { wf with hamFreq := wf.hamFreq + 1 }
      some { app with chainMap := app.chainMap.write word wf1 }
    | some none =>
      let newWf : WordFreq := ⟨word, if isSpam then 1 else 0, if isSpam then 0 else 1⟩
      match app.chainMap.insert newWf with
      | none => none
      | some chainMap =>
        match app.openMap.insert newWf with
        | none => none
        | some o =>
          some { app with
            chainMap := chainMap
            openMap := o.map
            wordsOrder := app.wordsOrder ++ [word] }

/-- Source: the loop of `updateFrequencies` over `app->currentEmailWords`. -/
def updateWords (isSpam : Bool) : AppData → List Str → Option AppData
  | app, [] => some app
  | app, word :: rest =>
    match updateWord isSpam app word with
    | none => none
    | some app1 => updateWords isSpam app1 rest

/-- Source: `updateFrequencies`, the state it leaves. -/
def updateFrequencies (app : AppData) (isSpam : Bool) : Option AppData :=
  updateWords isSpam app app.currentEmailWords

/-- Source: the call `saveWordFrequenciesToTransposedCSV(path, wordsOrder, &chainMap)`:
every word is looked up in the chaining store, then the three lines are
written. -/
def saveFromChain (wordsOrder : List Str) (m : ChainingHashMap) : Option Str :=
  match wordsOrder.mapM (fun w => (m.search w).map (fun r => (w, r))) with
  | none => none
  | some rows => some (saveRows rows)

/-- Source: the last statement of `updateFrequencies`: the text saved to the
CSV file, from the ordered list and the chaining store. -/
def updateFrequenciesFile (app : AppData) (isSpam : Bool) : Option Str :=
  match updateFrequencies app isSpam with
  | none => none
  | some app1 => saveFromChain app1.wordsOrder app1.chainMap

/-! ## Example data -/

/-- The example dataset of the specification as a CSV file: words `free` and
`meeting`, spam counts 9 and 1, ham counts 1 and 9. -/
def exampleCSV : Str := [quoteChar] ++ "free".toList ++ [quoteChar, commaChar, quoteChar] ++
  "meeting".toList ++ [quoteChar, newlineChar] ++ "9,1".toList ++ [newlineChar] ++
  "1,9".toList ++ [newlineChar]

/-- Freshly constructed stores of capacity `n` and an empty ordered list. -/
def Dataset.fresh (n : Nat) : Dataset :=
  { chainMap := ChainingHashMap.mk0 n, openMap := OpenAddressingHashMap.mk0 n, wordsOrder := [] }

/-- The application state after start-up on `file`, with stores of capacity
`n`, and `words` as the tokens of the current e-mail. -/
def AppData.start (n : Nat) (file : Str) (words : List Str) : Option AppData :=
  (loadWordFrequenciesFromTransposedCSV (some file) (Dataset.fresh n)).map fun d =>
    { wordsOrder := d.wordsOrder, chainMap := d.chainMap, openMap := d.openMap,
      currentEmailWords := words, spamThreshold := 7 / 10 }

/-- The example dataset as a store seen through the `HashMap*` interface. -/
def exampleStore (w : Str) : Option WordFreq :=
  if w = "free".toList then some ⟨"free".toList, 9, 1⟩
  else if w = "meeting".toList then some ⟨"meeting".toList, 1, 9⟩
  else none

/-! ## The classifier, in the words of the specification -/

/-- The specification's per-token score: `spamCount / (spamCount + hamCount)`
for a token that has an entry with positive total, nothing otherwise. -/
def tokenRatio (search : Str → Option WordFreq) (word : Str) : Option ℚ :=
  match search word with
  | some wf =>
    if wf.spamFreq + wf.hamFreq > 0 then some (wf.spamFreq / (wf.spamFreq + wf.hamFreq))
    else none
  | none => none

/-- The scores of the matching token occurrences, in order. -/
def matchedRatios (search : Str → Option WordFreq) (words : List Str) : List ℚ :=
  words.filterMap (tokenRatio search)

/-- The arithmetic mean of a list, `0` for the empty list. -/
def meanOrZero (l : List ℚ) : ℚ :=
  if l = [] then 0 else l.sum / (l.length : ℚ)

/-- The dataset as the ordered sequence of `(word, spamFreq, hamFreq)` triples:
each word of the ordered list with the counts of its entry in the chaining
store.  `none` when a listed word has no entry or cannot be looked up. -/
def Dataset.triples (d : Dataset) : Option (List (Str × ℚ × ℚ)) :=
  d.wordsOrder.mapM fun w =>
    match d.chainMap.search w with
    | some (some wf) => some (w, wf.spamFreq, wf.hamFreq)
    | _ => none

/-- A CSV file with the single word `hello`, spam count 1000001, ham count 3. -/
def millionCSV : Str := [quoteChar] ++ "hello".toList ++ [quoteChar, newlineChar] ++
  "1000001".toList ++ [newlineChar] ++ "3".toList ++ [newlineChar]

/-- A probing store of capacity 3 after the inserts of `free`, `meeting` and
`offer`. -/
def fullStore3 : Option OpenAddressingHashMap :=
  (((OpenAddressingHashMap.mk0 3).insert ⟨"free".toList, 9, 1⟩).bind fun o1 =>
    (o1.map.insert ⟨"meeting".toList, 1, 9⟩).bind fun o2 =>
      o2.map.insert ⟨"offer".toList, 5, 5⟩).map fun o3 => o3.map

/-! ## Well-formed stores -/

/-- The bucket index of `key` in a table of `size` buckets is not negative
(it is negative exactly when the accumulator of `key` is `INT_MIN` and `size`
does not divide `2^31`). -/
def HashMap.validKey (size : Nat) (key : Str) : Prop := 0 ≤ HashMap.hash key size

/-- Validity of a key is decided by computing its bucket index. -/
instance HashMap.validKey.decidable (size : Nat) (key : Str) :
    Decidable (HashMap.validKey size key) :=
  inferInstanceAs (Decidable (0 ≤ HashMap.hash key size))

/-- The chain in which `key` is looked for, for an index inside the table. -/
def ChainingHashMap.bucket (m : ChainingHashMap) (key : Str) : List WordFreq :=
  m.table.getD (HashMap.hash key m.size).toNat []

/-- A well-formed chaining store, as the constructor and `insert` produce it:
`size` buckets, each entry in the bucket of its hash, no word twice in a
bucket, and `count` the number of nodes. -/
structure ChainingHashMap.WF (m : ChainingHashMap) : Prop where
  size_pos : 0 < m.size
  length_eq : m.table.length = m.size
  home : ∀ (i : Nat) (b : List WordFreq), m.table[i]? = some b →
    ∀ wf ∈ b, HashMap.hash wf.word m.size = (i : Int)
  nodup : ∀ b ∈ m.table, (b.map WordFreq.word).Nodup
  count_eq : m.count = (((m.table.map List.length).sum : Nat) : Int)

/-- A probing store with the table its constructor allocates: `size` slots. -/
def OpenAddressingHashMap.Shape (m : OpenAddressingHashMap) : Prop :=
  0 < m.size ∧ m.table.length = m.size

/-- The counts `(spamFreq, hamFreq)` the chaining store holds for `w`;
`(0, 0)` when `w` has no entry. -/
def ChainingHashMap.counts (m : ChainingHashMap) (w : Str) : ℚ × ℚ :=
  match m.search w with
  | some (some wf) => (wf.spamFreq, wf.hamFreq)
  | _ => (0, 0)

/-- What one occurrence of a token adds to the counts under a label. -/
def feedbackUnit (isSpam : Bool) : ℚ × ℚ := if isSpam then (1, 0) else (0, 1)

/-- The bucket index of `key` as a position in the table. -/
def HashMap.home (size : Nat) (key : Str) : Nat := (HashMap.hash key size).toNat

/-- The slot visited at step `k` of the probe sequence that starts at slot `h`
of a table of `n` slots. -/
def probeSlot (n h k : Nat) : Nat := (h + k) % n

/-- The steps `i, ..., i + k - 1` of the probe sequence of `key` all meet
occupied slots that hold other words. -/
def OpenAddressingHashMap.Skips (m : OpenAddressingHashMap) (key : Str) (i k : Nat) : Prop :=
  ∀ k1, i ≤ k1 → k1 < i + k → ∃ wf1,
    m.table[probeSlot m.size (HashMap.home m.size key) k1]? = some (true, wf1) ∧ wf1.word ≠ key

/-- A well-formed probing store, as the constructor and `insert` produce it:
`size` slots; every occupied slot is reached by the probe sequence of its word
through occupied slots that hold other words; `count` is the number of occupied
slots. -/
structure OpenAddressingHashMap.WF (m : OpenAddressingHashMap) : Prop where
  shape : m.Shape
  reach : ∀ (j : Nat) (wf : WordFreq), m.table[j]? = some (true, wf) →
    HashMap.validKey m.size wf.word ∧
    ∃ k, k < m.size ∧ probeSlot m.size (HashMap.home m.size wf.word) k = j ∧
      ∀ k1, k1 < k → ∃ wf1,
        m.table[probeSlot m.size (HashMap.home m.size wf.word) k1]? = some (true, wf1) ∧
        wf1.word ≠ wf.word
  count_eq : m.count = (((m.table.filter (fun s => s.1)).length : Nat) : Int)

/-- A sequence of calls of `ChainingHashMap::insert`. -/
def ChainingHashMap.insertAll : ChainingHashMap → List WordFreq → Option ChainingHashMap
  | m, [] => some m
  | m, e :: es =>
    match m.insert e with
    | none => none
    | some m1 => ChainingHashMap.insertAll m1 es

/-- A sequence of calls of `OpenAddressingHashMap::insert`. -/
def OpenAddressingHashMap.insertAll :
    OpenAddressingHashMap → List WordFreq → Option OpenAddressingHashMap
  | m, [] => some m
  | m, e :: es =>
    match m.insert e with
    | none => none
    | some o => OpenAddressingHashMap.insertAll o.map es

/-! ## More example data -/

/-- A CSV file whose first column is headed `WORD` (upper case) with the counts
5 and 3, followed by the column `free` with the counts 9 and 1. -/
def upperHeaderCSV : Str := [quoteChar] ++ "WORD".toList ++ [quoteChar, commaChar, quoteChar] ++
  "free".toList ++ [quoteChar, newlineChar] ++ "5,9".toList ++ [newlineChar] ++
  "3,1".toList ++ [newlineChar]

/-- The three texts `on_update_threshold_button_clicked` can put on the result
label: `Threshold updated successfully`, `Threshold must be between 0.0 and 1.0`
and `Invalid threshold value`. -/
inductive ThresholdLabel where
  | updated
  | outOfRange
  | invalid
deriving DecidableEq

/-- Source: `on_update_threshold_button_clicked`: the text of the entry is
parsed with `stod`; a value in `[0, 1]` is stored in `app->spamThreshold`; any
other value, and a text that does not parse, leave the state as it is.  The
second component is the message shown on the result label. -/
def on_update_threshold_button_clicked (threshold_text : Str) (app : AppData) :
    AppData × ThresholdLabel :=
  match stod threshold_text with
  | some new_threshold =>
    if new_threshold ≥ 0 ∧ new_threshold ≤ 1 then
      ({ app with spamThreshold := new_threshold }, ThresholdLabel.updated)
    else (app, ThresholdLabel.outOfRange)
  | none => (app, ThresholdLabel.invalid)

/-- Source: `EmailClassifier::setThreshold`, `threshold = thresh;` (the
function is defined but no code calls it: every classifier is constructed from
`app->spamThreshold`). -/
def EmailClassifier.setThreshold (_threshold thresh : ℚ) : ℚ := thresh

/-! ## The events of a session -/

/-- What happens to the data of the application: a CSV file is loaded, a
labelled token list is fed back, or a threshold text is submitted. -/
inductive Event where
  | load (file : Option Str)
  | feedback (words : List Str) (isSpam : Bool)
  | threshold (text : Str)

/-- Source: `main`: `AppData app;` (both stores constructed with the same
capacity, 10007 in the source), `app.spamThreshold = 0.7`. -/
def AppData.init (n : Nat) : AppData :=
  { wordsOrder := [], chainMap := ChainingHashMap.mk0 n, openMap := OpenAddressingHashMap.mk0 n,
    currentEmailWords := [], spamThreshold := 7 / 10 }

/-- One event: `loadWordFrequenciesFromTransposedCSV` on the stores and list of
the application, `updateFrequencies` on a token list, or
`on_update_threshold_button_clicked`. -/
def AppData.step (app : AppData) : Event → Option AppData
  | Event.load file =>
    (loadWordFrequenciesFromTransposedCSV file
        { chainMap := app.chainMap, openMap := app.openMap, wordsOrder := app.wordsOrder }).map
      fun d => { app with chainMap := d.chainMap, openMap := d.openMap, wordsOrder := d.wordsOrder }
  | Event.feedback words isSpam =>
    updateFrequencies { app with currentEmailWords := words } isSpam
  | Event.threshold text => some (on_update_threshold_button_clicked text app).1

/-- A sequence of events; `none` when one of them has no defined result. -/
def AppData.run : AppData → List Event → Option AppData
  | app, [] => some app
  | app, ev :: evs =>
    match app.step ev with
    | none => none
    | some app1 => AppData.run app1 evs
/-! ## Invariants of a session -/

/-- No orphans between the ordered list and the chaining store: the store is
well formed, every listed word has an entry, and the word of every entry is
listed. -/
def NoOrphans (chainMap : ChainingHashMap) (wordsOrder : List Str) : Prop :=
  chainMap.WF ∧
  (∀ w ∈ wordsOrder, ∃ wf, chainMap.search w = some (some wf)) ∧
  (∀ b ∈ chainMap.table, ∀ wf ∈ b, wf.word ∈ wordsOrder)

/-- Source: `ss >> word` on a `stringstream`: leading whitespace is skipped, then
the characters up to the next whitespace (or the end) are extracted. The result
is the word and the rest of the stream; `none` when no character is extracted
(the stream fails and the `while` loop ends). -/
def extractWord (s : Str) : Option (Str × Str) :=
  let s1 := s.dropWhile isspace
  let word := s1.takeWhile fun c => !isspace c
  if word = [] then none else some (word, s1.dropWhile fun c => !isspace c)

/-- Source: the `while (ss >> word)` loop of `on_classify_button_clicked`: each
extracted word is lowercased, stripped of its non-alphanumeric characters and
pushed to `currentEmailWords` when it is not empty. `fuel` bounds the number of
extractions. -/
def tokenizeLoop : Nat → Str → List Str → List Str
  | 0, _, currentEmailWords => currentEmailWords
  | fuel + 1, ss, currentEmailWords =>
    match extractWord ss with
    | none => currentEmailWords
    | some (word, rest) =>
      let word1 := normalizeWord word
      tokenizeLoop fuel rest
        (if word1 ≠ [] then currentEmailWords ++ [word1] else currentEmailWords)

/-- Source: the tokenization in `on_classify_button_clicked`:
`currentEmailWords.clear()` followed by the extraction loop over the whole text
(every extraction consumes a character, so the length of the text bounds the
number of extractions). -/
def tokenize (emailText : Str) : List Str :=
  tokenizeLoop emailText.length emailText []

/-- The whitespace-delimited words of a text, in the words of the specification:
the text is cut at every whitespace character and the empty pieces are left
out. -/
def whitespaceWords (text : Str) : List Str :=
  (text.splitOnP isspace).filter fun w => w ≠ []

/-- A lowercase ASCII letter or a decimal digit. -/
def isLowerOrDigit (c : Char) : Prop :=
  (97 ≤ c.toNat ∧ c.toNat ≤ 122) ∨ (48 ≤ c.toNat ∧ c.toNat ≤ 57)
/-! ## The filter and sort query -/

/-- Source: `struct FilterSortData`, as the callback reads it: the text of each
entry widget and the active index of each combo box (0 is the first item, -1 is
no selection). -/
structure FilterSortData where
  alpha_entry : Str
  spam_count_entry : Str
  ham_count_entry : Str
  spam_score_entry : Str
  ham_score_entry : Str
  spam_count_combo : Int
  ham_count_combo : Int
  spam_score_combo : Int
  ham_score_combo : Int
  sort_combo : Int

/-- The four thresholds of `on_apply_filter_button_clicked`. -/
structure FilterThresholds where
  spam_count_threshold : ℚ
  ham_count_threshold : ℚ
  spam_score_threshold : ℚ
  ham_score_threshold : ℚ
deriving DecidableEq

/-- Source: `if (!str.empty()) threshold = stod(str);` on a threshold that is
0.0: the value of the threshold afterwards, `none` when `stod` throws. -/
def entryValue (entry : Str) : Option ℚ :=
  if entry ≠ [] then stod entry else some 0

/-- Source: the `try` block of `on_apply_filter_button_clicked`: the thresholds
start at 0.0 and the non-empty texts are parsed by `std::stod` in the order spam
count, ham count, spam score, ham score; the first text on which `stod` throws
ends the block, and the thresholds not yet assigned stay 0.0. -/
def parseThresholds (fs : FilterSortData) : FilterThresholds :=
  match entryValue fs.spam_count_entry with
  | none => ⟨0, 0, 0, 0⟩
  | some t1 =>
    match entryValue fs.ham_count_entry with
    | none => ⟨t1, 0, 0, 0⟩
    | some t2 =>
      match entryValue fs.spam_score_entry with
      | none => ⟨t1, t2, 0, 0⟩
      | some t3 =>
        match entryValue fs.ham_score_entry with
        | none => ⟨t1, t2, t3, 0⟩
        | some t4 => ⟨t1, t2, t3, t4⟩

/-- Source: `s.find(pat) != string::npos`: `pat` occurs in `s` as a run of
consecutive characters. -/
def strContains (s pat : Str) : Bool :=
  match s with
  | [] => pat.isEmpty
  | c :: r => pat.isPrefixOf (c :: r) || strContains r pat

/-- Source: `operator<` of `std::string`: the lexicographic order of the
character codes, a proper prefix coming first. -/
def strLt : Str → Str → Bool
  | [], [] => false
  | [], _ :: _ => true
  | _ :: _, [] => false
  | a :: as, b :: bs =>
    if a.toNat < b.toNat then true
    else if b.toNat < a.toNat then false
    else strLt as bs

/-- Source: `spam_score` in `on_apply_filter_button_clicked` (and `score_a`,
`score_b` in its comparator): `spamFreq / (spamFreq + hamFreq)` when the total
is positive, else 0.0. -/
def spam_score (wf : WordFreq) : ℚ :=
  if wf.spamFreq + wf.hamFreq > 0 then wf.spamFreq / (wf.spamFreq + wf.hamFreq) else 0

/-- Source: `ham_score` in `on_apply_filter_button_clicked`. -/
def ham_score (wf : WordFreq) : ℚ :=
  if wf.spamFreq + wf.hamFreq > 0 then wf.hamFreq / (wf.spamFreq + wf.hamFreq) else 0

/-- Source: one of the four nested conditions of the filter: the entry text is
empty, or the direction is "above" and `value >= threshold`, or the direction
is not "above" and `value <= threshold`. -/
def numericPass (entry : Str) (above : Bool) (value threshold : ℚ) : Bool :=
  entry.isEmpty || (above && decide (value ≥ threshold)) ||
    (!above && decide (value ≤ threshold))

/-- Source: the body of the filter loop for a word that has the entry `wf`:
the substring test on the lowercased word, then the four numeric conditions
(`above` is `gtk_combo_box_get_active(...) == 0`). -/
def filterWord (fs : FilterSortData) (word : Str) (wf : WordFreq) : Bool :=
  let alpha_filter_str := fs.alpha_entry.map tolower
  let t := parseThresholds fs
  let word_lower := word.map tolower
  if !alpha_filter_str.isEmpty && !strContains word_lower alpha_filter_str then false
  else
    numericPass fs.spam_count_entry (fs.spam_count_combo == 0) wf.spamFreq
        t.spam_count_threshold &&
      numericPass fs.ham_count_entry (fs.ham_count_combo == 0) wf.hamFreq
        t.ham_count_threshold &&
      numericPass fs.spam_score_entry (fs.spam_score_combo == 0) (spam_score wf)
        t.spam_score_threshold &&
      numericPass fs.ham_score_entry (fs.ham_score_combo == 0) (ham_score wf)
        t.ham_score_threshold

/-- Source: the loop `for (const string& word : app->wordsOrder)` of
`on_apply_filter_button_clicked`: a word without an entry is passed over, a
word with an entry that passes the filter is appended to `filtered_words`
together with a copy of its entry. `none` when a lookup is undefined. -/
def collectWords (fs : FilterSortData) (chainMap : ChainingHashMap) :
    List Str → List (Str × WordFreq) → Option (List (Str × WordFreq))
  | [], filtered_words => some filtered_words
  | word :: rest, filtered_words =>
    match chainMap.search word with
    | none => none
    | some none => collectWords fs chainMap rest filtered_words
    | some (some wf) =>
      if filterWord fs word wf then
        collectWords fs chainMap rest (filtered_words ++ [(word, wf)])
      else collectWords fs chainMap rest filtered_words

/-- Source: the `switch (sort_criterion)` of `on_apply_filter_button_clicked`,
with `std::sort` as the parameter `sort`: the five cases call it with their
comparator, any other index leaves the rows as they are. -/
def sortWords (sort : ((Str × WordFreq) → (Str × WordFreq) → Bool) →
    List (Str × WordFreq) → List (Str × WordFreq))
    (sort_criterion : Int) (filtered_words : List (Str × WordFreq)) : List (Str × WordFreq) :=
  if sort_criterion = 0 then sort (fun a b => strLt a.1 b.1) filtered_words
  else if sort_criterion = 1 then
    sort (fun a b => decide (a.2.spamFreq > b.2.spamFreq)) filtered_words
  else if sort_criterion = 2 then
    sort (fun a b => decide (a.2.hamFreq > b.2.hamFreq)) filtered_words
  else if sort_criterion = 3 then
    sort (fun a b => decide (spam_score a.2 > spam_score b.2)) filtered_words
  else if sort_criterion = 4 then
    sort (fun a b => decide (ham_score a.2 > ham_score b.2)) filtered_words
  else filtered_words

/-- Source: `on_apply_filter_button_clicked`: the words are collected and
filtered, sorted, and written to the list store as rows
`(word, spamFreq, hamFreq, spamFreq + hamFreq)`. -/
def on_apply_filter_button_clicked
    (sort : ((Str × WordFreq) → (Str × WordFreq) → Bool) →
      List (Str × WordFreq) → List (Str × WordFreq))
    (fs : FilterSortData) (app : AppData) : Option (List (Str × ℚ × ℚ × ℚ)) :=
  (collectWords fs app.chainMap app.wordsOrder []).map fun filtered_words =>
    (sortWords sort fs.sort_combo filtered_words).map fun pair =>
      (pair.1, pair.2.spamFreq, pair.2.hamFreq, pair.2.spamFreq + pair.2.hamFreq)

/-- The condition of the query on a word with the entry `wf`, in the words of
the specification: the lowercased filter substring, if not empty, occurs in the
lowercased word, and each of the four numeric predicates has an empty text or
is satisfied (`>=` for "above", the first item of its combo box, `<=`
otherwise) by the threshold `t`. -/
def FilterKeeps (fs : FilterSortData) (t : FilterThresholds) (word : Str) (wf : WordFreq) : Prop :=
  (fs.alpha_entry = [] ∨ List.IsInfix (fs.alpha_entry.map tolower) (word.map tolower)) ∧
  (fs.spam_count_entry = [] ∨ (fs.spam_count_combo = 0 ∧ wf.spamFreq ≥ t.spam_count_threshold) ∨
    (fs.spam_count_combo ≠ 0 ∧ wf.spamFreq ≤ t.spam_count_threshold)) ∧
  (fs.ham_count_entry = [] ∨ (fs.ham_count_combo = 0 ∧ wf.hamFreq ≥ t.ham_count_threshold) ∨
    (fs.ham_count_combo ≠ 0 ∧ wf.hamFreq ≤ t.ham_count_threshold)) ∧
  (fs.spam_score_entry = [] ∨ (fs.spam_score_combo = 0 ∧ spam_score wf ≥ t.spam_score_threshold) ∨
    (fs.spam_score_combo ≠ 0 ∧ spam_score wf ≤ t.spam_score_threshold)) ∧
  (fs.ham_score_entry = [] ∨ (fs.ham_score_combo = 0 ∧ ham_score wf ≥ t.ham_score_threshold) ∨
    (fs.ham_score_combo ≠ 0 ∧ ham_score wf ≤ t.ham_score_threshold))

/-- The row the filter loop adds for a word, if any. -/
def keptRow (fs : FilterSortData) (chainMap : ChainingHashMap) (word : Str) :
    Option (Str × WordFreq) :=
  match chainMap.search word with
  | some (some wf) => if filterWord fs word wf then some (word, wf) else none
  | _ => none

/-- The requirement of `std::sort` on its comparator: a strict weak ordering
(irreflexive, transitive, and with a transitive "neither is less"). -/
def StrictWeakOrder {α : Type} (comp : α → α → Bool) : Prop :=
  (∀ a, comp a a = false) ∧
  (∀ a b c, comp a b = true → comp b c = true → comp a c = true) ∧
  (∀ a b c, comp a b = false → comp b c = false → comp a c = false)

/-- The contract of `std::sort`: for a comparator that is a strict weak
ordering, the result is a rearrangement of the input in which no element is
less than an earlier one. The order of equivalent elements is not specified. -/
def SortContract (sort : ((Str × WordFreq) → (Str × WordFreq) → Bool) →
    List (Str × WordFreq) → List (Str × WordFreq)) : Prop :=
  ∀ comp rows, StrictWeakOrder comp →
    (sort comp rows).Perm rows ∧ (sort comp rows).Pairwise fun a b => comp b a = false

/-- A sort that meets the contract of `std::sort` and keeps equivalent elements
in their input order: insertion sort. -/
def insertionSortBy (comp : (Str × WordFreq) → (Str × WordFreq) → Bool)
    (rows : List (Str × WordFreq)) : List (Str × WordFreq) :=
  rows.insertionSort fun a b => comp b a = false

/-- The state after loading `content` into empty stores of capacity `n` (the
initial state when the load is undefined). -/
def AppData.loaded (n : Nat) (content : Str) : AppData :=
  ((AppData.init n).run [Event.load (some content)]).getD (AppData.init n)

/-- The filter input with every entry empty, every direction "above" and the
alphabetical sort. -/
def FilterSortData.blank : FilterSortData :=
  { alpha_entry := [], spam_count_entry := [], ham_count_entry := [], spam_score_entry := [],
    ham_score_entry := [], spam_count_combo := 0, ham_count_combo := 0, spam_score_combo := 0,
    ham_score_combo := 0, sort_combo := 0 }
/-! ## Highlighting -/

/-- Source: `totalFreq` in `highlightWords`: `wf->spamFreq + wf->hamFreq`, a
`double` addition. -/
def totalFreq (wf : WordFreq) : ℚ := roundDouble (wf.spamFreq + wf.hamFreq)

/-- Source: `contribution` in `highlightWords`:
`(wf->spamFreq - wf->hamFreq) / totalFreq`, a `double` subtraction followed by
a `double` division. -/
def contribution (wf : WordFreq) : ℚ :=
  roundDouble (roundDouble (wf.spamFreq - wf.hamFreq) / totalFreq wf)

/-- Source: `min(5, static_cast<int>(v) + 1)`: the conversion drops the
fraction (towards zero); `none` when the result does not fit an `int` or the
addition overflows. -/
def bucketLevel (v : ℚ) : Option Int :=
  if -2147483648 ≤ Int.tdiv v.num v.den ∧ Int.tdiv v.num v.den < 2147483647 then
    some (min 5 (Int.tdiv v.num v.den + 1))
  else none

/-- The tag `highlightWords` applies to a word: `spam-<level>` or
`ham-<level>`. -/
inductive HighlightTag where
  | spam (level : Int)
  | ham (level : Int)
deriving DecidableEq

/-- Source: the body of `if (inWord)` in `highlightWords` for an extracted
`word`: the lookup, the guard `totalFreq > 0`, the contribution and the level
computed with `double` arithmetic (`0.2` is the `double` nearest to 1/5). The
result is the tag applied, if any; the outer `none` is an undefined conversion
to `int`. -/
def highlightTag (search : Str → Option WordFreq) (word : Str) : Option (Option HighlightTag) :=
  match search word with
  | none => some none
  | some wf =>
    if totalFreq wf > 0 then
      if contribution wf > 0 then
        (bucketLevel (roundDouble (contribution wf / roundDouble (1 / 5)))).map fun level =>
          some (HighlightTag.spam level)
      else if contribution wf < 0 then
        (bucketLevel (roundDouble (-contribution wf / roundDouble (1 / 5)))).map fun level =>
          some (HighlightTag.ham level)
      else some none
    else some none

/-- The level of the claim: `min(5, floor(c / 0.2) + 1)` in exact arithmetic. -/
def exactLevel (c : ℚ) : Int := min 5 (⌊c / (1 / 5)⌋ + 1)

/-- A store with the single entry `(w, spam, ham)`. -/
def singleStore (w : Str) (spam ham : ℚ) (key : Str) : Option WordFreq :=
  if key = w then some ⟨w, spam, ham⟩ else none

/-- The fields of a line in the words of the specification: the line split at
every comma (a line with `k` commas has `k + 1` fields, empty ones included). -/
def commaFields (line : Str) : List Str :=
  line.splitOnP fun c => c == commaChar

/-- The fields `splitCSVLine` reads from a line: none for the empty line, and
the field after a final comma is left out. -/
def streamFields (line : Str) : List Str :=
  if line = [] then []
  else if line.getLast? = some commaChar then (commaFields line).dropLast
  else commaFields line
/-! ## Sequences of calls on a store -/

/-- A call on a store: `insert(data)` or `clear()`. -/
inductive StoreOp where
  | insert (data : WordFreq)
  | clear

/-- One call on a chaining store; `none` when the call is undefined. -/
def ChainingHashMap.applyOp (m : ChainingHashMap) : StoreOp → Option ChainingHashMap
  | StoreOp.insert data => m.insert data
  | StoreOp.clear => some m.clear

/-- A sequence of calls on a chaining store. -/
def ChainingHashMap.runOps : ChainingHashMap → List StoreOp → Option ChainingHashMap
  | m, [] => some m
  | m, op :: ops =>
    match m.applyOp op with
    | none => none
    | some m1 => ChainingHashMap.runOps m1 ops

/-- One call on a probing store; `none` when the call is undefined. -/
def OpenAddressingHashMap.applyOp (m : OpenAddressingHashMap) :
    StoreOp → Option OpenAddressingHashMap
  | StoreOp.insert data => (m.insert data).map fun o => o.map
  | StoreOp.clear => some m.clear

/-- A sequence of calls on a probing store. -/
def OpenAddressingHashMap.runOps :
    OpenAddressingHashMap → List StoreOp → Option OpenAddressingHashMap
  | m, [] => some m
  | m, op :: ops =>
    match m.applyOp op with
    | none => none
    | some m1 => OpenAddressingHashMap.runOps m1 ops

/-- Source: `HashMap::getLoadFactor`: `(double)count / size`. -/
def OpenAddressingHashMap.getLoadFactor (m : OpenAddressingHashMap) : ℚ :=
  (m.count : ℚ) / (m.size : ℚ)

/-- The counter of a store that looks words up by `search` is exact:
`getCount` is the number of distinct words for which `search` returns an entry
(`words` lists them, each once). -/
def CountExact (search : Str → Option (Option WordFreq)) (getCount : Int) : Prop :=
  ∃ words : List Str, words.Nodup ∧
    (∀ w, w ∈ words ↔ ∃ wf, search w = some (some wf)) ∧ getCount = (words.length : Int)
/-- Source: the `for` loop of `highlightWords` over the characters of the text
(the caller appends the blank the loop reads at `i == textStr.size()`): an
alphanumeric character is appended to `word`; any other character ends the
word in progress, which is looked up in the store and cleared. The result is
the sequence of the words looked up. -/
def highlightScan : List Char → Str → Bool → List Str → List Str
  | [], _, _, lookups => lookups
  | c :: rest, word, inWord, lookups =>
    if isalnum c then highlightScan rest (word ++ [c]) true lookups
    else if inWord then highlightScan rest [] false (lookups ++ [word])
    else highlightScan rest word inWord lookups

/-- Source: `highlightWords`: the words it extracts from the text and looks up
in the store, in order. -/
def highlightLookups (textStr : Str) : List Str :=
  highlightScan (textStr ++ [Char.ofNat 32]) [] false []

/-- A store with three entries whose scores are 0.6, 0.7 and 0.8: offer = (6, 4),
deal = (7, 3), win = (8, 2). -/
def boundaryStore (w : Str) : Option WordFreq :=
  if w = "offer".toList then some ⟨"offer".toList, 6, 4⟩
  else if w = "deal".toList then some ⟨"deal".toList, 7, 3⟩
  else if w = "win".toList then some ⟨"win".toList, 8, 2⟩
  else none
/-! ## `std::sort` of libstdc++ -/

/-- C7, evaluated at the key `bvsxcim` and the default capacity 10007: the
32-bit accumulator ends at `-2^31`, `abs` leaves it there, and the bucket index
returned by `hash` is `-1462`, which is not a valid index. -/
theorem hash_bvsxcim_negative :
    HashMap.hashVal "bvsxcim".toList = -2147483648 ∧
    absInt32 (HashMap.hashVal "bvsxcim".toList) = -2147483648 ∧
    HashMap.hash "bvsxcim".toList 10007 = -1462 ∧
    ¬ (0 ≤ HashMap.hash "bvsxcim".toList 10007) := by
  decide

/-- C8, evaluated on a freshly constructed `ChainingHashMap` of the default
capacity 10007 and the entry `("bvsxcim", 1, 0)`: the bucket index is `-1462`,
`table[index]` is outside the vector, and neither `insert` nor `search` has a
defined result. -/
theorem chaining_insert_bvsxcim_undefined :
    HashMap.hash "bvsxcim".toList 10007 = -1462 ∧
    (ChainingHashMap.mk0 10007).insert ⟨"bvsxcim".toList, 1, 0⟩ = none ∧
    (ChainingHashMap.mk0 10007).search "bvsxcim".toList = none := by
  decide

/-- C1, evaluated at capacity 10007 and the one-element insert sequence
`("bvsxcim", 1, 0)`: in both stores the first table access is at index `-1462`,
so neither store reports "no entry" and neither returns an entry. -/
theorem both_stores_bvsxcim_undefined :
    (ChainingHashMap.mk0 10007).insert ⟨"bvsxcim".toList, 1, 0⟩ = none ∧
    (OpenAddressingHashMap.mk0 10007).insert ⟨"bvsxcim".toList, 1, 0⟩ = none ∧
    (ChainingHashMap.mk0 10007).search "bvsxcim".toList = none ∧
    (OpenAddressingHashMap.mk0 10007).search "bvsxcim".toList = none := by
  decide

/-- C9, evaluated on `ChainingHashMap::clear`: for every store, after `clear()`
the vector has no bucket left (not `size` of them), so every later `search` and
`insert` indexes outside the vector. -/
theorem chaining_clear_leaves_no_bucket (m : ChainingHashMap) (key : Str) (e : WordFreq) :
    m.clear.table.length = 0 ∧ m.clear.getCount = 0 ∧ m.clear.size = m.size ∧
    m.clear.search key = none ∧ m.clear.insert e = none := by
  refine ⟨rfl, rfl, rfl, ?_, ?_⟩
  · simp [ChainingHashMap.search, ChainingHashMap.clear, vecGet]
  · simp [ChainingHashMap.insert, ChainingHashMap.clear, vecGet]

/-- The sibling `OpenAddressingHashMap::clear` does rebuild the table: the
cleared store is the freshly constructed store of the same capacity. -/
theorem open_clear_eq_fresh (m : OpenAddressingHashMap) :
    m.clear = OpenAddressingHashMap.mk0 m.size ∧ m.clear.table.length = m.size := by
  simp [OpenAddressingHashMap.clear, OpenAddressingHashMap.mk0]

/-- C2, evaluated on the example dataset (`free` = (9, 1) in both stores of
capacity 10007) and the feedback "spam" for the token list `[free]`: before
the call both stores return (9, 1) for `free`; after it the chaining store
returns (10, 1) and the probing store still returns (9, 1). -/
theorem updateFrequencies_leaves_open_store_behind :
    ((AppData.start 10007 exampleCSV ["free".toList]).bind fun app =>
        app.chainMap.search "free".toList) = some (some ⟨"free".toList, 9, 1⟩) ∧
    ((AppData.start 10007 exampleCSV ["free".toList]).bind fun app =>
        app.openMap.search "free".toList) = some (some ⟨"free".toList, 9, 1⟩) ∧
    (((AppData.start 10007 exampleCSV ["free".toList]).bind fun app =>
        updateFrequencies app true).bind fun app1 =>
          app1.chainMap.search "free".toList) = some (some ⟨"free".toList, 10, 1⟩) ∧
    (((AppData.start 10007 exampleCSV ["free".toList]).bind fun app =>
        updateFrequencies app true).bind fun app1 =>
          app1.openMap.search "free".toList) = some (some ⟨"free".toList, 9, 1⟩) := by
  decide!

/-- C5, evaluated on the example dataset (capacity 10007) and the feedback
"spam" for the token list `[bvsxcim]`: the token is already normalized, its
bucket index is `-1462`, and the lookup in the chaining store is outside the
vector, so the call has no defined result. -/
theorem updateFrequencies_bvsxcim_undefined :
    normalizeWord "bvsxcim".toList = "bvsxcim".toList ∧
    (AppData.start 10007 exampleCSV ["bvsxcim".toList]).isSome = true ∧
    ((AppData.start 10007 exampleCSV ["bvsxcim".toList]).bind fun app =>
        updateFrequencies app true) = none := by
  decide!

/-- C3, evaluated on the dataset with the single word `hello` and the counts
(1000001, 3): the saved file holds `1e+06` for the spam count, and loading it
gives the triple `(hello, 1000000, 3)`. -/
theorem save_load_loses_digits :
    ((loadWordFrequenciesFromTransposedCSV (some millionCSV) (Dataset.fresh 10007)).bind
        Dataset.triples) = some [("hello".toList, 1000001, 3)] ∧
    ((loadWordFrequenciesFromTransposedCSV (some millionCSV) (Dataset.fresh 10007)).bind
        fun d => saveFromChain d.wordsOrder d.chainMap) =
      some ([quoteChar] ++ "hello".toList ++ [quoteChar, newlineChar] ++
        "1e+06".toList ++ [newlineChar] ++ "3".toList ++ [newlineChar]) ∧
    (((loadWordFrequenciesFromTransposedCSV (some millionCSV) (Dataset.fresh 10007)).bind
        fun d => saveFromChain d.wordsOrder d.chainMap).bind fun file =>
          (loadWordFrequenciesFromTransposedCSV (some file) (Dataset.fresh 10007)).bind
            Dataset.triples) = some [("hello".toList, 1000000, 3)] := by
  decide!

/-- C6 as stated fails at capacity 3: with `free`, `meeting` and `offer`
stored, the insert of the new word `hello` leaves the store as it was and
writes one line to standard output; the insert of the stored entry
`(free, 9, 1)` succeeds and also leaves the store as it was.  `insert` returns
nothing, so its caller is left with the same store in both cases. -/
theorem open_insert_full_gives_caller_nothing :
    fullStore3.isSome = true ∧
    (fullStore3.bind fun m => m.insert ⟨"hello".toList, 1, 0⟩) =
      fullStore3.map (fun m => ⟨m, ["Hash table is full!".toList]⟩) ∧
    (fullStore3.bind fun m => m.insert ⟨"free".toList, 9, 1⟩) =
      fullStore3.map (fun m => ⟨m, []⟩) ∧
    ((fullStore3.bind fun m => m.insert ⟨"hello".toList, 1, 0⟩).map fun o => o.map) =
      ((fullStore3.bind fun m => m.insert ⟨"free".toList, 9, 1⟩).map fun o => o.map) := by
  decide!

/-- An index inside the bounds reads an element of the vector. -/
theorem vecGet_of_range {α : Type} (t : List α) (i : Int) (h0 : 0 ≤ i)
    (h1 : i < (t.length : Int)) : ∃ x, vecGet t i = some x ∧ x ∈ t := by
  have hlt : i.toNat < t.length := by omega
  refine ⟨t[i.toNat], ?_, List.getElem_mem _⟩
  have hneg : ¬ i < 0 := by omega
  simp [vecGet, hneg, List.getElem?_eq_getElem hlt]

/-- Probing from a non-negative start index stays inside a table of positive
size. -/
theorem probe_index_range (index : Int) (i n : Nat) (h0 : 0 ≤ index) (hn : 0 < n) :
    0 ≤ Int.tmod (index + (i : Int)) (n : Int) ∧ Int.tmod (index + (i : Int)) (n : Int) < (n : Int) := by
  have h1 : 0 ≤ index + (i : Int) := by omega
  have h2 : (0 : Int) ≤ (n : Int) := by omega
  rw [Int.tmod_eq_emod h1 h2]
  exact ⟨Int.emod_nonneg _ (by omega), Int.emod_lt_of_pos _ (by omega)⟩

/-- When every slot is occupied by another word, the probe loop of `insert`
runs to its end from any position. -/
theorem insertLoop_full (m : OpenAddressingHashMap) (e : WordFreq) (index : Int)
    (hlen : m.table.length = m.size) (hpos : 0 < m.size) (h0 : 0 ≤ index)
    (hfull : ∀ slot ∈ m.table, slot.1 = true ∧ slot.2.word ≠ e.word) (left i : Nat) :
    OpenAddressingHashMap.insertLoop m e index left i =
      some ⟨m, ["Hash table is full!".toList]⟩ := by
  induction left generalizing i with
  | zero => rfl
  | succ left ih =>
    obtain ⟨hr0, hr1⟩ := probe_index_range index i m.size h0 hpos
    obtain ⟨slot, hs, hmem⟩ :=
      vecGet_of_range m.table (Int.tmod (index + (i : Int)) (m.size : Int)) hr0 (by rw [hlen]; exact hr1)
    obtain ⟨ho, hw⟩ := hfull slot hmem
    simp only [OpenAddressingHashMap.insertLoop, hs, ho, hw]
    simpa using ih (i + 1)

/-- C6, as the code has it: for every capacity `n > 0`, once all `n` slots of an
`OpenAddressingHashMap` are occupied, the insert of a word that is not stored
(and whose bucket index is not negative) changes nothing: the slots and the
count are unchanged and every lookup gives what it gave before.  The condition
is not handed to the caller: `insert` returns nothing and its only trace is the
line `Hash table is full!` on standard output. -/
theorem open_insert_full_noop (m : OpenAddressingHashMap) (e : WordFreq)
    (hpos : 0 < m.size) (hlen : m.table.length = m.size)
    (hfull : ∀ slot ∈ m.table, slot.1 = true ∧ slot.2.word ≠ e.word)
    (hhash : 0 ≤ HashMap.hash e.word m.size) :
    ∃ o, m.insert e = some o ∧ o.stdout = ["Hash table is full!".toList] ∧
      o.map = m ∧ o.map.table = m.table ∧ o.map.getCount = m.getCount ∧
      ∀ w, o.map.search w = m.search w := by
  refine ⟨⟨m, ["Hash table is full!".toList]⟩, ?_, rfl, rfl, rfl, rfl, fun _ => rfl⟩
  exact insertLoop_full m e _ hlen hpos hhash hfull m.size 0

/-- C6 at capacity 3: the store holding `free`, `meeting` and `offer`, and the
new entry `(hello, 1, 0)`. -/
theorem open_insert_full_noop_witness :
    ∃ m, fullStore3 = some m ∧ 0 < m.size ∧ m.table.length = m.size ∧
      (∀ slot ∈ m.table, slot.1 = true ∧ slot.2.word ≠ "hello".toList) ∧
      0 ≤ HashMap.hash "hello".toList m.size ∧
      ∃ o, m.insert ⟨"hello".toList, 1, 0⟩ = some o ∧
        o.stdout = ["Hash table is full!".toList] ∧
        o.map = m ∧ o.map.table = m.table ∧ o.map.getCount = m.getCount ∧
        ∀ w, o.map.search w = m.search w := by
  have hs : fullStore3.isSome = true := by decide!
  obtain ⟨m, hm⟩ := Option.isSome_iff_exists.mp hs
  have hsize : m.size = 3 := by
    have : fullStore3.map (fun m => m.size) = some 3 := by decide!
    rw [hm] at this
    simpa using this
  have hlen : m.table.length = m.size := by
    have : fullStore3.map (fun m => decide (m.table.length = m.size)) = some true := by decide!
    rw [hm] at this
    simpa using this
  have hfull : ∀ slot ∈ m.table, slot.1 = true ∧ slot.2.word ≠ "hello".toList := by
    have : fullStore3.map (fun m => decide (∀ slot ∈ m.table,
        slot.1 = true ∧ slot.2.word ≠ "hello".toList)) = some true := by decide!
    rw [hm] at this
    simpa using this
  have hh : 0 ≤ HashMap.hash "hello".toList m.size := by
    rw [hsize]; decide
  exact ⟨m, hm, by omega, hlen, hfull, hh,
    open_insert_full_noop m ⟨"hello".toList, 1, 0⟩ (by omega) hlen hfull hh⟩

/-- C10: for every three lines whose split field counts are not all equal,
`loadWordFrequenciesFromTransposedCSV` leaves the chaining store, the probing
store and the ordered word list exactly as they were; also for every file whose
first three lines they are. -/
theorem load_format_error_no_mutation (wordsLine spamLine hamLine : Str) (d : Dataset)
    (h : ¬ ((splitCSVLine wordsLine).length = (splitCSVLine spamLine).length ∧
            (splitCSVLine spamLine).length = (splitCSVLine hamLine).length)) :
    loadLines wordsLine spamLine hamLine d = some d ∧
    ∀ file : Str, (getline file).1 = wordsLine →
      (getline (getline file).2).1 = spamLine →
      (getline (getline (getline file).2).2).1 = hamLine →
      loadWordFrequenciesFromTransposedCSV (some file) d = some d := by
  have hl : loadLines wordsLine spamLine hamLine d = some d := by
    unfold loadLines
    have hc : (splitCSVLine spamLine).length ≠ (splitCSVLine wordsLine).length ∨
        (splitCSVLine hamLine).length ≠ (splitCSVLine wordsLine).length := by
      by_contra hcon
      push_neg at hcon
      exact h ⟨hcon.1.symm, by rw [hcon.1, hcon.2]⟩
    simp only [hc, if_true]
  refine ⟨hl, ?_⟩
  intro file h1 h2 h3
  simp only [loadWordFrequenciesFromTransposedCSV, h1, h2, h3, hl]

/-- C10 at the lines `a,b` / `1` / `2,3` (field counts 2, 1, 2) and freshly
constructed stores of capacity 10007. -/
theorem load_format_error_no_mutation_witness :
    ¬ ((splitCSVLine "a,b".toList).length = (splitCSVLine "1".toList).length ∧
       (splitCSVLine "1".toList).length = (splitCSVLine "2,3".toList).length) ∧
    loadLines "a,b".toList "1".toList "2,3".toList (Dataset.fresh 10007) =
      some (Dataset.fresh 10007) :=
  ⟨by decide,
   (load_format_error_no_mutation "a,b".toList "1".toList "2,3".toList (Dataset.fresh 10007)
      (by decide)).1⟩

/-! ### Chains -/

theorem searchChain_eq_none_iff (w : Str) (b : List WordFreq) :
    ChainingHashMap.searchChain w b = none ↔ w ∉ b.map WordFreq.word := by
  induction b with
  | nil => simp [ChainingHashMap.searchChain]
  | cons node next ih =>
    by_cases h : node.word = w
    · simp [ChainingHashMap.searchChain, h]
    · have h' : ¬ w = node.word := fun hh => h hh.symm
      simp [ChainingHashMap.searchChain, h, h', ih]

theorem searchChain_some (w : Str) (b : List WordFreq) (wf : WordFreq)
    (h : ChainingHashMap.searchChain w b = some wf) : wf.word = w ∧ wf ∈ b := by
  induction b with
  | nil => simp [ChainingHashMap.searchChain] at h
  | cons node next ih =>
    by_cases hn : node.word = w
    · simp [ChainingHashMap.searchChain, hn] at h
      subst h
      exact ⟨hn, List.mem_cons_self _ _⟩
    · simp [ChainingHashMap.searchChain, hn] at h
      exact ⟨(ih h).1, List.mem_cons_of_mem _ (ih h).2⟩

theorem searchChain_insertChain (e : WordFreq) (w : Str) (b : List WordFreq) :
    ChainingHashMap.searchChain w (ChainingHashMap.insertChain e b).1 =
      if w = e.word then some e else ChainingHashMap.searchChain w b := by
  induction b with
  | nil =>
    by_cases h : w = e.word
    · simp [ChainingHashMap.insertChain, ChainingHashMap.searchChain, h]
    · have h' : ¬ e.word = w := fun hh => h hh.symm
      simp [ChainingHashMap.insertChain, ChainingHashMap.searchChain, h, h']
  | cons node next ih =>
    by_cases hn : node.word = e.word
    · by_cases h : w = e.word
      · simp [ChainingHashMap.insertChain, ChainingHashMap.searchChain, hn, h]
      · have h' : ¬ e.word = w := fun hh => h hh.symm
        simp [ChainingHashMap.insertChain, ChainingHashMap.searchChain, hn, h, h']
    · by_cases h : w = e.word
      · subst h
        simp [ChainingHashMap.insertChain, ChainingHashMap.searchChain, hn, ih]
      · by_cases h3 : node.word = w
        · simp [ChainingHashMap.insertChain, ChainingHashMap.searchChain, hn, h3, h]
        · simp [ChainingHashMap.insertChain, ChainingHashMap.searchChain, hn, h3, ih, h]

theorem insertChain_flag (e : WordFreq) (b : List WordFreq) :
    (ChainingHashMap.insertChain e b).2 = true ↔ ChainingHashMap.searchChain e.word b = none := by
  induction b with
  | nil => simp [ChainingHashMap.insertChain, ChainingHashMap.searchChain]
  | cons node next ih =>
    by_cases hn : node.word = e.word
    · simp [ChainingHashMap.insertChain, ChainingHashMap.searchChain, hn]
    · simp [ChainingHashMap.insertChain, ChainingHashMap.searchChain, hn, ih]

theorem insertChain_words (e : WordFreq) (b : List WordFreq) :
    (ChainingHashMap.insertChain e b).1.map WordFreq.word =
      if (ChainingHashMap.insertChain e b).2 then b.map WordFreq.word ++ [e.word]
      else b.map WordFreq.word := by
  induction b with
  | nil => simp [ChainingHashMap.insertChain]
  | cons node next ih =>
    by_cases hn : node.word = e.word
    · simp [ChainingHashMap.insertChain, hn]
    · simp only [ChainingHashMap.insertChain, hn, if_false, List.map_cons, ih]
      split <;> simp

theorem insertChain_length (e : WordFreq) (b : List WordFreq) :
    (ChainingHashMap.insertChain e b).1.length =
      if (ChainingHashMap.insertChain e b).2 then b.length + 1 else b.length := by
  have h := congrArg List.length (insertChain_words e b)
  rw [List.length_map] at h
  rw [h]
  split <;> simp

theorem insertChain_mem (e : WordFreq) (b : List WordFreq) (wf : WordFreq)
    (h : wf ∈ (ChainingHashMap.insertChain e b).1) : wf = e ∨ wf ∈ b := by
  induction b with
  | nil => simpa [ChainingHashMap.insertChain] using h
  | cons node next ih =>
    by_cases hn : node.word = e.word
    · simp [ChainingHashMap.insertChain, hn] at h
      rcases h with h | h
      · exact Or.inl h
      · exact Or.inr (List.mem_cons_of_mem _ h)
    · simp [ChainingHashMap.insertChain, hn] at h
      rcases h with h | h
      · exact Or.inr (by rw [h]; exact List.mem_cons_self _ _)
      · rcases ih h with h | h
        · exact Or.inl h
        · exact Or.inr (List.mem_cons_of_mem _ h)

theorem insertChain_nodup (e : WordFreq) (b : List WordFreq)
    (h : (b.map WordFreq.word).Nodup) :
    ((ChainingHashMap.insertChain e b).1.map WordFreq.word).Nodup := by
  rw [insertChain_words]
  split
  · rename_i hf
    have hnot : e.word ∉ b.map WordFreq.word :=
      (searchChain_eq_none_iff e.word b).mp ((insertChain_flag e b).mp hf)
    rw [List.nodup_append]
    refine ⟨h, List.nodup_singleton _, ?_⟩
    intro x hx hx'
    simp at hx'
    subst hx'
    exact hnot hx
  · exact h

theorem searchChain_writeChain (key : Str) (wf1 : WordFreq) (hw : wf1.word = key) (w : Str)
    (b : List WordFreq) :
    ChainingHashMap.searchChain w (ChainingHashMap.writeChain key wf1 b) =
      if w = key then (ChainingHashMap.searchChain key b).map (fun _ => wf1)
      else ChainingHashMap.searchChain w b := by
  induction b with
  | nil => simp [ChainingHashMap.writeChain, ChainingHashMap.searchChain]
  | cons node next ih =>
    by_cases hn : node.word = key
    · by_cases h : w = key
      · simp [ChainingHashMap.writeChain, ChainingHashMap.searchChain, hn, h, hw]
      · have h0 : ¬ key = w := fun hh => h hh.symm
        have h1 : ¬ wf1.word = w := by rw [hw]; exact h0
        simp [ChainingHashMap.writeChain, ChainingHashMap.searchChain, hn, h, h0, h1]
    · by_cases h : w = key
      · subst h
        simp [ChainingHashMap.writeChain, ChainingHashMap.searchChain, hn, ih]
      · by_cases h3 : node.word = w
        · simp [ChainingHashMap.writeChain, ChainingHashMap.searchChain, hn, h, h3]
        · simp [ChainingHashMap.writeChain, ChainingHashMap.searchChain, hn, h, h3, ih]

theorem writeChain_words (key : Str) (wf1 : WordFreq) (hw : wf1.word = key)
    (b : List WordFreq) :
    (ChainingHashMap.writeChain key wf1 b).map WordFreq.word = b.map WordFreq.word := by
  induction b with
  | nil => simp [ChainingHashMap.writeChain]
  | cons node next ih =>
    by_cases hn : node.word = key
    · simp [ChainingHashMap.writeChain, hn, hw]
    · simp [ChainingHashMap.writeChain, hn, ih]

theorem writeChain_mem (key : Str) (wf1 : WordFreq) (b : List WordFreq) (wf : WordFreq)
    (h : wf ∈ ChainingHashMap.writeChain key wf1 b) : wf = wf1 ∨ wf ∈ b := by
  induction b with
  | nil => simp [ChainingHashMap.writeChain] at h
  | cons node next ih =>
    by_cases hn : node.word = key
    · simp [ChainingHashMap.writeChain, hn] at h
      rcases h with h | h
      · exact Or.inl h
      · exact Or.inr (List.mem_cons_of_mem _ h)
    · simp [ChainingHashMap.writeChain, hn] at h
      rcases h with h | h
      · exact Or.inr (by rw [h]; exact List.mem_cons_self _ _)
      · rcases ih h with h | h
        · exact Or.inl h
        · exact Or.inr (List.mem_cons_of_mem _ h)
/-! ### The chaining store -/

theorem vecGet_nonneg {α : Type} (t : List α) (i : Int) (h : 0 ≤ i) :
    vecGet t i = t[i.toNat]? := by
  have : ¬ i < 0 := by omega
  simp [vecGet, this]

theorem hash_lt_size (key : Str) (n : Nat) (hn : 0 < n) : HashMap.hash key n < (n : Int) :=
  Int.tmod_lt_of_pos _ (by exact_mod_cast hn)

theorem validKey_index (key : Str) (n : Nat) (hn : 0 < n) (hv : HashMap.validKey n key) :
    (HashMap.hash key n).toNat < n ∧ ((HashMap.hash key n).toNat : Int) = HashMap.hash key n := by
  have h1 := hash_lt_size key n hn
  have h0 : 0 ≤ HashMap.hash key n := hv
  omega

theorem sum_length_set {α : Type} (l : List (List α)) (i : Nat) (x : List α)
    (h : i < l.length) :
    ((l.set i x).map List.length).sum + l[i].length = (l.map List.length).sum + x.length := by
  induction l generalizing i with
  | nil => simp at h
  | cons a l ih =>
    cases i with
    | zero => simp; omega
    | succ i =>
      have h' : i < l.length := by simpa using h
      have := ih i h'
      simp only [List.set_cons_succ, List.map_cons, List.sum_cons, List.getElem_cons_succ]
      omega

theorem chain_bucket_getElem? (m : ChainingHashMap) (hwf : m.WF) (key : Str)
    (hv : HashMap.validKey m.size key) :
    m.table[(HashMap.hash key m.size).toNat]? = some (m.bucket key) := by
  have hi := (validKey_index key m.size hwf.size_pos hv).1
  have hi' : (HashMap.hash key m.size).toNat < m.table.length := by
    rw [hwf.length_eq]; exact hi
  simp [ChainingHashMap.bucket, List.getD_eq_getElem?_getD, List.getElem?_eq_getElem hi']

theorem chain_search_eq (m : ChainingHashMap) (hwf : m.WF) (key : Str)
    (hv : HashMap.validKey m.size key) :
    m.search key = some (ChainingHashMap.searchChain key (m.bucket key)) := by
  unfold ChainingHashMap.search
  rw [vecGet_nonneg _ _ hv, chain_bucket_getElem? m hwf key hv]

theorem chain_insert_eq (m : ChainingHashMap) (hwf : m.WF) (e : WordFreq)
    (hv : HashMap.validKey m.size e.word) :
    m.insert e = some { m with
      table := m.table.set (HashMap.hash e.word m.size).toNat
        (ChainingHashMap.insertChain e (m.bucket e.word)).1
      count := if (ChainingHashMap.insertChain e (m.bucket e.word)).2 then m.count + 1
        else m.count } := by
  unfold ChainingHashMap.insert
  simp only [vecGet_nonneg _ _ hv, chain_bucket_getElem? m hwf e.word hv]

theorem chain_wf_mk0 (n : Nat) (hn : 0 < n) : (ChainingHashMap.mk0 n).WF where
  size_pos := hn
  length_eq := by simp [ChainingHashMap.mk0]
  home := by
    intro i b hb wf hwf
    simp [ChainingHashMap.mk0, List.getElem?_replicate] at hb
    rw [hb.2] at hwf
    simp at hwf
  nodup := by
    intro b hb
    simp [ChainingHashMap.mk0] at hb
    rw [hb.2]
    simp
  count_eq := by
    simp [ChainingHashMap.mk0]

/-- What the table looks like after a change of the bucket of `key`. -/
theorem chain_wf_set (m : ChainingHashMap) (hwf : m.WF) (key : Str)
    (hv : HashMap.validKey m.size key) (b1 : List WordFreq) (c : Int)
    (hhome : ∀ wf ∈ b1, wf ∈ m.bucket key ∨ wf.word = key)
    (hnodup : (b1.map WordFreq.word).Nodup)
    (hcount : c + (m.bucket key).length = m.count + b1.length) :
    ({ m with table := m.table.set (HashMap.hash key m.size).toNat b1, count := c } :
      ChainingHashMap).WF := by
  obtain ⟨hi, hcast⟩ := validKey_index key m.size hwf.size_pos hv
  have hb := chain_bucket_getElem? m hwf key hv
  have hi' : (HashMap.hash key m.size).toNat < m.table.length := by rw [hwf.length_eq]; exact hi
  refine ⟨hwf.size_pos, ?_, ?_, ?_, ?_⟩
  · simp [hwf.length_eq]
  · intro i b hib wf hmem
    simp only [List.getElem?_set] at hib
    by_cases hidx : (HashMap.hash key m.size).toNat = i
    · simp only [hidx, if_true] at hib
      split at hib
      · have hbb : b1 = b := by simpa using hib
        subst hbb
        rcases hhome wf hmem with h | h
        · have := hwf.home _ _ hb wf h
          rw [this, hidx]
        · rw [h, ← hidx, hcast]
      · simp at hib
    · simp only [hidx, if_false] at hib
      exact hwf.home i b hib wf hmem
  · intro b hbmem
    rcases List.mem_or_eq_of_mem_set hbmem with h | h
    · exact hwf.nodup b h
    · rw [h]; exact hnodup
  · have hsum := sum_length_set m.table (HashMap.hash key m.size).toNat b1 hi'
    have hbl : m.table[(HashMap.hash key m.size).toNat] = m.bucket key := by
      have := List.getElem?_eq_getElem hi'
      rw [hb] at this
      exact (Option.some.inj this).symm
    rw [hbl] at hsum
    have hc := hwf.count_eq
    simp only
    omega

theorem chain_bucket_set (m : ChainingHashMap) (hwf : m.WF) (key w : Str)
    (hv : HashMap.validKey m.size key) (hw : HashMap.validKey m.size w) (b1 : List WordFreq)
    (c : Int) :
    ({ m with table := m.table.set (HashMap.hash key m.size).toNat b1, count := c } :
      ChainingHashMap).bucket w =
      if HashMap.hash w m.size = HashMap.hash key m.size then b1 else m.bucket w := by
  obtain ⟨hi, hcast⟩ := validKey_index key m.size hwf.size_pos hv
  obtain ⟨hj, hcastw⟩ := validKey_index w m.size hwf.size_pos hw
  have hi' : (HashMap.hash key m.size).toNat < m.table.length := by rw [hwf.length_eq]; exact hi
  simp only [ChainingHashMap.bucket, List.getD_eq_getElem?_getD, List.getElem?_set]
  by_cases h : HashMap.hash w m.size = HashMap.hash key m.size
  · simp [h, hi']
  · have h2 : ¬ (HashMap.hash key m.size).toNat = (HashMap.hash w m.size).toNat := by omega
    simp [h, h2]

/-- The finite-map behaviour of `ChainingHashMap::insert`, for keys whose bucket
index is not negative: the insert is defined, the store stays well formed (in
particular no bucket holds a word twice), a later `search(w)` returns the
inserted entry when `w` is its word and otherwise what it returned before, and
`count` grows by one exactly when the word had no entry. -/
theorem chaining_insert_finite_map (m : ChainingHashMap) (hwf : m.WF) (e : WordFreq)
    (he : HashMap.validKey m.size e.word) :
    ∃ m1, m.insert e = some m1 ∧ m1.WF ∧ m1.size = m.size ∧
      (∀ w, HashMap.validKey m.size w →
        m1.search w = if w = e.word then some (some e) else m.search w) ∧
      (m.search e.word = some none → m1.getCount = m.getCount + 1) ∧
      (m.search e.word ≠ some none → m1.getCount = m.getCount) := by
  have hnew : ({ m with
      table := m.table.set (HashMap.hash e.word m.size).toNat
        (ChainingHashMap.insertChain e (m.bucket e.word)).1
      count := if (ChainingHashMap.insertChain e (m.bucket e.word)).2 then m.count + 1
        else m.count } : ChainingHashMap).WF := by
    apply chain_wf_set m hwf e.word he
    · intro wf hmem
      rcases insertChain_mem e _ wf hmem with h | h
      · exact Or.inr (by rw [h])
      · exact Or.inl h
    · have hb := chain_bucket_getElem? m hwf e.word he
      exact insertChain_nodup e _ (hwf.nodup _ (List.getElem?_mem hb))
    · rw [insertChain_length]
      split
      · simp only [if_true, Nat.cast_add, Nat.cast_one]; omega
      · simp
  refine ⟨_, chain_insert_eq m hwf e he, hnew, rfl, ?_, ?_, ?_⟩
  · intro w hw
    rw [chain_search_eq _ hnew w hw, chain_search_eq m hwf w hw,
      chain_bucket_set m hwf e.word w he hw]
    by_cases hh : HashMap.hash w m.size = HashMap.hash e.word m.size
    · simp only [hh, if_true, searchChain_insertChain]
      have hbw : m.bucket w = m.bucket e.word := by simp [ChainingHashMap.bucket, hh]
      rw [hbw]
      split <;> rfl
    · have hne : ¬ w = e.word := fun h => hh (by rw [h])
      simp [hh, hne]
  · intro hs
    rw [chain_search_eq m hwf e.word he] at hs
    have hf := (insertChain_flag e (m.bucket e.word)).mpr (Option.some.inj hs)
    simp [ChainingHashMap.getCount, hf]
  · intro hs
    rw [chain_search_eq m hwf e.word he] at hs
    have hf : ¬ (ChainingHashMap.insertChain e (m.bucket e.word)).2 = true := by
      intro hcon
      exact hs (congrArg some ((insertChain_flag e (m.bucket e.word)).mp hcon))
    simp [ChainingHashMap.getCount, hf]
/-! ### Feedback on the chaining store -/

theorem open_insertLoop_defined (m : OpenAddressingHashMap) (hs : m.Shape) (e : WordFreq)
    (index : Int) (h0 : 0 ≤ index) (left i : Nat) :
    ∃ o, OpenAddressingHashMap.insertLoop m e index left i = some o ∧
      o.map.size = m.size ∧ o.map.table.length = m.table.length := by
  induction left generalizing i with
  | zero => exact ⟨_, rfl, rfl, rfl⟩
  | succ left ih =>
    obtain ⟨hr0, hr1⟩ := probe_index_range index i m.size h0 hs.1
    obtain ⟨slot, hslot, -⟩ :=
      vecGet_of_range m.table (Int.tmod (index + (i : Int)) (m.size : Int)) hr0
        (by rw [hs.2]; exact hr1)
    simp only [OpenAddressingHashMap.insertLoop, hslot]
    by_cases h1 : slot.1 = true
    · by_cases h2 : slot.2.word = e.word
      · simp only [h1, h2]
        exact ⟨_, rfl, rfl, by simp⟩
      · simp only [h1, h2]
        simpa using ih (i + 1)
    · have h1' : slot.1 = false := by simpa using h1
      simp only [h1']
      exact ⟨_, rfl, rfl, by simp⟩

theorem open_insert_defined (m : OpenAddressingHashMap) (hs : m.Shape) (e : WordFreq)
    (hv : HashMap.validKey m.size e.word) :
    ∃ o, m.insert e = some o ∧ o.map.size = m.size ∧ o.map.Shape := by
  obtain ⟨o, ho, h1, h2⟩ := open_insertLoop_defined m hs e _ hv m.size 0
  exact ⟨o, ho, h1, by rw [OpenAddressingHashMap.Shape, h1, h2]; exact hs⟩

theorem chain_write_spec (m : ChainingHashMap) (hwf : m.WF) (key : Str)
    (hv : HashMap.validKey m.size key) (wf wf1 : WordFreq) (hw1 : wf1.word = key)
    (hfound : m.search key = some (some wf)) :
    (m.write key wf1).WF ∧ (m.write key wf1).size = m.size ∧
    ∀ w, HashMap.validKey m.size w →
      (m.write key wf1).search w = if w = key then some (some wf1) else m.search w := by
  have hb := chain_bucket_getElem? m hwf key hv
  have hwr : m.write key wf1 = { m with
      table := m.table.set (HashMap.hash key m.size).toNat
        (ChainingHashMap.writeChain key wf1 (m.bucket key))
      count := m.count } := rfl
  have hnew : (m.write key wf1).WF := by
    rw [hwr]
    apply chain_wf_set m hwf key hv
    · intro x hx
      rcases writeChain_mem key wf1 _ x hx with h | h
      · exact Or.inr (by rw [h, hw1])
      · exact Or.inl h
    · rw [writeChain_words key wf1 hw1]
      exact hwf.nodup _ (List.getElem?_mem hb)
    · have := congrArg List.length (writeChain_words key wf1 hw1 (m.bucket key))
      simp only [List.length_map] at this
      omega
  refine ⟨hnew, rfl, ?_⟩
  intro w hw
  rw [chain_search_eq _ hnew w hw, chain_search_eq m hwf w hw, hwr,
    chain_bucket_set m hwf key w hv hw]
  rw [chain_search_eq m hwf key hv] at hfound
  have hfound' := Option.some.inj hfound
  by_cases hh : HashMap.hash w m.size = HashMap.hash key m.size
  · have hbw : m.bucket w = m.bucket key := by simp [ChainingHashMap.bucket, hh]
    simp only [hh, if_true, searchChain_writeChain key wf1 hw1, hbw]
    by_cases hwk : w = key
    · simp [hwk, hfound']
    · simp [hwk]
  · have hne : ¬ w = key := fun h => hh (by rw [h])
    simp [hh, hne]

theorem chain_counts_of_search (m : ChainingHashMap) (w : Str) (r : Option WordFreq)
    (h : m.search w = some r) :
    m.counts w = (r.map fun wf => (wf.spamFreq, wf.hamFreq)).getD (0, 0) := by
  simp only [ChainingHashMap.counts, h]
  cases r <;> rfl

/-- One round of the feedback loop, for a normalized token with valid bucket
indices. -/
theorem updateWord_counts (isSpam : Bool) (app : AppData) (t : Str)
    (hc : app.chainMap.WF) (ho : app.openMap.Shape)
    (hn : normalizeWord t = t) (hne : t ≠ [])
    (hv : HashMap.validKey app.chainMap.size t) (hvo : HashMap.validKey app.openMap.size t) :
    ∃ app1, updateWord isSpam app t = some app1 ∧ app1.chainMap.WF ∧ app1.openMap.Shape ∧
      app1.chainMap.size = app.chainMap.size ∧ app1.openMap.size = app.openMap.size ∧
      ∀ w, HashMap.validKey app.chainMap.size w →
        app1.chainMap.counts w =
          if w = t then app.chainMap.counts w + feedbackUnit isSpam else app.chainMap.counts w := by
  have hsearch := chain_search_eq app.chainMap hc t hv
  unfold updateWord
  simp only [hn, hne, if_false]
  cases hfind : ChainingHashMap.searchChain t (app.chainMap.bucket t) with
  | some wf =>
    rw [hfind] at hsearch
    simp only [hsearch]
    have hword := (searchChain_some t _ wf hfind).1
    have hw1 : (if isSpam = true then { wf with spamFreq := wf.spamFreq + 1 }
        else { wf with hamFreq := wf.hamFreq + 1 } : WordFreq).word = t := by
      split <;> exact hword
    obtain ⟨hwf1, hsize, hs1⟩ := chain_write_spec app.chainMap hc t hv wf _ hw1 hsearch
    refine ⟨_, rfl, hwf1, ho, hsize, rfl, ?_⟩
    intro w hw
    have h1 := hs1 w hw
    by_cases hwt : w = t
    · subst hwt
      simp only [if_true] at h1 ⊢
      rw [chain_counts_of_search _ _ _ h1,
        chain_counts_of_search _ _ _ hsearch]
      cases isSpam <;> simp [feedbackUnit]
    · simp only [hwt, if_false] at h1 ⊢
      unfold ChainingHashMap.counts
      rw [h1]
  | none =>
    rw [hfind] at hsearch
    simp only [hsearch]
    obtain ⟨m1, hins, hwf1, hsize, hs1, -, -⟩ :=
      chaining_insert_finite_map app.chainMap hc
        ⟨t, if isSpam = true then 1 else 0, if isSpam = true then 0 else 1⟩ hv
    obtain ⟨o, hoins, hosize, hoshape⟩ :=
      open_insert_defined app.openMap ho
        ⟨t, if isSpam = true then 1 else 0, if isSpam = true then 0 else 1⟩ hvo
    simp only [hins, hoins]
    refine ⟨_, rfl, hwf1, hoshape, hsize, hosize, ?_⟩
    intro w hw
    have h1 := hs1 w hw
    by_cases hwt : w = t
    · subst hwt
      simp only [if_true] at h1 ⊢
      rw [chain_counts_of_search _ _ _ h1,
        chain_counts_of_search _ _ _ hsearch]
      cases isSpam <;> simp [feedbackUnit]
    · simp only [hwt, if_false] at h1 ⊢
      unfold ChainingHashMap.counts
      rw [h1]

/-- The feedback loop over a list of normalized tokens. -/
theorem updateWords_counts (isSpam : Bool) (tokens : List Str) (app : AppData)
    (hc : app.chainMap.WF) (ho : app.openMap.Shape)
    (htok : ∀ t ∈ tokens, normalizeWord t = t ∧ t ≠ [] ∧
      HashMap.validKey app.chainMap.size t ∧ HashMap.validKey app.openMap.size t) :
    ∃ app1, updateWords isSpam app tokens = some app1 ∧ app1.chainMap.WF ∧
      app1.openMap.Shape ∧ app1.chainMap.size = app.chainMap.size ∧
      ∀ w, HashMap.validKey app.chainMap.size w →
        app1.chainMap.counts w =
          app.chainMap.counts w + ((tokens.count w : ℕ) : ℚ) • feedbackUnit isSpam := by
  induction tokens generalizing app with
  | nil =>
    refine ⟨app, rfl, hc, ho, rfl, ?_⟩
    intro w _
    simp
  | cons t ts ih =>
    obtain ⟨hn, hne, hv, hvo⟩ := htok t (List.mem_cons_self _ _)
    obtain ⟨app1, h1, hc1, ho1, hs1, hso1, hcount1⟩ :=
      updateWord_counts isSpam app t hc ho hn hne hv hvo
    obtain ⟨app2, h2, hc2, ho2, hs2, hcount2⟩ := ih app1 hc1 ho1 (by
      intro u hu
      obtain ⟨a, b, c, d⟩ := htok u (List.mem_cons_of_mem _ hu)
      exact ⟨a, b, by rw [hs1]; exact c, by rw [hso1]; exact d⟩)
    refine ⟨app2, ?_, hc2, ho2, by rw [hs2, hs1], ?_⟩
    · simp only [updateWords, h1, h2]
    · intro w hw
      rw [hcount2 w (by rw [hs1]; exact hw), hcount1 w hw]
      by_cases hwt : w = t
      · subst hwt
        simp only [if_true, List.count_cons_self, Nat.cast_add, Nat.cast_one]
        rw [add_smul, one_smul]
        abel
      · have hwt' : t ≠ w := fun h => hwt h.symm
        have hc0 : List.count w (t :: ts) = List.count w ts := by
          simp [List.count_cons, hwt']
        simp only [hwt, if_false, hc0]
/-- Feedback monotonicity on the chaining store, for tokens and words whose
bucket index is not negative: after `updateFrequencies` the labelled count of
every word is its value before the call (0 without an entry) plus the number of
occurrences of the word in the normalized token list, the other count is
unchanged, and no count is smaller than before. -/
theorem updateFrequencies_counts (app : AppData) (isSpam : Bool)
    (hc : app.chainMap.WF) (ho : app.openMap.Shape)
    (htok : ∀ t ∈ app.currentEmailWords, normalizeWord t = t ∧ t ≠ [] ∧
      HashMap.validKey app.chainMap.size t ∧ HashMap.validKey app.openMap.size t) :
    ∃ app1, updateFrequencies app isSpam = some app1 ∧ app1.chainMap.WF ∧
      ∀ w, HashMap.validKey app.chainMap.size w →
        app1.chainMap.counts w =
          (if isSpam
            then ((app.chainMap.counts w).1 + (app.currentEmailWords.count w : ℚ),
                  (app.chainMap.counts w).2)
            else ((app.chainMap.counts w).1,
                  (app.chainMap.counts w).2 + (app.currentEmailWords.count w : ℚ))) ∧
        (app.chainMap.counts w).1 ≤ (app1.chainMap.counts w).1 ∧
        (app.chainMap.counts w).2 ≤ (app1.chainMap.counts w).2 := by
  obtain ⟨app1, h1, hwf1, -, -, hcount⟩ :=
    updateWords_counts isSpam app.currentEmailWords app hc ho htok
  refine ⟨app1, h1, hwf1, ?_⟩
  intro w hw
  have h := hcount w hw
  have hnn : (0 : ℚ) ≤ (app.currentEmailWords.count w : ℚ) := Nat.cast_nonneg _
  have hfst := congrArg Prod.fst h
  have hsnd := congrArg Prod.snd h
  cases isSpam
  · simp [feedbackUnit] at hfst hsnd
    refine ⟨?_, ?_, ?_⟩
    · exact Prod.ext (by simpa using hfst) (by simpa using hsnd)
    · rw [hfst]
    · rw [hsnd]; linarith
  · simp [feedbackUnit] at hfst hsnd
    refine ⟨?_, ?_, ?_⟩
    · exact Prod.ext (by simpa using hfst) (by simpa using hsnd)
    · rw [hfst]; linarith
    · rw [hsnd]

/-- The feedback "spam" for the tokens `[offer, offer, free]` on fresh stores of
capacity 7: an instance of `updateFrequencies_counts`. -/
theorem updateFrequencies_counts_witness :
    ∃ app1, updateFrequencies
        ⟨[], ChainingHashMap.mk0 7, OpenAddressingHashMap.mk0 7,
          ["offer".toList, "offer".toList, "free".toList], 7 / 10⟩ true = some app1 ∧
      app1.chainMap.counts "offer".toList = (2, 0) := by
  obtain ⟨app1, h1, -, h2⟩ := updateFrequencies_counts
    ⟨[], ChainingHashMap.mk0 7, OpenAddressingHashMap.mk0 7,
      ["offer".toList, "offer".toList, "free".toList], 7 / 10⟩ true
    (chain_wf_mk0 7 (by decide)) ⟨by decide, by decide⟩ (by decide)
  refine ⟨app1, h1, ?_⟩
  have h3 := (h2 "offer".toList (by decide)).1
  rw [h3]
  have hc0 : (ChainingHashMap.mk0 7).counts "offer".toList = (0, 0) := by decide!
  have hc1 : List.count "offer".toList
      ["offer".toList, "offer".toList, "free".toList] = 2 := by decide
  simp only [hc0, hc1]
  norm_num

/-- The insert of `(free, 9, 1)` into a fresh chaining store of capacity 7: an
instance of `chaining_insert_finite_map`. -/
theorem chaining_insert_finite_map_witness :
    ∃ m1, (ChainingHashMap.mk0 7).insert ⟨"free".toList, 9, 1⟩ = some m1 ∧
      m1.search "free".toList = some (some ⟨"free".toList, 9, 1⟩) ∧
      m1.search "meeting".toList = some none ∧ m1.getCount = 1 := by
  obtain ⟨m1, h1, -, -, h2, h3, -⟩ := chaining_insert_finite_map (ChainingHashMap.mk0 7)
    (chain_wf_mk0 7 (by decide)) ⟨"free".toList, 9, 1⟩ (by decide)
  refine ⟨m1, h1, ?_, ?_, ?_⟩
  · simpa using h2 "free".toList (by decide)
  · have h := h2 "meeting".toList (by decide)
    have hne : ¬ "meeting".toList = "free".toList := by decide
    rw [if_neg hne] at h
    rw [h]
    decide
  · rw [h3 (by decide)]
    decide

/-! ### The probing store -/

theorem probeSlot_lt (n h k : Nat) (hn : 0 < n) : probeSlot n h k < n :=
  Nat.mod_lt _ hn

theorem probe_index_eq (key : Str) (n : Nat) (hn : 0 < n) (hv : HashMap.validKey n key)
    (i : Nat) :
    Int.tmod (HashMap.hash key n + (i : Int)) (n : Int) =
      ((probeSlot n (HashMap.home n key) i : Nat) : Int) := by
  have h0 : 0 ≤ HashMap.hash key n := hv
  have hc : ((HashMap.home n key : Nat) : Int) = HashMap.hash key n := by
    unfold HashMap.home; omega
  rw [Int.tmod_eq_emod (by omega) (by omega), ← hc]
  unfold probeSlot
  push_cast
  rfl

theorem vecGet_probe {α : Type} (t : List α) (key : Str) (n : Nat) (hn : 0 < n)
    (hv : HashMap.validKey n key) (i : Nat) :
    vecGet t (Int.tmod (HashMap.hash key n + (i : Int)) (n : Int)) =
      t[probeSlot n (HashMap.home n key) i]? := by
  rw [probe_index_eq key n hn hv i, vecGet_nonneg _ _ (by omega)]
  simp

theorem vecGet_natCast {α : Type} (t : List α) (j : Nat) : vecGet t (j : Int) = t[j]? := by
  rw [vecGet_nonneg _ _ (by omega)]
  simp

theorem shape_slot (m : OpenAddressingHashMap) (hs : m.Shape) (j : Nat) (hj : j < m.size) :
    ∃ slot, m.table[j]? = some slot := by
  have : j < m.table.length := by rw [hs.2]; exact hj
  exact ⟨m.table[j], List.getElem?_eq_getElem this⟩

theorem searchLoop_step (m : OpenAddressingHashMap) (hs : m.Shape) (key : Str)
    (hv : HashMap.validKey m.size key) (left i : Nat) (slot : Bool × WordFreq)
    (hslot : m.table[probeSlot m.size (HashMap.home m.size key) i]? = some slot) :
    OpenAddressingHashMap.searchLoop m key (HashMap.hash key m.size) (left + 1) i =
      if !slot.1 then some none
      else if slot.2.word = key then some (some slot.2)
      else OpenAddressingHashMap.searchLoop m key (HashMap.hash key m.size) left (i + 1) := by
  simp only [OpenAddressingHashMap.searchLoop, vecGet_probe m.table key m.size hs.1 hv i, hslot]

theorem insertLoop_step (m : OpenAddressingHashMap) (hs : m.Shape) (e : WordFreq)
    (hv : HashMap.validKey m.size e.word) (left i : Nat) (slot : Bool × WordFreq)
    (hslot : m.table[probeSlot m.size (HashMap.home m.size e.word) i]? = some slot) :
    OpenAddressingHashMap.insertLoop m e (HashMap.hash e.word m.size) (left + 1) i =
      if !slot.1 then
        some { map := { m with
                 table := m.table.set (probeSlot m.size (HashMap.home m.size e.word) i) (true, e)
                 count := m.count + 1 },
               stdout := [] }
      else if slot.2.word = e.word then
        some { map := { m with
                 table := m.table.set (probeSlot m.size (HashMap.home m.size e.word) i)
                   (slot.1, e) },
               stdout := [] }
      else OpenAddressingHashMap.insertLoop m e (HashMap.hash e.word m.size) left (i + 1) := by
  simp only [OpenAddressingHashMap.insertLoop, probe_index_eq e.word m.size hs.1 hv i,
    vecGet_natCast, hslot, Int.toNat_ofNat]

theorem searchLoop_skip (m : OpenAddressingHashMap) (hs : m.Shape) (key : Str)
    (hv : HashMap.validKey m.size key) (k left i total : Nat) (htot : total = left + k)
    (hsk : m.Skips key i k) :
    OpenAddressingHashMap.searchLoop m key (HashMap.hash key m.size) total i =
      OpenAddressingHashMap.searchLoop m key (HashMap.hash key m.size) left (i + k) := by
  subst htot
  induction k generalizing i with
  | zero => rfl
  | succ k ih =>
    obtain ⟨wf1, h1, h2⟩ := hsk i (le_refl _) (by omega)
    have hstep := searchLoop_step m hs key hv (left + k) i _ h1
    rw [show left + (k + 1) = left + k + 1 by omega, hstep]
    simp only [Bool.not_true, Bool.false_eq_true, if_false, h2]
    rw [ih (i + 1) (fun k1 ha hb => hsk k1 (by omega) (by omega))]
    congr 1
    omega

theorem insertLoop_skip (m : OpenAddressingHashMap) (hs : m.Shape) (e : WordFreq)
    (hv : HashMap.validKey m.size e.word) (k left i total : Nat) (htot : total = left + k)
    (hsk : m.Skips e.word i k) :
    OpenAddressingHashMap.insertLoop m e (HashMap.hash e.word m.size) total i =
      OpenAddressingHashMap.insertLoop m e (HashMap.hash e.word m.size) left (i + k) := by
  subst htot
  induction k generalizing i with
  | zero => rfl
  | succ k ih =>
    obtain ⟨wf1, h1, h2⟩ := hsk i (le_refl _) (by omega)
    have hstep := insertLoop_step m hs e hv (left + k) i _ h1
    rw [show left + (k + 1) = left + k + 1 by omega, hstep]
    simp only [Bool.not_true, Bool.false_eq_true, if_false, h2]
    rw [ih (i + 1) (fun k1 ha hb => hsk k1 (by omega) (by omega))]
    congr 1
    omega

theorem search_found (m : OpenAddressingHashMap) (hs : m.Shape) (key : Str)
    (hv : HashMap.validKey m.size key) (k : Nat) (hk : k < m.size) (hsk : m.Skips key 0 k)
    (wf : WordFreq)
    (hslot : m.table[probeSlot m.size (HashMap.home m.size key) k]? = some (true, wf))
    (hw : wf.word = key) : m.search key = some (some wf) := by
  unfold OpenAddressingHashMap.search
  rw [searchLoop_skip m hs key hv k (m.size - k - 1 + 1) 0 m.size (by omega) hsk,
    Nat.zero_add, searchLoop_step m hs key hv _ k _ hslot]
  simp [hw]

theorem search_empty (m : OpenAddressingHashMap) (hs : m.Shape) (key : Str)
    (hv : HashMap.validKey m.size key) (k : Nat) (hk : k < m.size) (hsk : m.Skips key 0 k)
    (x : WordFreq)
    (hslot : m.table[probeSlot m.size (HashMap.home m.size key) k]? = some (false, x)) :
    m.search key = some none := by
  unfold OpenAddressingHashMap.search
  rw [searchLoop_skip m hs key hv k (m.size - k - 1 + 1) 0 m.size (by omega) hsk,
    Nat.zero_add, searchLoop_step m hs key hv _ k _ hslot]
  simp
theorem searchLoop_none_of_absent (m : OpenAddressingHashMap) (hs : m.Shape) (key : Str)
    (hv : HashMap.validKey m.size key)
    (habs : ∀ (j : Nat) (wf : WordFreq), m.table[j]? = some (true, wf) → wf.word ≠ key)
    (left i : Nat) :
    OpenAddressingHashMap.searchLoop m key (HashMap.hash key m.size) left i = some none := by
  induction left generalizing i with
  | zero => rfl
  | succ left ih =>
    obtain ⟨slot, hslot⟩ := shape_slot m hs _ (probeSlot_lt m.size (HashMap.home m.size key) i hs.1)
    rw [searchLoop_step m hs key hv left i slot hslot]
    obtain ⟨occ, wf⟩ := slot
    cases occ with
    | false => simp
    | true =>
      have := habs _ wf hslot
      simp [this, ih]

theorem search_absent (m : OpenAddressingHashMap) (hs : m.Shape) (key : Str)
    (hv : HashMap.validKey m.size key)
    (habs : ∀ (j : Nat) (wf : WordFreq), m.table[j]? = some (true, wf) → wf.word ≠ key) :
    m.search key = some none :=
  searchLoop_none_of_absent m hs key hv habs m.size 0

theorem searchLoop_result (m : OpenAddressingHashMap) (hs : m.Shape) (key : Str)
    (hv : HashMap.validKey m.size key) (left i : Nat) :
    OpenAddressingHashMap.searchLoop m key (HashMap.hash key m.size) left i = some none ∨
    ∃ (j : Nat) (wf : WordFreq), m.table[j]? = some (true, wf) ∧ wf.word = key ∧
      OpenAddressingHashMap.searchLoop m key (HashMap.hash key m.size) left i = some (some wf) := by
  induction left generalizing i with
  | zero => exact Or.inl rfl
  | succ left ih =>
    obtain ⟨slot, hslot⟩ := shape_slot m hs _ (probeSlot_lt m.size (HashMap.home m.size key) i hs.1)
    rw [searchLoop_step m hs key hv left i slot hslot]
    obtain ⟨occ, wf⟩ := slot
    cases occ with
    | false => exact Or.inl (by simp)
    | true =>
      by_cases hw : wf.word = key
      · exact Or.inr ⟨_, wf, hslot, hw, by simp [hw]⟩
      · simpa [hw] using ih (i + 1)

theorem search_result (m : OpenAddressingHashMap) (hs : m.Shape) (key : Str)
    (hv : HashMap.validKey m.size key) :
    m.search key = some none ∨
    ∃ (j : Nat) (wf : WordFreq), m.table[j]? = some (true, wf) ∧ wf.word = key ∧
      m.search key = some (some wf) :=
  searchLoop_result m hs key hv m.size 0

theorem search_stored (m : OpenAddressingHashMap) (hwf : m.WF) (j : Nat) (wf : WordFreq)
    (hslot : m.table[j]? = some (true, wf)) : m.search wf.word = some (some wf) := by
  obtain ⟨hv, k, hk, hj, hpath⟩ := hwf.reach j wf hslot
  refine search_found m hwf.shape wf.word hv k hk ?_ wf (by rw [hj]; exact hslot) rfl
  intro k1 _ h1
  exact hpath k1 (by omega)

/-- A stored word is held by one slot only. -/
theorem stored_unique (m : OpenAddressingHashMap) (hwf : m.WF) (j1 j2 : Nat)
    (wf1 wf2 : WordFreq) (h1 : m.table[j1]? = some (true, wf1))
    (h2 : m.table[j2]? = some (true, wf2)) (hw : wf1.word = wf2.word) : wf1 = wf2 := by
  have a := search_stored m hwf j1 wf1 h1
  have b := search_stored m hwf j2 wf2 h2
  rw [hw, b] at a
  exact (Option.some.inj (Option.some.inj a)).symm

theorem probe_cases (m : OpenAddressingHashMap) (hs : m.Shape) (key : Str) (b : Nat) :
    m.Skips key 0 b ∨
    ∃ k, k < b ∧ m.Skips key 0 k ∧ ∃ slot : Bool × WordFreq,
      m.table[probeSlot m.size (HashMap.home m.size key) k]? = some slot ∧
      (slot.1 = false ∨ slot.2.word = key) := by
  induction b with
  | zero => exact Or.inl (fun k1 _ h => by omega)
  | succ b ih =>
    rcases ih with h | ⟨k, hk, h⟩
    · obtain ⟨slot, hslot⟩ :=
        shape_slot m hs _ (probeSlot_lt m.size (HashMap.home m.size key) b hs.1)
      by_cases hstop : slot.1 = false ∨ slot.2.word = key
      · exact Or.inr ⟨b, by omega, h, slot, hslot, hstop⟩
      · push_neg at hstop
        refine Or.inl ?_
        intro k1 h0 h1
        by_cases hkb : k1 = b
        · subst hkb
          obtain ⟨occ, wf⟩ := slot
          have hocc : occ = true := by simpa using hstop.1
          subst hocc
          exact ⟨wf, hslot, hstop.2⟩
        · exact h k1 h0 (by omega)
    · exact Or.inr ⟨k, by omega, h⟩

theorem insert_at_empty (m : OpenAddressingHashMap) (hs : m.Shape) (e : WordFreq)
    (hv : HashMap.validKey m.size e.word) (k : Nat) (hk : k < m.size)
    (hsk : m.Skips e.word 0 k) (x : WordFreq)
    (hslot : m.table[probeSlot m.size (HashMap.home m.size e.word) k]? = some (false, x)) :
    m.insert e = some
      { map := { m with
          table := m.table.set (probeSlot m.size (HashMap.home m.size e.word) k) (true, e)
          count := m.count + 1 },
        stdout := [] } := by
  unfold OpenAddressingHashMap.insert
  rw [insertLoop_skip m hs e hv k (m.size - k - 1 + 1) 0 m.size (by omega) hsk,
    Nat.zero_add, insertLoop_step m hs e hv _ k _ hslot]
  simp

theorem insert_at_match (m : OpenAddressingHashMap) (hs : m.Shape) (e : WordFreq)
    (hv : HashMap.validKey m.size e.word) (k : Nat) (hk : k < m.size)
    (hsk : m.Skips e.word 0 k) (wf : WordFreq)
    (hslot : m.table[probeSlot m.size (HashMap.home m.size e.word) k]? = some (true, wf))
    (hw : wf.word = e.word) :
    m.insert e = some
      { map := { m with
          table := m.table.set (probeSlot m.size (HashMap.home m.size e.word) k) (true, e) },
        stdout := [] } := by
  unfold OpenAddressingHashMap.insert
  rw [insertLoop_skip m hs e hv k (m.size - k - 1 + 1) 0 m.size (by omega) hsk,
    Nat.zero_add, insertLoop_step m hs e hv _ k _ hslot]
  simp [hw]

theorem insert_exhausted (m : OpenAddressingHashMap) (hs : m.Shape) (e : WordFreq)
    (hv : HashMap.validKey m.size e.word) (hsk : m.Skips e.word 0 m.size) :
    m.insert e = some { map := m, stdout := ["Hash table is full!".toList] } := by
  unfold OpenAddressingHashMap.insert
  rw [insertLoop_skip m hs e hv m.size 0 0 m.size (by omega) hsk]
  rfl

theorem filter_length_set {α : Type} (p : α → Bool) (l : List α) (j : Nat) (x : α)
    (h : j < l.length) :
    ((l.set j x).filter p).length + (if p l[j] then 1 else 0) =
      (l.filter p).length + (if p x then 1 else 0) := by
  induction l generalizing j with
  | nil => simp at h
  | cons a l ih =>
    cases j with
    | zero =>
      simp only [List.set_cons_zero, List.getElem_cons_zero, List.filter_cons]
      by_cases ha : p a = true <;> by_cases hx : p x = true <;> simp [ha, hx]
    | succ j =>
      have h' : j < l.length := by simpa using h
      have := ih j h'
      simp only [List.set_cons_succ, List.getElem_cons_succ, List.filter_cons]
      by_cases ha : p a = true
      · simp only [ha, if_true, List.length_cons]; omega
      · simp only [ha, if_false]; exact this
theorem probe_surjective (n h j : Nat) (hj : j < n) : ∃ k, k < n ∧ probeSlot n h k = j := by
  have hn : 0 < n := by omega
  have hh : h % n < n := Nat.mod_lt _ hn
  unfold probeSlot
  by_cases hle : h % n ≤ j
  · refine ⟨j - h % n, by omega, ?_⟩
    rw [Nat.add_mod, Nat.mod_eq_of_lt (show j - h % n < n by omega),
      show h % n + (j - h % n) = j by omega, Nat.mod_eq_of_lt hj]
  · refine ⟨j + n - h % n, by omega, ?_⟩
    rw [Nat.add_mod, Nat.mod_eq_of_lt (show j + n - h % n < n by omega),
      show h % n + (j + n - h % n) = j + n by omega, Nat.add_mod_right, Nat.mod_eq_of_lt hj]

theorem exists_free_slot (m : OpenAddressingHashMap) (hs : m.Shape)
    (hroom : (m.table.filter (fun s => s.1)).length < m.size) :
    ∃ (j : Nat) (x : WordFreq), j < m.size ∧ m.table[j]? = some (false, x) := by
  by_contra hcon
  push_neg at hcon
  have hall : ∀ s ∈ m.table, (fun s : Bool × WordFreq => s.1) s = true := by
    intro s hsm
    obtain ⟨j, hj, hjs⟩ := List.getElem_of_mem hsm
    obtain ⟨occ, x⟩ := s
    cases occ with
    | true => rfl
    | false =>
      exfalso
      exact hcon j x (by rw [← hs.2]; exact hj) (by rw [List.getElem?_eq_getElem hj, hjs])
  have := List.filter_eq_self.mpr hall
  rw [this, hs.2] at hroom
  omega

theorem wf_set_slot (m : OpenAddressingHashMap) (hwf : m.WF) (e : WordFreq)
    (hv : HashMap.validKey m.size e.word) (k0 : Nat) (hk0 : k0 < m.size)
    (hsk : m.Skips e.word 0 k0) (old : Bool × WordFreq)
    (hold : m.table[probeSlot m.size (HashMap.home m.size e.word) k0]? = some old)
    (hcase : old.1 = false ∨ old.2.word = e.word) (c : Int)
    (hc : c = m.count + (if old.1 then 0 else 1)) :
    ({ m with
        table := m.table.set (probeSlot m.size (HashMap.home m.size e.word) k0) (true, e)
        count := c } : OpenAddressingHashMap).WF := by
  have hj0 : probeSlot m.size (HashMap.home m.size e.word) k0 < m.table.length := by
    rw [hwf.shape.2]; exact probeSlot_lt _ _ _ hwf.shape.1
  refine ⟨⟨hwf.shape.1, by simp [hwf.shape.2]⟩, ?_, ?_⟩
  · intro j wf hj
    simp only [List.getElem?_set] at hj
    by_cases hjj : probeSlot m.size (HashMap.home m.size e.word) k0 = j
    · simp only [hjj, if_true] at hj
      rw [← hjj] at hj
      simp only [hj0, if_true] at hj
      have hwe : wf = e := by
        have := Option.some.inj hj
        exact (congrArg Prod.snd this).symm
      subst hwe
      refine ⟨hv, k0, hk0, hjj, ?_⟩
      intro k1 hk1
      obtain ⟨wf1, h1, h2⟩ := hsk k1 (by omega) (by omega)
      refine ⟨wf1, ?_, h2⟩
      have hne : probeSlot m.size (HashMap.home m.size wf.word) k0 ≠
          probeSlot m.size (HashMap.home m.size wf.word) k1 := by
        intro heq
        rw [← heq, hold] at h1
        have h3 := Option.some.inj h1
        rcases hcase with hc1 | hc1
        · rw [h3] at hc1; simp at hc1
        · rw [h3] at hc1; exact h2 hc1
      simp only
      rw [List.getElem?_set_ne hne]
      exact h1
    · simp only [hjj, if_false] at hj
      obtain ⟨hv1, k, hk, hpj, hpath⟩ := hwf.reach j wf hj
      refine ⟨hv1, k, hk, hpj, ?_⟩
      intro k1 hk1
      obtain ⟨wf1, h1, h2⟩ := hpath k1 hk1
      simp only
      by_cases hp : probeSlot m.size (HashMap.home m.size e.word) k0 =
          probeSlot m.size (HashMap.home m.size wf.word) k1
      · refine ⟨e, ?_, ?_⟩
        · rw [← hp, List.getElem?_set_self hj0]
        · rw [← hp, hold] at h1
          have h3 := Option.some.inj h1
          rcases hcase with hc1 | hc1
          · rw [h3] at hc1; simp at hc1
          · rw [h3] at hc1
            rw [← hc1]; exact h2
      · exact ⟨wf1, by rw [List.getElem?_set_ne hp]; exact h1, h2⟩
  · have hf := filter_length_set (fun s : Bool × WordFreq => s.1) m.table _ (true, e) hj0
    have hget : m.table[probeSlot m.size (HashMap.home m.size e.word) k0] = old := by
      have := List.getElem?_eq_getElem hj0
      rw [hold] at this
      exact (Option.some.inj this).symm
    rw [hget] at hf
    have hcount := hwf.count_eq
    simp only
    rw [hc]
    dsimp only at hf
    by_cases ho : old.1 = true
    · simp only [ho, if_true] at hf ⊢
      omega
    · simp only [ho, if_false, if_true, Bool.false_eq_true] at hf ⊢
      omega

theorem search_after_set (m : OpenAddressingHashMap) (hwf : m.WF) (e : WordFreq)
    (hv : HashMap.validKey m.size e.word) (k0 : Nat) (hk0 : k0 < m.size)
    (hsk : m.Skips e.word 0 k0) (old : Bool × WordFreq)
    (hold : m.table[probeSlot m.size (HashMap.home m.size e.word) k0]? = some old)
    (hcase : old.1 = false ∨ old.2.word = e.word) (c : Int)
    (hc : c = m.count + (if old.1 then 0 else 1)) (w : Str)
    (hw : HashMap.validKey m.size w) :
    ({ m with
        table := m.table.set (probeSlot m.size (HashMap.home m.size e.word) k0) (true, e)
        count := c } : OpenAddressingHashMap).search w =
      if w = e.word then some (some e) else m.search w := by
  have hwf1 := wf_set_slot m hwf e hv k0 hk0 hsk old hold hcase c hc
  have hj0 : probeSlot m.size (HashMap.home m.size e.word) k0 < m.table.length := by
    rw [hwf.shape.2]; exact probeSlot_lt _ _ _ hwf.shape.1
  by_cases hwe : w = e.word
  · subst hwe
    simp only [if_true]
    exact search_stored _ hwf1 (probeSlot m.size (HashMap.home m.size e.word) k0) e
      (by simp only; rw [List.getElem?_set_self hj0])
  · simp only [hwe, if_false]
    rcases search_result m hwf.shape w hw with hnone | ⟨j, wf, hj, hword, hsome⟩
    · rw [hnone]
      apply search_absent _ hwf1.shape w hw
      intro j wf hj
      simp only [List.getElem?_set] at hj
      by_cases hjj : probeSlot m.size (HashMap.home m.size e.word) k0 = j
      · simp only [hjj, if_true] at hj
        rw [← hjj] at hj
        simp only [hj0, if_true] at hj
        have hwe2 : wf = e := (congrArg Prod.snd (Option.some.inj hj)).symm
        rw [hwe2]
        exact fun h => hwe h.symm
      · simp only [hjj, if_false] at hj
        intro hcon
        have := search_stored m hwf j wf hj
        rw [hcon, hnone] at this
        simp at this
    · rw [hsome]
      have hne : probeSlot m.size (HashMap.home m.size e.word) k0 ≠ j := by
        intro heq
        rw [heq, hj] at hold
        have h3 := Option.some.inj hold
        rcases hcase with hc1 | hc1
        · rw [← h3] at hc1; simp at hc1
        · rw [← h3] at hc1
          exact hwe (by rw [← hword]; exact hc1)
      have := search_stored _ hwf1 j wf (by simp only; rw [List.getElem?_set_ne hne]; exact hj)
      rw [hword] at this
      exact this
/-- The finite-map behaviour of `OpenAddressingHashMap::insert`, for keys whose
bucket index is not negative, when the word is stored already or a slot is
free: the store stays well formed, nothing is printed, a later `search(w)`
returns the inserted entry when `w` is its word and otherwise what it returned
before, and `count` grows by one exactly when the word had no entry. -/
theorem open_insert_finite_map (m : OpenAddressingHashMap) (hwf : m.WF) (e : WordFreq)
    (hv : HashMap.validKey m.size e.word)
    (hroom : m.search e.word ≠ some none ∨ m.getCount < (m.size : Int)) :
    ∃ m1, m.insert e = some ⟨m1, []⟩ ∧ m1.WF ∧ m1.size = m.size ∧
      (∀ w, HashMap.validKey m.size w →
        m1.search w = if w = e.word then some (some e) else m.search w) ∧
      (m.search e.word = some none → m1.getCount = m.getCount + 1) ∧
      (m.search e.word ≠ some none → m1.getCount = m.getCount) := by
  rcases probe_cases m hwf.shape e.word m.size with hfull | ⟨k, hk, hsk, slot, hslot, hstop⟩
  · exfalso
    have hnone : m.search e.word = some none := by
      unfold OpenAddressingHashMap.search
      rw [searchLoop_skip m hwf.shape e.word hv m.size 0 0 m.size (by omega) hfull]
      rfl
    rcases hroom with h | h
    · exact h hnone
    · have hc := hwf.count_eq
      unfold OpenAddressingHashMap.getCount at h
      rw [hc] at h
      obtain ⟨j, x, hj, hjx⟩ := exists_free_slot m hwf.shape (by exact_mod_cast h)
      obtain ⟨k, hk, hkj⟩ := probe_surjective m.size (HashMap.home m.size e.word) j hj
      obtain ⟨wf1, h1, -⟩ := hfull k (by omega) (by omega)
      rw [hkj, hjx] at h1
      simp at h1
  · obtain ⟨occ, x⟩ := slot
    cases occ with
    | false =>
      have hins := insert_at_empty m hwf.shape e hv k hk hsk x hslot
      have hsearch := search_empty m hwf.shape e.word hv k hk hsk x hslot
      have hc : m.count + 1 = m.count + (if (false, x).1 then 0 else 1) := by simp
      refine ⟨_, hins,
        wf_set_slot m hwf e hv k hk hsk (false, x) hslot (Or.inl rfl) _ hc, rfl, ?_, ?_, ?_⟩
      · intro w hw
        exact search_after_set m hwf e hv k hk hsk (false, x) hslot (Or.inl rfl) _ hc w hw
      · intro _; rfl
      · intro h; exact absurd hsearch h
    | true =>
      have hword : x.word = e.word := by
        rcases hstop with h | h
        · simp at h
        · exact h
      have hins := insert_at_match m hwf.shape e hv k hk hsk x hslot hword
      have hsearch := search_found m hwf.shape e.word hv k hk hsk x hslot hword
      have hc : m.count = m.count + (if (true, x).1 then 0 else 1) := by simp
      refine ⟨_, hins,
        wf_set_slot m hwf e hv k hk hsk (true, x) hslot (Or.inr hword) _ hc, rfl, ?_, ?_, ?_⟩
      · intro w hw
        exact search_after_set m hwf e hv k hk hsk (true, x) hslot (Or.inr hword) _ hc w hw
      · intro h
        rw [hsearch] at h
        simp at h
      · intro _; rfl

theorem open_wf_mk0 (n : Nat) (hn : 0 < n) :
    (OpenAddressingHashMap.mk0 n).WF := by
  refine ⟨⟨hn, by simp [OpenAddressingHashMap.mk0]⟩, ?_, ?_⟩
  · intro j wf hj
    simp [OpenAddressingHashMap.mk0, List.getElem?_replicate] at hj
  · simp [OpenAddressingHashMap.mk0, List.filter_replicate]

theorem open_search_mk0 (n : Nat) (hn : 0 < n) (w : Str) (hw : HashMap.validKey n w) :
    (OpenAddressingHashMap.mk0 n).search w = some none := by
  apply search_absent _ (open_wf_mk0 n hn).shape w hw
  intro j wf hj
  simp [OpenAddressingHashMap.mk0, List.getElem?_replicate] at hj

theorem chain_search_mk0 (n : Nat) (hn : 0 < n) (w : Str) (hw : HashMap.validKey n w) :
    (ChainingHashMap.mk0 n).search w = some none := by
  rw [chain_search_eq _ (chain_wf_mk0 n hn) w hw]
  have hi := (validKey_index w n hn hw).1
  simp [ChainingHashMap.bucket, ChainingHashMap.mk0, List.getD_eq_getElem?_getD,
    List.getElem?_replicate, hi, ChainingHashMap.searchChain]

/-- The two stores stay in step along a sequence of inserts that fits into the
probing store. -/
theorem insertAll_agree (n : Nat) (es : List WordFreq) (done : Finset Str)
    (c : ChainingHashMap) (o : OpenAddressingHashMap)
    (hc : c.WF) (ho : o.WF) (hcs : c.size = n) (hos : o.size = n)
    (hagree : ∀ w, HashMap.validKey n w → c.search w = o.search w)
    (hdone : ∀ w, HashMap.validKey n w → (o.search w ≠ some none ↔ w ∈ done))
    (hcount : o.getCount = (done.card : Int))
    (hval : ∀ e ∈ es, HashMap.validKey n e.word)
    (hfit : (done ∪ (es.map WordFreq.word).toFinset).card ≤ n) :
    ∃ c1 o1, c.insertAll es = some c1 ∧ o.insertAll es = some o1 ∧
      c1.WF ∧ o1.WF ∧ c1.size = n ∧ o1.size = n ∧
      ∀ w, HashMap.validKey n w → c1.search w = o1.search w := by
  induction es generalizing done c o with
  | nil => exact ⟨c, o, rfl, rfl, hc, ho, hcs, hos, hagree⟩
  | cons e es ih =>
    have hve : HashMap.validKey n e.word := hval e (List.mem_cons_self _ _)
    have hroom : o.search e.word ≠ some none ∨ o.getCount < (o.size : Int) := by
      by_cases hmem : e.word ∈ done
      · exact Or.inl ((hdone e.word hve).mpr hmem)
      · right
        have h1 : (insert e.word done).card ≤
            (done ∪ ((e :: es).map WordFreq.word).toFinset).card := by
          apply Finset.card_le_card
          intro x hx
          simp only [Finset.mem_insert] at hx
          simp only [List.map_cons, List.toFinset_cons, Finset.mem_union, Finset.mem_insert]
          tauto
        rw [Finset.card_insert_of_not_mem hmem] at h1
        rw [hcount, hos]
        exact_mod_cast (by omega : done.card < n)
    obtain ⟨c1, hci, hc1, hcs1, hcsearch, -, -⟩ :=
      chaining_insert_finite_map c hc e (by rw [hcs]; exact hve)
    obtain ⟨o1, hoi, ho1, hos1, hosearch, hcnt1, hcnt2⟩ :=
      open_insert_finite_map o ho e (by rw [hos]; exact hve) hroom
    have hagree1 : ∀ w, HashMap.validKey n w → c1.search w = o1.search w := by
      intro w hw
      rw [hcsearch w (by rw [hcs]; exact hw), hosearch w (by rw [hos]; exact hw), hagree w hw]
    have hdone1 : ∀ w, HashMap.validKey n w →
        (o1.search w ≠ some none ↔ w ∈ insert e.word done) := by
      intro w hw
      rw [hosearch w (by rw [hos]; exact hw)]
      by_cases hwe : w = e.word
      · simp [hwe]
      · simp only [hwe, if_false, Finset.mem_insert, false_or]
        exact hdone w hw
    have hcount1 : o1.getCount = ((insert e.word done).card : Int) := by
      by_cases hmem : e.word ∈ done
      · rw [Finset.insert_eq_of_mem hmem, hcnt2 ((hdone e.word hve).mpr hmem), hcount]
      · have hnone : o.search e.word = some none := by
          by_contra hcon
          exact hmem ((hdone e.word hve).mp hcon)
        rw [Finset.card_insert_of_not_mem hmem, hcnt1 hnone, hcount]
        push_cast
        rfl
    have hfit1 : (insert e.word done ∪ (es.map WordFreq.word).toFinset).card ≤ n := by
      have : insert e.word done ∪ (es.map WordFreq.word).toFinset =
          done ∪ ((e :: es).map WordFreq.word).toFinset := by
        ext x
        simp only [List.map_cons, List.toFinset_cons, Finset.mem_union, Finset.mem_insert]
        tauto
      rw [this]
      exact hfit
    obtain ⟨c2, o2, hc2, ho2, rest⟩ :=
      ih (insert e.word done) c1 o1 hc1 ho1 (by rw [hcs1, hcs]) (by rw [hos1, hos])
        hagree1 hdone1 hcount1 (fun x hx => hval x (List.mem_cons_of_mem _ hx)) hfit1
    refine ⟨c2, o2, ?_, ?_, rest⟩
    · simp only [ChainingHashMap.insertAll, hci, hc2]
    · simp only [OpenAddressingHashMap.insertAll, hoi, ho2]

/-- Cross-backend equivalence, for words whose bucket index is not negative:
for every capacity `n > 0` and every sequence of inserts with at most `n`
distinct words, applied to a fresh `ChainingHashMap` and a fresh
`OpenAddressingHashMap` of capacity `n`, both sequences are defined and
`search(w)` gives the same result in both stores: both report no entry, or both
return the same entry. -/
theorem stores_agree_after_inserts (n : Nat) (hn : 0 < n) (es : List WordFreq)
    (hval : ∀ e ∈ es, HashMap.validKey n e.word)
    (hfit : (es.map WordFreq.word).toFinset.card ≤ n) :
    ∃ c o, (ChainingHashMap.mk0 n).insertAll es = some c ∧
      (OpenAddressingHashMap.mk0 n).insertAll es = some o ∧
      ∀ w, HashMap.validKey n w → ∃ r, c.search w = some r ∧ o.search w = some r := by
  obtain ⟨c, o, h1, h2, hc, -, hcs, -, hagree⟩ :=
    insertAll_agree n es ∅ (ChainingHashMap.mk0 n) (OpenAddressingHashMap.mk0 n)
      (chain_wf_mk0 n hn) (open_wf_mk0 n hn) rfl rfl
      (fun w hw => by rw [chain_search_mk0 n hn w hw, open_search_mk0 n hn w hw])
      (fun w hw => by simp [open_search_mk0 n hn w hw])
      (by simp [OpenAddressingHashMap.getCount, OpenAddressingHashMap.mk0])
      hval (by simpa using hfit)
  refine ⟨c, o, h1, h2, ?_⟩
  intro w hw
  refine ⟨ChainingHashMap.searchChain w (c.bucket w), ?_, ?_⟩
  · exact chain_search_eq c hc w (by rw [hcs]; exact hw)
  · rw [← hagree w hw]
    exact chain_search_eq c hc w (by rw [hcs]; exact hw)

/-- Three inserts (one of them an overwrite) into fresh stores of capacity 2:
an instance of `stores_agree_after_inserts`. -/
theorem stores_agree_after_inserts_witness :
    ∃ c o, (ChainingHashMap.mk0 2).insertAll
        [⟨"free".toList, 9, 1⟩, ⟨"meeting".toList, 1, 9⟩, ⟨"free".toList, 10, 1⟩] = some c ∧
      (OpenAddressingHashMap.mk0 2).insertAll
        [⟨"free".toList, 9, 1⟩, ⟨"meeting".toList, 1, 9⟩, ⟨"free".toList, 10, 1⟩] = some o ∧
      ∀ w, HashMap.validKey 2 w → ∃ r, c.search w = some r ∧ o.search w = some r :=
  stores_agree_after_inserts 2 (by decide)
    [⟨"free".toList, 9, 1⟩, ⟨"meeting".toList, 1, 9⟩, ⟨"free".toList, 10, 1⟩]
    (by decide) (by decide)

/-- The probing half of `clear`: after `OpenAddressingHashMap::clear` the count
is 0, the table has `size` slots, no word has an entry, and a following
`insert(e)` makes `search(e.word)` return `e` (for keys whose bucket index is
not negative). -/
theorem open_clear_then_insert (m : OpenAddressingHashMap) (hn : 0 < m.size) (e : WordFreq)
    (hv : HashMap.validKey m.size e.word) :
    m.clear.getCount = 0 ∧ m.clear.table.length = m.size ∧
    (∀ w, HashMap.validKey m.size w → m.clear.search w = some none) ∧
    ∃ m1, m.clear.insert e = some ⟨m1, []⟩ ∧ m1.search e.word = some (some e) := by
  have hcl : m.clear = OpenAddressingHashMap.mk0 m.size := rfl
  refine ⟨rfl, by simp [OpenAddressingHashMap.clear], ?_, ?_⟩
  · intro w hw
    rw [hcl]
    exact open_search_mk0 m.size hn w hw
  · rw [hcl]
    obtain ⟨m1, h1, -, -, h2, -, -⟩ :=
      open_insert_finite_map (OpenAddressingHashMap.mk0 m.size)
        (open_wf_mk0 m.size hn) e hv
        (Or.inr (by simp [OpenAddressingHashMap.getCount, OpenAddressingHashMap.mk0]; omega))
    refine ⟨m1, h1, ?_⟩
    simpa using h2 e.word hv

/-- The store of capacity 10007 and the entry `(free, 9, 1)`: an instance of
`open_clear_then_insert`. -/
theorem open_clear_then_insert_witness :
    ∃ m1, (OpenAddressingHashMap.mk0 10007).clear.insert ⟨"free".toList, 9, 1⟩ = some ⟨m1, []⟩ ∧
      m1.search "free".toList = some (some ⟨"free".toList, 9, 1⟩) :=
  (open_clear_then_insert (OpenAddressingHashMap.mk0 10007) (by decide)
    ⟨"free".toList, 9, 1⟩ (by decide)).2.2.2

/-! ### Columns that load skips -/

theorem loadColumns_append (d : Dataset) (a b : List (Str × Str × Str)) :
    loadColumns d (a ++ b) = (loadColumns d a).bind fun d1 => loadColumns d1 b := by
  induction a generalizing d with
  | nil => rfl
  | cons col a ih =>
    simp only [List.cons_append, loadColumns]
    cases loadColumn d col with
    | none => rfl
    | some d1 => exact ih d1

/-- A column that every state ignores can be taken out of the input. -/
theorem loadColumns_ignore (col : Str × Str × Str) (h : ∀ d, loadColumn d col = some d)
    (d : Dataset) (pre post : List (Str × Str × Str)) :
    loadColumns d (pre ++ col :: post) = loadColumns d (pre ++ post) := by
  rw [loadColumns_append, loadColumns_append]
  cases loadColumns d pre with
  | none => rfl
  | some d1 => simp only [Option.bind, loadColumns, h d1]

theorem zip3_column (wpre wpost spre spost hpre hpost : List Str) (w s h : Str)
    (h1 : spre.length = wpre.length) (h2 : hpre.length = wpre.length) :
    (wpre ++ w :: wpost).zip ((spre ++ s :: spost).zip (hpre ++ h :: hpost)) =
      wpre.zip (spre.zip hpre) ++ (w, s, h) :: wpost.zip (spost.zip hpost) := by
  have e1 : (spre ++ s :: spost).zip (hpre ++ h :: hpost) =
      spre.zip hpre ++ (s, h) :: spost.zip hpost := by
    rw [List.zip_append (by omega)]; rfl
  rw [e1, List.zip_append (by simp; omega)]
  rfl

theorem zip3_without (wpre wpost spre spost hpre hpost : List Str)
    (h1 : spre.length = wpre.length) (h2 : hpre.length = wpre.length) :
    (wpre ++ wpost).zip ((spre ++ spost).zip (hpre ++ hpost)) =
      wpre.zip (spre.zip hpre) ++ wpost.zip (spost.zip hpost) := by
  have e1 : (spre ++ spost).zip (hpre ++ hpost) = spre.zip hpre ++ spost.zip hpost := by
    rw [List.zip_append (by omega)]
  rw [e1, List.zip_append (by simp; omega)]

/-- Loading three lines in which one column is ignored by every state gives
the same result as loading the lines without the three fields of that
column. -/
theorem loadLines_ignore (wordsLine spamLine hamLine wordsLine1 spamLine1 hamLine1 : Str)
    (wpre wpost spre spost hpre hpost : List Str) (w s h : Str)
    (hcol : ∀ d, loadColumn d (w, s, h) = some d)
    (hw : splitCSVLine wordsLine = wpre ++ w :: wpost)
    (hs : splitCSVLine spamLine = spre ++ s :: spost)
    (hh : splitCSVLine hamLine = hpre ++ h :: hpost)
    (hw1 : splitCSVLine wordsLine1 = wpre ++ wpost)
    (hs1 : splitCSVLine spamLine1 = spre ++ spost)
    (hh1 : splitCSVLine hamLine1 = hpre ++ hpost)
    (h1 : spre.length = wpre.length) (h2 : hpre.length = wpre.length) (d : Dataset) :
    loadLines wordsLine spamLine hamLine d = loadLines wordsLine1 spamLine1 hamLine1 d := by
  unfold loadLines
  simp only [hw, hs, hh, hw1, hs1, hh1]
  by_cases hc : (spre ++ s :: spost).length ≠ (wpre ++ w :: wpost).length ∨
      (hpre ++ h :: hpost).length ≠ (wpre ++ w :: wpost).length
  · have hc1 : (spre ++ spost).length ≠ (wpre ++ wpost).length ∨
        (hpre ++ hpost).length ≠ (wpre ++ wpost).length := by
      simp only [List.length_append, List.length_cons] at hc ⊢
      omega
    simp only [hc, hc1, if_true]
  · have hc1 : ¬ ((spre ++ spost).length ≠ (wpre ++ wpost).length ∨
        (hpre ++ hpost).length ≠ (wpre ++ wpost).length) := by
      simp only [List.length_append, List.length_cons] at hc ⊢
      omega
    simp only [hc, hc1, if_false]
    rw [zip3_column _ _ _ _ _ _ _ _ _ h1 h2, zip3_without _ _ _ _ _ _ h1 h2]
    exact loadColumns_ignore (w, s, h) hcol d _ _

theorem loadColumn_header (d : Dataset) (w s h : Str)
    (hw : w = [] ∨ w = "Word".toList ∨ w = "word".toList) : loadColumn d (w, s, h) = some d := by
  simp only [loadColumn, hw, if_true]

/-- C11 as stated fails on the spelling `WORD`: loading the file with the
columns `WORD` (5, 3) and `free` (9, 1) puts `WORD` into the ordered list and
into both stores with the counts (5, 3). -/
theorem load_keeps_upper_case_header :
    ((loadWordFrequenciesFromTransposedCSV (some upperHeaderCSV) (Dataset.fresh 10007)).map
        fun d => d.wordsOrder) = some ["WORD".toList, "free".toList] ∧
    ((loadWordFrequenciesFromTransposedCSV (some upperHeaderCSV) (Dataset.fresh 10007)).bind
        fun d => d.chainMap.search "WORD".toList) = some (some ⟨"WORD".toList, 5, 3⟩) ∧
    ((loadWordFrequenciesFromTransposedCSV (some upperHeaderCSV) (Dataset.fresh 10007)).bind
        fun d => d.openMap.search "WORD".toList) = some (some ⟨"WORD".toList, 5, 3⟩) := by
  decide!

/-- C11, as the code has it: during load, every column whose word field is
empty or is exactly `Word` or `word` is skipped: the column leaves both stores
and the ordered list as they are, and the whole load gives the same result as
the load of the three lines without that column. -/
theorem load_skips_header_column
    (wordsLine spamLine hamLine wordsLine1 spamLine1 hamLine1 : Str)
    (wpre wpost spre spost hpre hpost : List Str) (w s h : Str)
    (hskip : w = [] ∨ w = "Word".toList ∨ w = "word".toList)
    (hw : splitCSVLine wordsLine = wpre ++ w :: wpost)
    (hs : splitCSVLine spamLine = spre ++ s :: spost)
    (hh : splitCSVLine hamLine = hpre ++ h :: hpost)
    (hw1 : splitCSVLine wordsLine1 = wpre ++ wpost)
    (hs1 : splitCSVLine spamLine1 = spre ++ spost)
    (hh1 : splitCSVLine hamLine1 = hpre ++ hpost)
    (h1 : spre.length = wpre.length) (h2 : hpre.length = wpre.length) (d : Dataset) :
    loadColumn d (w, s, h) = some d ∧
    loadLines wordsLine spamLine hamLine d = loadLines wordsLine1 spamLine1 hamLine1 d :=
  ⟨loadColumn_header d w s h hskip,
   loadLines_ignore wordsLine spamLine hamLine wordsLine1 spamLine1 hamLine1
     wpre wpost spre spost hpre hpost w s h (fun d1 => loadColumn_header d1 w s h hskip)
     hw hs hh hw1 hs1 hh1 h1 h2 d⟩

/-- C11 at the lines `free,Word,offer` / `9,Spam,5` / `1,Ham,5`: the middle
column is skipped, the load equals that of `free,offer` / `9,5` / `1,5`. -/
theorem load_skips_header_column_witness :
    loadColumn (Dataset.fresh 7) ("Word".toList, "Spam".toList, "Ham".toList) =
      some (Dataset.fresh 7) ∧
    loadLines "free,Word,offer".toList "9,Spam,5".toList "1,Ham,5".toList (Dataset.fresh 7) =
      loadLines "free,offer".toList "9,5".toList "1,5".toList (Dataset.fresh 7) :=
  load_skips_header_column
    "free,Word,offer".toList "9,Spam,5".toList "1,Ham,5".toList
    "free,offer".toList "9,5".toList "1,5".toList
    ["free".toList] ["offer".toList] ["9".toList] ["5".toList] ["1".toList] ["5".toList]
    "Word".toList "Spam".toList "Ham".toList (Or.inr (Or.inl rfl))
    (by decide) (by decide) (by decide) (by decide) (by decide) (by decide) rfl rfl
    (Dataset.fresh 7)

/-- The two ways in which a column of the file is processed. -/
theorem loadColumn_cases (d d1 : Dataset) (col : Str × Str × Str)
    (h : loadColumn d col = some d1) :
    d1 = d ∨
    ∃ (spamFreq hamFreq : ℚ) (cm : ChainingHashMap) (o : InsertOutcome),
      stod col.2.1 = some spamFreq ∧ stod col.2.2 = some hamFreq ∧
      d.chainMap.insert ⟨col.1, spamFreq, hamFreq⟩ = some cm ∧
      d.openMap.insert ⟨col.1, spamFreq, hamFreq⟩ = some o ∧
      d1 = { chainMap := cm, openMap := o.map, wordsOrder := d.wordsOrder ++ [col.1] } := by
  unfold loadColumn at h
  by_cases hw : col.1 = [] ∨ col.1 = "Word".toList ∨ col.1 = "word".toList
  · simp only [hw, if_true] at h
    exact Or.inl (Option.some.inj h).symm
  · simp only [hw, if_false] at h
    cases hs : stod col.2.1 with
    | none =>
      simp only [hs] at h
      exact Or.inl (Option.some.inj h).symm
    | some sf =>
      cases hh : stod col.2.2 with
      | none =>
        simp only [hs, hh] at h
        exact Or.inl (Option.some.inj h).symm
      | some hf =>
        simp only [hs, hh] at h
        cases hc : d.chainMap.insert ⟨col.1, sf, hf⟩ with
        | none => simp [hc] at h
        | some cm =>
          simp only [hc] at h
          cases ho : d.openMap.insert ⟨col.1, sf, hf⟩ with
          | none => simp [ho] at h
          | some o =>
            simp only [ho] at h
            exact Or.inr ⟨sf, hf, cm, o, rfl, rfl, hc, ho, (Option.some.inj h).symm⟩

/-- The three ways in which a token of the feedback is processed: it is empty
after normalisation, its entry is incremented in place, or a new entry is
inserted into both stores and the word is appended to the list. -/
theorem updateWord_cases (isSpam : Bool) (app app1 : AppData) (w : Str)
    (h : updateWord isSpam app w = some app1) :
    app1 = app ∨
    (∃ wf : WordFreq, app.chainMap.search (normalizeWord w) = some (some wf) ∧
      app1 = { app with
        chainMap := app.chainMap.write (normalizeWord w)
          (if isSpam then { wf with spamFreq := wf.spamFreq + 1 }
           else { wf with hamFreq := wf.hamFreq + 1 }) }) ∨
    (∃ (cm : ChainingHashMap) (o : InsertOutcome),
      app.chainMap.search (normalizeWord w) = some none ∧
      app.chainMap.insert
        ⟨normalizeWord w, if isSpam then 1 else 0, if isSpam then 0 else 1⟩ = some cm ∧
      app.openMap.insert
        ⟨normalizeWord w, if isSpam then 1 else 0, if isSpam then 0 else 1⟩ = some o ∧
      app1 = { app with
        chainMap := cm, openMap := o.map,
        wordsOrder := app.wordsOrder ++ [normalizeWord w] }) := by
  unfold updateWord at h
  by_cases hw : normalizeWord w = []
  · simp only [hw, if_true] at h
    exact Or.inl (Option.some.inj h).symm
  · simp only [hw, if_false] at h
    cases hs : app.chainMap.search (normalizeWord w) with
    | none => simp [hs] at h
    | some r =>
      cases r with
      | some wf =>
        simp only [hs] at h
        exact Or.inr (Or.inl ⟨wf, rfl, (Option.some.inj h).symm⟩)
      | none =>
        simp only [hs] at h
        cases hc : app.chainMap.insert
            ⟨normalizeWord w, if isSpam then 1 else 0, if isSpam then 0 else 1⟩ with
        | none => simp [hc] at h
        | some cm =>
          simp only [hc] at h
          cases ho : app.openMap.insert
              ⟨normalizeWord w, if isSpam then 1 else 0, if isSpam then 0 else 1⟩ with
          | none => simp [ho] at h
          | some o =>
            simp only [ho] at h
            exact Or.inr (Or.inr ⟨cm, o, rfl, rfl, rfl, (Option.some.inj h).symm⟩)

/-- An invariant of the application state that every column of a load and every
token of a feedback preserves holds after every event. -/
theorem updateWords_invariant (P : AppData → Prop) (isSpam : Bool)
    (hstep : ∀ (a a1 : AppData) (w : Str), P a → updateWord isSpam a w = some a1 → P a1)
    (ws : List Str) (a a1 : AppData) (h : updateWords isSpam a ws = some a1) (ha : P a) :
    P a1 := by
  induction ws generalizing a with
  | nil =>
    simp only [updateWords] at h
    rw [← Option.some.inj h]; exact ha
  | cons w ws ih =>
    simp only [updateWords] at h
    cases hs : updateWord isSpam a w with
    | none => simp [hs] at h
    | some a2 =>
      simp only [hs] at h
      exact ih a2 h (hstep a a2 w ha hs)

theorem loadColumns_invariant (P : Dataset → Prop)
    (hstep : ∀ (d d1 : Dataset) (col : Str × Str × Str), P d → loadColumn d col = some d1 → P d1)
    (cols : List (Str × Str × Str)) (d d1 : Dataset) (h : loadColumns d cols = some d1)
    (hd : P d) : P d1 := by
  induction cols generalizing d with
  | nil =>
    simp only [loadColumns] at h
    rw [← Option.some.inj h]; exact hd
  | cons col cols ih =>
    simp only [loadColumns] at h
    cases hs : loadColumn d col with
    | none => simp [hs] at h
    | some d2 =>
      simp only [hs] at h
      exact ih d2 h (hstep d d2 col hd hs)

/-- A load either leaves the dataset as it is or runs the column loop over the
columns of the first three lines of the file. -/
theorem load_cases (file : Option Str) (d d1 : Dataset)
    (h : loadWordFrequenciesFromTransposedCSV file d = some d1) :
    d1 = d ∨ ∃ content, file = some content ∧
      loadColumns d ((splitCSVLine (getline content).1).zip
        ((splitCSVLine (getline (getline content).2).1).zip
          (splitCSVLine (getline (getline (getline content).2).2).1))) = some d1 := by
  cases file with
  | none =>
    simp only [loadWordFrequenciesFromTransposedCSV] at h
    exact Or.inl (Option.some.inj h).symm
  | some content =>
    simp only [loadWordFrequenciesFromTransposedCSV, loadLines] at h
    split at h
    · exact Or.inl (Option.some.inj h).symm
    · exact Or.inr ⟨content, rfl, h⟩

theorem run_invariant (P : AppData → Prop)
    (hstep : ∀ (a a1 : AppData) (ev : Event), P a → a.step ev = some a1 → P a1)
    (evs : List Event) (a a1 : AppData) (h : a.run evs = some a1) (ha : P a) : P a1 := by
  induction evs generalizing a with
  | nil =>
    simp only [AppData.run] at h
    rw [← Option.some.inj h]; exact ha
  | cons ev evs ih =>
    simp only [AppData.run] at h
    cases hs : a.step ev with
    | none => simp [hs] at h
    | some a2 =>
      simp only [hs] at h
      exact ih a2 h (hstep a a2 ev ha hs)
/-! ### The threshold -/

/-- No event other than an accepted threshold update changes the threshold, and
an accepted update stores a value of `[0, 1]`. -/
theorem step_threshold_range (app app1 : AppData) (ev : Event) (h : app.step ev = some app1)
    (hr : 0 ≤ app.spamThreshold ∧ app.spamThreshold ≤ 1) :
    0 ≤ app1.spamThreshold ∧ app1.spamThreshold ≤ 1 := by
  cases ev with
  | load file =>
    simp only [AppData.step, Option.map_eq_some'] at h
    obtain ⟨d, -, hd⟩ := h
    rw [← hd]
    exact hr
  | feedback words isSpam =>
    simp only [AppData.step, updateFrequencies] at h
    have := updateWords_invariant (fun a => a.spamThreshold = app.spamThreshold) isSpam
      (by
        intro a a1 w ha hw
        rcases updateWord_cases isSpam a a1 w hw with h1 | ⟨wf, -, h1⟩ | ⟨cm, o, -, -, -, h1⟩
        · rw [h1]; exact ha
        · rw [h1]; exact ha
        · rw [h1]; exact ha)
      words _ app1 h rfl
    rw [this]
    exact hr
  | threshold text =>
    simp only [AppData.step] at h
    rw [← Option.some.inj h]
    unfold on_update_threshold_button_clicked
    split
    · split
      · rename_i hin
        exact hin
      · exact hr
    · exact hr

/-- C13: for every submitted text that parses to a value `v`, the threshold
becomes `v` when `0 <= v <= 1`, and otherwise (also when the text does not
parse) the previous threshold is retained and an error message is shown; so in
every state reached from the initial state (threshold 0.7) by any sequence of
loads, feedbacks and threshold updates, the threshold handed to the classifier
lies in `[0, 1]`. -/
theorem threshold_update_validates :
    (∀ (text : Str) (app : AppData) (v : ℚ), stod text = some v →
      (0 ≤ v ∧ v ≤ 1 →
        on_update_threshold_button_clicked text app =
          ({ app with spamThreshold := v }, ThresholdLabel.updated)) ∧
      (¬ (0 ≤ v ∧ v ≤ 1) →
        on_update_threshold_button_clicked text app = (app, ThresholdLabel.outOfRange))) ∧
    (∀ (text : Str) (app : AppData), stod text = none →
      on_update_threshold_button_clicked text app = (app, ThresholdLabel.invalid)) ∧
    (∀ (n : Nat) (evs : List Event) (app : AppData), (AppData.init n).run evs = some app →
      0 ≤ app.spamThreshold ∧ app.spamThreshold ≤ 1) := by
  refine ⟨?_, ?_, ?_⟩
  · intro text app v hv
    refine ⟨?_, ?_⟩
    · intro hin
      simp only [on_update_threshold_button_clicked, hv, ge_iff_le, hin, and_self, if_true]
    · intro hout
      simp only [on_update_threshold_button_clicked, hv, ge_iff_le, hout, if_false]
  · intro text app hv
    simp only [on_update_threshold_button_clicked, hv]
  · intro n evs app h
    exact run_invariant (fun a => 0 ≤ a.spamThreshold ∧ a.spamThreshold ≤ 1)
      (fun a a1 ev ha hs => step_threshold_range a a1 ev hs ha) evs _ app h
      (by simp only [AppData.init]; norm_num)

/-- C13 on the initial state: the text `0.5` is accepted, the texts `1.5` and
`-0.1` are rejected with the range message, the text `high` with the message
for an invalid value; after these four submissions the threshold is 0.5. -/
theorem threshold_update_validates_witness :
    on_update_threshold_button_clicked "0.5".toList (AppData.init 7) =
      ({ AppData.init 7 with spamThreshold := 1 / 2 }, ThresholdLabel.updated) ∧
    on_update_threshold_button_clicked "1.5".toList (AppData.init 7) =
      (AppData.init 7, ThresholdLabel.outOfRange) ∧
    on_update_threshold_button_clicked "high".toList (AppData.init 7) =
      (AppData.init 7, ThresholdLabel.invalid) ∧
    ((AppData.init 7).run [Event.threshold "0.5".toList, Event.threshold "1.5".toList,
        Event.threshold "-0.1".toList, Event.threshold "high".toList]).map
      (fun app => app.spamThreshold) = some (1 / 2) :=
  ⟨(threshold_update_validates.1 "0.5".toList (AppData.init 7) (1 / 2) (by decide!)).1
      (by norm_num),
   (threshold_update_validates.1 "1.5".toList (AppData.init 7) (3 / 2) (by decide!)).2
      (by norm_num),
   threshold_update_validates.2.1 "high".toList (AppData.init 7) (by decide!),
   by decide!⟩
/-! ### Entries of the stores after an operation -/

theorem vecGet_mem {α : Type} (t : List α) (i : Int) (x : α) (h : vecGet t i = some x) :
    0 ≤ i ∧ x ∈ t := by
  unfold vecGet at h
  split at h
  · simp at h
  · exact ⟨by omega, List.getElem?_mem h⟩

theorem chain_insert_valid (m m1 : ChainingHashMap) (e : WordFreq) (h : m.insert e = some m1) :
    HashMap.validKey m.size e.word := by
  unfold ChainingHashMap.insert at h
  cases hv : vecGet m.table (HashMap.hash e.word m.size) with
  | none => simp [hv] at h
  | some head => exact (vecGet_mem _ _ _ hv).1

theorem chain_search_valid (m : ChainingHashMap) (w : Str) (r : Option WordFreq)
    (h : m.search w = some r) : HashMap.validKey m.size w := by
  unfold ChainingHashMap.search at h
  cases hv : vecGet m.table (HashMap.hash w m.size) with
  | none => simp [hv] at h
  | some head => exact (vecGet_mem _ _ _ hv).1

theorem chain_search_mem (m : ChainingHashMap) (w : Str) (wf : WordFreq)
    (h : m.search w = some (some wf)) : wf.word = w ∧ ∃ b ∈ m.table, wf ∈ b := by
  unfold ChainingHashMap.search at h
  cases hv : vecGet m.table (HashMap.hash w m.size) with
  | none => simp [hv] at h
  | some head =>
    simp only [hv, Option.some.injEq] at h
    obtain ⟨h1, h2⟩ := searchChain_some w head wf h
    exact ⟨h1, head, (vecGet_mem _ _ _ hv).2, h2⟩

theorem chain_insert_entries (m m1 : ChainingHashMap) (e : WordFreq)
    (h : m.insert e = some m1) :
    m1.size = m.size ∧ ∀ b ∈ m1.table, ∀ wf ∈ b, wf = e ∨ ∃ b0 ∈ m.table, wf ∈ b0 := by
  unfold ChainingHashMap.insert at h
  cases hv : vecGet m.table (HashMap.hash e.word m.size) with
  | none => simp [hv] at h
  | some head =>
    simp only [hv, Option.some.injEq] at h
    subst h
    refine ⟨rfl, ?_⟩
    intro b hb wf hwf
    rcases List.mem_or_eq_of_mem_set hb with hb1 | hb1
    · exact Or.inr ⟨b, hb1, hwf⟩
    · rw [hb1] at hwf
      rcases insertChain_mem e head wf hwf with h1 | h1
      · exact Or.inl h1
      · exact Or.inr ⟨head, (vecGet_mem _ _ _ hv).2, h1⟩

theorem chain_write_entries (m : ChainingHashMap) (key : Str) (wf1 : WordFreq) :
    ∀ b ∈ (m.write key wf1).table, ∀ wf ∈ b, wf = wf1 ∨ ∃ b0 ∈ m.table, wf ∈ b0 := by
  intro b hb wf hwf
  unfold ChainingHashMap.write at hb
  rcases List.mem_or_eq_of_mem_set hb with hb1 | hb1
  · exact Or.inr ⟨b, hb1, hwf⟩
  · rw [hb1] at hwf
    rcases writeChain_mem key wf1 _ wf hwf with h1 | h1
    · exact Or.inl h1
    · right
      rw [List.getD_eq_getElem?_getD] at h1
      cases hg : m.table[(HashMap.hash key m.size).toNat]? with
      | none => simp [hg] at h1
      | some b0 =>
        simp only [hg, Option.getD_some] at h1
        exact ⟨b0, List.getElem?_mem hg, h1⟩

theorem open_insertLoop_entries (m : OpenAddressingHashMap) (e : WordFreq) (index : Int)
    (left i : Nat) (o : InsertOutcome)
    (h : OpenAddressingHashMap.insertLoop m e index left i = some o) :
    o.map.size = m.size ∧ ∀ slot ∈ o.map.table, slot.2 = e ∨ slot ∈ m.table := by
  induction left generalizing i with
  | zero =>
    simp only [OpenAddressingHashMap.insertLoop, Option.some.injEq] at h
    subst h
    exact ⟨rfl, fun slot hs => Or.inr hs⟩
  | succ left ih =>
    simp only [OpenAddressingHashMap.insertLoop] at h
    cases hv : vecGet m.table (Int.tmod (index + (i : Int)) (m.size : Int)) with
    | none => simp [hv] at h
    | some slot0 =>
      simp only [hv] at h
      obtain ⟨occ, x⟩ := slot0
      cases occ with
      | false =>
        simp only [Bool.not_false, if_true, Option.some.injEq] at h
        subst h
        refine ⟨rfl, fun slot hs => ?_⟩
        rcases List.mem_or_eq_of_mem_set hs with h2 | h2
        · exact Or.inr h2
        · exact Or.inl (by rw [h2])
      | true =>
        simp only [Bool.not_true, Bool.false_eq_true, if_false] at h
        by_cases h3 : x.word = e.word
        · simp only [h3, if_true, Option.some.injEq] at h
          subst h
          refine ⟨rfl, fun slot hs => ?_⟩
          rcases List.mem_or_eq_of_mem_set hs with h2 | h2
          · exact Or.inr h2
          · exact Or.inl (by rw [h2])
        · simp only [h3, if_false] at h
          exact ih (i + 1) h

theorem open_insert_entries (m : OpenAddressingHashMap) (e : WordFreq) (o : InsertOutcome)
    (h : m.insert e = some o) :
    o.map.size = m.size ∧ ∀ slot ∈ o.map.table, slot.2 = e ∨ slot ∈ m.table :=
  open_insertLoop_entries m e _ m.size 0 o h

/-! ### No orphans -/

theorem noOrphans_insert (m m1 : ChainingHashMap) (l : List Str) (e : WordFreq)
    (hinv : NoOrphans m l) (h : m.insert e = some m1) : NoOrphans m1 (l ++ [e.word]) := by
  obtain ⟨hwf, hlist, hentry⟩ := hinv
  have hv := chain_insert_valid m m1 e h
  obtain ⟨m2, h2, hwf2, hsize, hsearch, -, -⟩ := chaining_insert_finite_map m hwf e hv
  have hm : m2 = m1 := by rw [h2] at h; exact Option.some.inj h
  subst hm
  refine ⟨hwf2, ?_, ?_⟩
  · intro w hw
    rcases List.mem_append.mp hw with hw1 | hw1
    · obtain ⟨wf, hwf1⟩ := hlist w hw1
      rw [hsearch w (chain_search_valid m w _ hwf1)]
      by_cases hwe : w = e.word
      · exact ⟨e, by simp [hwe]⟩
      · exact ⟨wf, by simp [hwe, hwf1]⟩
    · have hwe : w = e.word := by simpa using hw1
      rw [hwe, hsearch e.word hv]
      exact ⟨e, by simp⟩
  · intro b hb wf hwfb
    rcases (chain_insert_entries m m2 e h).2 b hb wf hwfb with h1 | ⟨b0, hb0, h1⟩
    · rw [h1]; simp
    · exact List.mem_append_left _ (hentry b0 hb0 wf h1)

theorem noOrphans_write (m : ChainingHashMap) (l : List Str) (key : Str) (wf wf1 : WordFreq)
    (hinv : NoOrphans m l) (hfound : m.search key = some (some wf)) (hw1 : wf1.word = key) :
    NoOrphans (m.write key wf1) l := by
  obtain ⟨hwf, hlist, hentry⟩ := hinv
  have hv := chain_search_valid m key _ hfound
  obtain ⟨hwf2, hsize, hsearch⟩ := chain_write_spec m hwf key hv wf wf1 hw1 hfound
  refine ⟨hwf2, ?_, ?_⟩
  · intro w hw
    obtain ⟨x, hx⟩ := hlist w hw
    rw [hsearch w (chain_search_valid m w _ hx)]
    by_cases hwk : w = key
    · exact ⟨wf1, by simp [hwk]⟩
    · exact ⟨x, by simp [hwk, hx]⟩
  · intro b hb x hxb
    rcases chain_write_entries m key wf1 b hb x hxb with h1 | ⟨b0, hb0, h1⟩
    · obtain ⟨hword, b1, hb1, hmem⟩ := chain_search_mem m key wf hfound
      rw [h1, hw1, ← hword]
      exact hentry b1 hb1 wf hmem
    · exact hentry b0 hb0 x h1

theorem noOrphans_step (a a1 : AppData) (ev : Event)
    (hinv : NoOrphans a.chainMap a.wordsOrder) (h : a.step ev = some a1) :
    NoOrphans a1.chainMap a1.wordsOrder := by
  cases ev with
  | load file =>
    simp only [AppData.step, Option.map_eq_some'] at h
    obtain ⟨d, hd, hd1⟩ := h
    rw [← hd1]
    show NoOrphans d.chainMap d.wordsOrder
    rcases load_cases file _ d hd with h1 | ⟨content, -, hcols⟩
    · rw [h1]; exact hinv
    · refine loadColumns_invariant (fun d => NoOrphans d.chainMap d.wordsOrder) ?_ _ _ d hcols hinv
      intro d0 d1 col hd0 hcol
      rcases loadColumn_cases d0 d1 col hcol with h1 | ⟨sf, hf, cm, o, -, -, hc, -, h1⟩
      · rw [h1]; exact hd0
      · rw [h1]
        exact noOrphans_insert d0.chainMap cm d0.wordsOrder ⟨col.1, sf, hf⟩ hd0 hc
  | feedback words isSpam =>
    simp only [AppData.step, updateFrequencies] at h
    refine updateWords_invariant (fun a => NoOrphans a.chainMap a.wordsOrder) isSpam ?_
      words _ a1 h hinv
    intro b b1 w hb hw
    rcases updateWord_cases isSpam b b1 w hw with h1 | ⟨wf, hs, h1⟩ | ⟨cm, o, -, hc, -, h1⟩
    · rw [h1]; exact hb
    · rw [h1]
      refine noOrphans_write b.chainMap b.wordsOrder _ wf _ hb hs ?_
      have := (chain_search_mem b.chainMap _ wf hs).1
      split <;> exact this
    · rw [h1]
      exact noOrphans_insert b.chainMap cm b.wordsOrder _ hb hc
  | threshold text =>
    simp only [AppData.step, Option.some.injEq] at h
    rw [← h]
    unfold on_update_threshold_button_clicked
    split
    · split <;> exact hinv
    · exact hinv

/-- C19: in every state reached from empty stores (of a capacity `n > 0`) and
an empty ordered list by any sequence of load and `updateFrequencies` calls
(threshold updates may be mixed in), every word of the ordered list has an
entry in the chaining store, and the word of every entry of that store is in
the ordered list. -/
theorem no_orphans_reachable (n : Nat) (hn : 0 < n) (evs : List Event) (app : AppData)
    (h : (AppData.init n).run evs = some app) :
    (∀ w ∈ app.wordsOrder, ∃ wf, app.chainMap.search w = some (some wf) ∧ wf.word = w) ∧
    (∀ b ∈ app.chainMap.table, ∀ wf ∈ b, wf.word ∈ app.wordsOrder) := by
  have hinv : NoOrphans app.chainMap app.wordsOrder := by
    refine run_invariant (fun a => NoOrphans a.chainMap a.wordsOrder)
      (fun a a1 ev ha hs => noOrphans_step a a1 ev ha hs) evs _ app h ?_
    refine ⟨chain_wf_mk0 n hn, ?_, ?_⟩
    · intro w hw
      simp [AppData.init] at hw
    · intro b hb wf hwf
      simp only [AppData.init, ChainingHashMap.mk0] at hb
      rw [(List.mem_replicate.mp hb).2] at hwf
      simp at hwf
  refine ⟨?_, hinv.2.2⟩
  intro w hw
  obtain ⟨wf, hwf⟩ := hinv.2.1 w hw
  exact ⟨wf, hwf, (chain_search_mem _ w wf hwf).1⟩

/-- C19 on a session of capacity 7: the example file is loaded, then the
tokens `offer`, `free`, `offer` are fed back as spam; the list is
`free, meeting, offer`. -/
theorem no_orphans_reachable_witness :
    ∃ app, (AppData.init 7).run [Event.load (some exampleCSV),
        Event.feedback ["offer".toList, "free".toList, "offer".toList] true] = some app ∧
      app.wordsOrder = ["free".toList, "meeting".toList, "offer".toList] ∧
      (∀ w ∈ app.wordsOrder, ∃ wf, app.chainMap.search w = some (some wf) ∧ wf.word = w) ∧
      (∀ b ∈ app.chainMap.table, ∀ wf ∈ b, wf.word ∈ app.wordsOrder) := by
  have hs : ((AppData.init 7).run [Event.load (some exampleCSV),
      Event.feedback ["offer".toList, "free".toList, "offer".toList] true]).isSome = true := by
    decide!
  obtain ⟨app, happ⟩ := Option.isSome_iff_exists.mp hs
  have hl : ((AppData.init 7).run [Event.load (some exampleCSV),
      Event.feedback ["offer".toList, "free".toList, "offer".toList] true]).map
        (fun a => a.wordsOrder) = some ["free".toList, "meeting".toList, "offer".toList] := by
    decide!
  rw [happ] at hl
  exact ⟨app, happ, by simpa using hl, no_orphans_reachable 7 (by decide) _ app happ⟩
/-! ### Counts that are never negative -/

theorem tolower_isalnum (c : Char) (h : isalnum (tolower c) = true) :
    isLowerOrDigit (tolower c) ∧ tolower (tolower c) = tolower c := by
  unfold tolower isalnum at *
  by_cases hc : c.toNat ≥ 65 ∧ c.toNat ≤ 90
  · have hl : c.toLower = Char.ofNat (c.toNat + 32) := by
      simp only [Char.toLower, hc, and_self, if_true]
    obtain ⟨h1, h2⟩ := hc
    generalize c.toNat = n at *
    rw [hl]
    interval_cases n <;> exact ⟨Or.inl (by decide), by decide⟩
  · have hl : c.toLower = c := by
      simp only [Char.toLower, hc, if_false]
    rw [hl] at h ⊢
    refine ⟨?_, hl⟩
    simp only [Char.isAlphanum, Char.isAlpha, Char.isUpper, Char.isLower, Char.isDigit,
      Bool.or_eq_true, Bool.and_eq_true, decide_eq_true_eq] at h
    have e65 : c.val ≥ 65 ↔ 65 ≤ c.toNat := Iff.rfl
    have e90 : c.val ≤ 90 ↔ c.toNat ≤ 90 := Iff.rfl
    have e97 : c.val ≥ 97 ↔ 97 ≤ c.toNat := Iff.rfl
    have e122 : c.val ≤ 122 ↔ c.toNat ≤ 122 := Iff.rfl
    have e48 : c.val ≥ 48 ↔ 48 ≤ c.toNat := Iff.rfl
    have e57 : c.val ≤ 57 ↔ c.toNat ≤ 57 := Iff.rfl
    rw [e65, e90, e97, e122, e48, e57] at h
    rcases h with (h | h) | h
    · exact absurd h hc
    · exact Or.inl h
    · exact Or.inr h

theorem normalizeWord_chars (word : Str) :
    ∀ c ∈ normalizeWord word, isLowerOrDigit c ∧ tolower c = c ∧ isalnum c = true := by
  intro c hc
  simp only [normalizeWord, List.mem_filter, List.mem_map] at hc
  obtain ⟨⟨c0, -, hc0⟩, halnum⟩ := hc
  subst hc0
  have h := tolower_isalnum c0 halnum
  exact ⟨h.1, h.2, halnum⟩

theorem normalizeWord_fixed (t : Str) (h : ∀ c ∈ t, tolower c = c ∧ isalnum c = true) :
    normalizeWord t = t := by
  unfold normalizeWord
  have h1 : t.map tolower = t := by
    conv_rhs => rw [← List.map_id t]
    exact List.map_congr_left fun c hc => (h c hc).1
  rw [h1]
  exact List.filter_eq_self.mpr fun c hc => (h c hc).2

theorem normalizeWord_idempotent (word : Str) :
    normalizeWord (normalizeWord word) = normalizeWord word :=
  normalizeWord_fixed _ fun c hc =>
    ⟨(normalizeWord_chars word c hc).2.1, (normalizeWord_chars word c hc).2.2⟩

theorem splitOnP_takeWhile (p : Char → Bool) (s : Str) :
    s.splitOnP p = (s.takeWhile fun c => !p c) ::
      (match s.dropWhile fun c => !p c with
       | [] => []
       | _ :: r => r.splitOnP p) := by
  induction s with
  | nil => simp [List.splitOnP_nil]
  | cons c s ih =>
    rw [List.splitOnP_cons]
    by_cases hc : p c = true
    · simp [hc, List.takeWhile, List.dropWhile]
    · simp only [Bool.not_eq_true] at hc
      simp only [hc, Bool.false_eq_true, if_false, List.takeWhile, List.dropWhile, Bool.not_false]
      rw [ih]
      rfl

theorem whitespaceWords_nil : whitespaceWords [] = [] := by
  simp [whitespaceWords, List.splitOnP_nil]

theorem whitespaceWords_space (c : Char) (s : Str) (hc : isspace c = true) :
    whitespaceWords (c :: s) = whitespaceWords s := by
  simp [whitespaceWords, List.splitOnP_cons, hc]

theorem whitespaceWords_dropWhile (s : Str) :
    whitespaceWords (s.dropWhile isspace) = whitespaceWords s := by
  induction s with
  | nil => rfl
  | cons c s ih =>
    by_cases hc : isspace c = true
    · simp only [List.dropWhile, hc]
      rw [ih, whitespaceWords_space c s hc]
    · simp only [Bool.not_eq_true] at hc
      simp only [List.dropWhile, hc]

theorem dropWhile_head (p : Char → Bool) (s : Str) :
    ∀ c r, s.dropWhile p = c :: r → p c = false := by
  induction s with
  | nil => intro c r h; simp at h
  | cons a s ih =>
    intro c r h
    by_cases ha : p a = true
    · simp only [List.dropWhile, ha] at h
      exact ih c r h
    · simp only [Bool.not_eq_true] at ha
      simp only [List.dropWhile, ha] at h
      rw [← (List.cons.inj h).1]; exact ha

theorem dropWhile_not_head (p : Char → Bool) (s : Str) :
    ∀ c r, (s.dropWhile fun c => !p c) = c :: r → p c = true := by
  induction s with
  | nil => intro c r h; simp at h
  | cons a s ih =>
    intro c r h
    by_cases ha : p a = true
    · simp only [List.dropWhile, ha, Bool.not_true] at h
      rw [← (List.cons.inj h).1]; exact ha
    · simp only [Bool.not_eq_true] at ha
      simp only [List.dropWhile, ha, Bool.not_false] at h
      exact ih c r h

theorem whitespaceWords_word (s : Str) (h : (s.takeWhile fun c => !isspace c) ≠ []) :
    whitespaceWords s = (s.takeWhile fun c => !isspace c) ::
      whitespaceWords (s.dropWhile fun c => !isspace c) := by
  unfold whitespaceWords
  rw [splitOnP_takeWhile isspace s]
  rw [List.filter_cons_of_pos (by simpa using h)]
  congr 1
  cases hd : (s.dropWhile fun c => !isspace c) with
  | nil => simp [List.splitOnP_nil]
  | cons c r =>
    have hc := dropWhile_not_head isspace s c r hd
    simp [List.splitOnP_cons, hc]

theorem extractWord_none (s : Str) (h : extractWord s = none) : whitespaceWords s = [] := by
  unfold extractWord at h
  simp only [ite_eq_left_iff, reduceCtorEq, imp_false, not_not] at h
  rw [← whitespaceWords_dropWhile]
  cases hs : s.dropWhile isspace with
  | nil => exact whitespaceWords_nil
  | cons c r =>
    rw [hs] at h
    by_cases hc : isspace c = true
    · have := dropWhile_head isspace s c r hs
      simp [hc] at this
    · simp only [Bool.not_eq_true] at hc
      simp [List.takeWhile, hc] at h

theorem extractWord_some (s word rest : Str) (h : extractWord s = some (word, rest)) :
    whitespaceWords s = word :: whitespaceWords rest ∧ rest.length < s.length ∧ word ≠ [] := by
  unfold extractWord at h
  by_cases hw : ((s.dropWhile isspace).takeWhile fun c => !isspace c) = []
  · simp [hw] at h
  · simp only [hw, if_false, Option.some.injEq, Prod.mk.injEq] at h
    obtain ⟨h1, h2⟩ := h
    refine ⟨?_, ?_, ?_⟩
    · rw [← whitespaceWords_dropWhile, whitespaceWords_word _ hw, h1, h2]
    · rw [← h2]
      have ha : ((s.dropWhile isspace).dropWhile fun c => !isspace c).length <
          (s.dropWhile isspace).length := by
        cases hs : s.dropWhile isspace with
        | nil => rw [hs] at hw; simp at hw
        | cons c r =>
          rw [hs] at hw
          by_cases hc : isspace c = true
          · simp [List.takeWhile, hc] at hw
          · simp only [Bool.not_eq_true] at hc
            simp only [List.dropWhile, hc, Bool.not_false, List.length_cons]
            exact Nat.lt_succ_of_le (List.Sublist.length_le (List.dropWhile_sublist _))
      exact lt_of_lt_of_le ha (List.Sublist.length_le (List.dropWhile_sublist _))
    · rw [← h1]; exact hw

theorem tokenizeLoop_spec (fuel : Nat) :
    ∀ (s : Str) (acc : List Str), s.length ≤ fuel →
      tokenizeLoop fuel s acc =
        acc ++ ((whitespaceWords s).map normalizeWord).filter fun w => w ≠ [] := by
  induction fuel with
  | zero =>
    intro s acc hs
    have : s = [] := List.length_eq_zero.mp (Nat.le_zero.mp hs)
    subst this
    simp [tokenizeLoop, whitespaceWords_nil]
  | succ fuel ih =>
    intro s acc hs
    unfold tokenizeLoop
    cases he : extractWord s with
    | none => simp [extractWord_none s he]
    | some p =>
      obtain ⟨word, rest⟩ := p
      obtain ⟨h1, h2, -⟩ := extractWord_some s word rest he
      simp only []
      rw [ih rest _ (by omega), h1]
      by_cases hn : normalizeWord word = []
      · simp [hn]
      · simp [hn]

/-- C18: for every text, the tokens produced on the classification path are the
whitespace-delimited words of the text, each lowercased and stripped of its
non-alphanumeric characters, without those that became empty (and every fuel
from the length of the text on gives that same list); each token is non-empty
and consists only of lowercase ASCII letters and digits; normalization is
idempotent, and the second normalization, applied to each token by
`updateFrequencies`, returns the token unchanged. -/
theorem tokenize_normalizes (text : Str) :
    tokenize text = ((whitespaceWords text).map normalizeWord).filter (fun w => w ≠ []) ∧
    (∀ fuel, text.length ≤ fuel → tokenizeLoop fuel text [] = tokenize text) ∧
    (∀ t ∈ tokenize text, t ≠ [] ∧ (∀ c ∈ t, isLowerOrDigit c) ∧ normalizeWord t = t) ∧
    (∀ word : Str, normalizeWord (normalizeWord word) = normalizeWord word) := by
  have h0 : tokenize text =
      ((whitespaceWords text).map normalizeWord).filter (fun w => w ≠ []) := by
    unfold tokenize
    rw [tokenizeLoop_spec _ text [] (le_refl _)]
    rfl
  refine ⟨h0, ?_, ?_, normalizeWord_idempotent⟩
  · intro fuel hf
    rw [h0, tokenizeLoop_spec fuel text [] hf]
    rfl
  · intro t ht
    rw [h0] at ht
    simp only [List.mem_filter, List.mem_map, decide_eq_true_eq] at ht
    obtain ⟨⟨w, -, hw⟩, hne⟩ := ht
    subst hw
    exact ⟨hne, fun c hc => (normalizeWord_chars w c hc).1, normalizeWord_idempotent w⟩

/-- C18 on the text `Free OFFER!!  -- call2win`: its whitespace-delimited
words are `Free`, `OFFER!!`, `--`, `call2win`; the tokens are `free`, `offer`
and `call2win` (the word `--` becomes empty and is dropped), and normalizing
them again changes nothing. -/
theorem tokenize_normalizes_witness :
    whitespaceWords "Free OFFER!!  -- call2win\n".toList =
      ["Free".toList, "OFFER!!".toList, "--".toList, "call2win".toList] ∧
    tokenize "Free OFFER!!  -- call2win\n".toList =
      ["free".toList, "offer".toList, "call2win".toList] ∧
    (∀ t ∈ tokenize "Free OFFER!!  -- call2win\n".toList,
      t ≠ [] ∧ (∀ c ∈ t, isLowerOrDigit c) ∧ normalizeWord t = t) :=
  ⟨by decide, by decide, (tokenize_normalizes "Free OFFER!!  -- call2win\n".toList).2.2.1⟩
/-! ### The filter and sort query -/

theorem strContains_iff (s pat : Str) : strContains s pat = true ↔ List.IsInfix pat s := by
  induction s with
  | nil =>
    simp only [strContains, List.isEmpty_iff]
    exact (List.infix_nil).symm
  | cons c r ih =>
    simp only [strContains, Bool.or_eq_true, ih, List.isPrefixOf_iff_prefix]
    exact (List.infix_cons_iff).symm

theorem numericPass_iff (entry : Str) (above : Bool) (value threshold : ℚ) :
    numericPass entry above value threshold = true ↔
      (entry = [] ∨ (above = true ∧ value ≥ threshold) ∨ (above = false ∧ value ≤ threshold)) := by
  cases above <;> simp [numericPass, List.isEmpty_iff]

theorem filterWord_iff (fs : FilterSortData) (word : Str) (wf : WordFreq) :
    filterWord fs word wf = true ↔ FilterKeeps fs (parseThresholds fs) word wf := by
  unfold filterWord FilterKeeps
  by_cases ha : (!(fs.alpha_entry.map tolower).isEmpty &&
      !strContains (word.map tolower) (fs.alpha_entry.map tolower)) = true
  · simp only [ha, if_true, Bool.false_eq_true, false_iff, not_and]
    intro h
    exfalso
    simp only [Bool.and_eq_true, Bool.not_eq_true', List.isEmpty_eq_false, ne_eq,
      List.map_eq_nil_iff] at ha
    rcases h with h | h
    · exact ha.1 h
    · have := (strContains_iff _ _).mpr h
      rw [ha.2] at this
      exact Bool.false_ne_true this
  · have hal : fs.alpha_entry = [] ∨
        List.IsInfix (fs.alpha_entry.map tolower) (word.map tolower) := by
      by_cases he : fs.alpha_entry = []
      · exact Or.inl he
      · right
        rw [← strContains_iff]
        by_contra hc
        apply ha
        simp only [Bool.and_eq_true, Bool.not_eq_true', List.isEmpty_eq_false, ne_eq,
          List.map_eq_nil_iff]
        exact ⟨he, by simpa using hc⟩
    simp only [ha, Bool.false_eq_true, if_false, Bool.and_eq_true, numericPass_iff,
      beq_iff_eq, beq_eq_false_iff_ne, ne_eq]
    constructor
    · rintro ⟨⟨⟨h1, h2⟩, h3⟩, h4⟩
      exact ⟨hal, h1, h2, h3, h4⟩
    · rintro ⟨-, h1, h2, h3, h4⟩
      exact ⟨⟨⟨h1, h2⟩, h3⟩, h4⟩

theorem collectWords_skip (fs : FilterSortData) (chainMap : ChainingHashMap) (w : Str)
    (rest : List Str) (acc : List (Str × WordFreq)) (hs : chainMap.search w = some none) :
    collectWords fs chainMap (w :: rest) acc = collectWords fs chainMap rest acc := by
  rw [collectWords, hs]

theorem collectWords_entry (fs : FilterSortData) (chainMap : ChainingHashMap) (w : Str)
    (rest : List Str) (acc : List (Str × WordFreq)) (wf : WordFreq)
    (hs : chainMap.search w = some (some wf)) :
    collectWords fs chainMap (w :: rest) acc =
      if filterWord fs w wf then collectWords fs chainMap rest (acc ++ [(w, wf)])
      else collectWords fs chainMap rest acc := by
  rw [collectWords, hs]

theorem collectWords_eq (fs : FilterSortData) (chainMap : ChainingHashMap) :
    ∀ (words : List Str) (acc : List (Str × WordFreq)),
      (∀ w ∈ words, chainMap.search w ≠ none) →
      collectWords fs chainMap words acc = some (acc ++ words.filterMap (keptRow fs chainMap)) := by
  intro words
  induction words with
  | nil => intro acc _; simp [collectWords]
  | cons w rest ih =>
    intro acc hdef
    have hrest : ∀ v ∈ rest, chainMap.search v ≠ none :=
      fun v hv => hdef v (List.mem_cons_of_mem _ hv)
    have hw := hdef w (List.mem_cons_self _ _)
    cases hs : chainMap.search w with
    | none => exact absurd hs hw
    | some r =>
      cases r with
      | none =>
        rw [collectWords_skip fs chainMap w rest acc hs, ih acc hrest]
        simp [List.filterMap_cons, keptRow, hs]
      | some wf =>
        rw [collectWords_entry fs chainMap w rest acc wf hs]
        by_cases hf : filterWord fs w wf = true
        · simp only [hf, if_true]
          rw [ih _ hrest]
          simp [List.filterMap_cons, keptRow, hs, hf]
        · simp only [hf, Bool.false_eq_true, if_false]
          rw [ih acc hrest]
          simp [List.filterMap_cons, keptRow, hs, hf]

theorem sortWords_perm (sort : ((Str × WordFreq) → (Str × WordFreq) → Bool) →
    List (Str × WordFreq) → List (Str × WordFreq)) (hsort : SortContract sort)
    (k : Int) (rows : List (Str × WordFreq))
    (h0 : StrictWeakOrder fun a b : Str × WordFreq => strLt a.1 b.1)
    (hkey : ∀ key : (Str × WordFreq) → ℚ,
      StrictWeakOrder fun a b : Str × WordFreq => decide (key a > key b)) :
    (sortWords sort k rows).Perm rows := by
  unfold sortWords
  split
  · exact (hsort _ rows h0).1
  · split
    · exact (hsort _ rows (hkey fun a => a.2.spamFreq)).1
    · split
      · exact (hsort _ rows (hkey fun a => a.2.hamFreq)).1
      · split
        · exact (hsort _ rows (hkey fun a => spam_score a.2)).1
        · split
          · exact (hsort _ rows (hkey fun a => ham_score a.2)).1
          · exact List.Perm.refl _

theorem strictWeak_key (key : (Str × WordFreq) → ℚ) :
    StrictWeakOrder fun a b : Str × WordFreq => decide (key a > key b) := by
  refine ⟨?_, ?_, ?_⟩
  · intro a; simp
  · intro a b c h1 h2
    simp only [gt_iff_lt, decide_eq_true_eq] at *
    exact lt_trans h2 h1
  · intro a b c h1 h2
    simp only [gt_iff_lt, decide_eq_false_iff_not, not_lt] at *
    exact le_trans h1 h2

theorem strLt_irrefl : ∀ a : Str, strLt a a = false := by
  intro a
  induction a with
  | nil => rfl
  | cons c r ih => simp [strLt, ih]

theorem strLt_trans : ∀ a b c : Str, strLt a b = true → strLt b c = true → strLt a c = true := by
  intro a
  induction a with
  | nil =>
    intro b c h1 h2
    cases b with
    | nil => simp [strLt] at h1
    | cons y ys =>
      cases c with
      | nil => simp [strLt] at h2
      | cons z zs => rfl
  | cons x xs ih =>
    intro b c h1 h2
    cases b with
    | nil => simp [strLt] at h1
    | cons y ys =>
      cases c with
      | nil => simp [strLt] at h2
      | cons z zs =>
        simp only [strLt] at h1 h2 ⊢
        by_cases hxy : x.toNat < y.toNat
        · by_cases hyz : y.toNat < z.toNat
          · have : x.toNat < z.toNat := lt_trans hxy hyz
            simp [this]
          · simp only [hyz, if_false] at h2
            by_cases hzy : z.toNat < y.toNat
            · simp [hzy] at h2
            · have : x.toNat < z.toNat := by omega
              simp [this]
        · simp only [hxy, if_false] at h1
          by_cases hyx : y.toNat < x.toNat
          · simp [hyx] at h1
          · simp only [hyx, if_false] at h1
            by_cases hyz : y.toNat < z.toNat
            · have : x.toNat < z.toNat := by omega
              simp [this]
            · simp only [hyz, if_false] at h2
              by_cases hzy : z.toNat < y.toNat
              · simp [hzy] at h2
              · simp only [hzy, if_false] at h2
                have e1 : ¬ x.toNat < z.toNat := by omega
                have e2 : ¬ z.toNat < x.toNat := by omega
                simp only [e1, e2, if_false]
                exact ih ys zs h1 h2

theorem strLt_negTrans :
    ∀ a b c : Str, strLt a b = false → strLt b c = false → strLt a c = false := by
  intro a
  induction a with
  | nil =>
    intro b c h1 h2
    cases b with
    | nil => exact h2
    | cons y ys => simp [strLt] at h1
  | cons x xs ih =>
    intro b c h1 h2
    cases c with
    | nil => rfl
    | cons z zs =>
      cases b with
      | nil => simp [strLt] at h2
      | cons y ys =>
        simp only [strLt] at h1 h2 ⊢
        by_cases hxy : x.toNat < y.toNat
        · simp [hxy] at h1
        · simp only [hxy, if_false] at h1
          by_cases hyz : y.toNat < z.toNat
          · simp [hyz] at h2
          · simp only [hyz, if_false] at h2
            by_cases hyx : y.toNat < x.toNat
            · have e1 : ¬ x.toNat < z.toNat := by omega
              have e2 : z.toNat < x.toNat := by omega
              simp [e1, e2]
            · simp only [hyx, if_false] at h1
              by_cases hzy : z.toNat < y.toNat
              · have e1 : ¬ x.toNat < z.toNat := by omega
                have e2 : z.toNat < x.toNat := by omega
                simp [e1, e2]
              · simp only [hzy, if_false] at h2
                have e1 : ¬ x.toNat < z.toNat := by omega
                have e2 : ¬ z.toNat < x.toNat := by omega
                simp only [e1, e2, if_false]
                exact ih ys zs h1 h2

theorem strictWeak_word :
    StrictWeakOrder fun a b : Str × WordFreq => strLt a.1 b.1 :=
  ⟨fun a => strLt_irrefl a.1, fun a b c => strLt_trans a.1 b.1 c.1,
    fun a b c => strLt_negTrans a.1 b.1 c.1⟩

theorem insertionSort_sorted (comp : (Str × WordFreq) → (Str × WordFreq) → Bool)
    (h : StrictWeakOrder comp) (rows : List (Str × WordFreq)) :
    (rows.insertionSort fun a b => comp b a = false).Pairwise fun a b => comp b a = false := by
  haveI : IsTotal (Str × WordFreq) (fun a b => comp b a = false) := ⟨by
    intro a b
    by_cases hba : comp b a = false
    · exact Or.inl hba
    · right
      simp only [Bool.not_eq_false] at hba
      by_contra hab
      simp only [Bool.not_eq_false] at hab
      have := h.2.1 a b a hab hba
      rw [h.1 a] at this
      exact Bool.false_ne_true this⟩
  haveI : IsTrans (Str × WordFreq) (fun a b => comp b a = false) :=
    ⟨fun a b c hab hbc => h.2.2 c b a hbc hab⟩
  exact List.sorted_insertionSort (fun a b => comp b a = false) rows

theorem insertionSortBy_contract : SortContract insertionSortBy := by
  intro comp rows h
  exact ⟨List.perm_insertionSort _ rows, insertionSort_sorted comp h rows⟩

theorem keptRow_mem (fs : FilterSortData) (chainMap : ChainingHashMap) (words : List Str)
    (w : Str) :
    w ∈ (words.filterMap (keptRow fs chainMap)).map (fun r => r.1) ↔
      w ∈ words ∧ ∃ wf, chainMap.search w = some (some wf) ∧
        FilterKeeps fs (parseThresholds fs) w wf := by
  simp only [List.mem_map, List.mem_filterMap]
  constructor
  · rintro ⟨r, ⟨v, hv, hk⟩, hr⟩
    unfold keptRow at hk
    split at hk
    · rename_i wf hs
      by_cases hf : filterWord fs v wf = true
      · simp only [hf, if_true, Option.some.injEq] at hk
        subst hk
        simp only at hr
        subst hr
        exact ⟨hv, wf, hs, (filterWord_iff fs _ wf).mp hf⟩
      · simp [hf] at hk
    · simp at hk
  · rintro ⟨hw, wf, hs, hk⟩
    refine ⟨(w, wf), ⟨w, hw, ?_⟩, rfl⟩
    unfold keptRow
    rw [hs]
    simp only [(filterWord_iff fs w wf).mpr hk, if_true]

theorem parseThresholds_values (fs : FilterSortData) (t1 t2 t3 t4 : ℚ)
    (h1 : entryValue fs.spam_count_entry = some t1) (h2 : entryValue fs.ham_count_entry = some t2)
    (h3 : entryValue fs.spam_score_entry = some t3)
    (h4 : entryValue fs.ham_score_entry = some t4) :
    parseThresholds fs = ⟨t1, t2, t3, t4⟩ := by
  simp only [parseThresholds, h1, h2, h3, h4]

/-- C16: for every ordered word list, store and filter input (every lookup of
a listed word being defined, and `std::sort` being any sort that meets its
contract), the query gives a result, and a word is in the result exactly when
it is in the list, has a store entry, and passes the conjunction of the active
predicates: the lowercased filter substring, if not empty, occurs in the
lowercased word, and each numeric predicate has an empty text or is satisfied
(`>=` for above, `<=` for below) by its threshold. A predicate is active
whenever its text is not empty, whatever the value; the thresholds are the
numbers parsed from the texts (0 for an empty text); the score is the count
over the total when the total is positive and 0 when the total is 0. -/
theorem query_filter_conjunction
    (sort : ((Str × WordFreq) → (Str × WordFreq) → Bool) →
      List (Str × WordFreq) → List (Str × WordFreq))
    (hsort : SortContract sort) (fs : FilterSortData) (app : AppData)
    (hsearch : ∀ w ∈ app.wordsOrder, app.chainMap.search w ≠ none) :
    (∃ rows, on_apply_filter_button_clicked sort fs app = some rows ∧
      ∀ w, w ∈ rows.map (fun r => r.1) ↔
        w ∈ app.wordsOrder ∧ ∃ wf, app.chainMap.search w = some (some wf) ∧
          FilterKeeps fs (parseThresholds fs) w wf) ∧
    (∀ t1 t2 t3 t4, entryValue fs.spam_count_entry = some t1 →
      entryValue fs.ham_count_entry = some t2 → entryValue fs.spam_score_entry = some t3 →
      entryValue fs.ham_score_entry = some t4 → parseThresholds fs = ⟨t1, t2, t3, t4⟩) ∧
    (∀ wf : WordFreq, wf.spamFreq + wf.hamFreq = 0 → spam_score wf = 0 ∧ ham_score wf = 0) ∧
    (∀ wf : WordFreq, wf.spamFreq + wf.hamFreq > 0 →
      spam_score wf = wf.spamFreq / (wf.spamFreq + wf.hamFreq) ∧
      ham_score wf = wf.hamFreq / (wf.spamFreq + wf.hamFreq)) := by
  refine ⟨?_, parseThresholds_values fs, ?_, ?_⟩
  · unfold on_apply_filter_button_clicked
    rw [collectWords_eq fs app.chainMap app.wordsOrder [] hsearch]
    refine ⟨_, rfl, ?_⟩
    intro w
    rw [← keptRow_mem fs app.chainMap app.wordsOrder w]
    simp only [List.nil_append, List.map_map]
    have hp := sortWords_perm sort hsort fs.sort_combo
      (app.wordsOrder.filterMap (keptRow fs app.chainMap)) strictWeak_word strictWeak_key
    have hm := (hp.map fun r : Str × WordFreq => r.1).mem_iff (a := w)
    rw [← hm]
    simp only [List.mem_map, Function.comp]
  · intro wf h
    simp [spam_score, ham_score, h]
  · intro wf h
    simp [spam_score, ham_score, h]

/-- C16 on the example dataset (free = (9, 1), meeting = (1, 9), capacity 7),
with insertion sort for `std::sort`: the filter "spamCount above 5" returns
exactly the row of `free`; the filter "spamCount below 0" is active although
its value is 0 and returns nothing; with every text empty both words are
returned. -/
theorem query_filter_conjunction_witness :
    on_apply_filter_button_clicked insertionSortBy
      { FilterSortData.blank with spam_count_entry := "5".toList }
      (AppData.loaded 7 exampleCSV) = some [("free".toList, 9, 1, 10)] ∧
    on_apply_filter_button_clicked insertionSortBy
      { FilterSortData.blank with spam_count_entry := "0".toList, spam_count_combo := 1 }
      (AppData.loaded 7 exampleCSV) = some [] ∧
    on_apply_filter_button_clicked insertionSortBy FilterSortData.blank
      (AppData.loaded 7 exampleCSV) =
        some [("free".toList, 9, 1, 10), ("meeting".toList, 1, 9, 10)] ∧
    (∃ rows, on_apply_filter_button_clicked insertionSortBy
        { FilterSortData.blank with spam_count_entry := "5".toList }
        (AppData.loaded 7 exampleCSV) = some rows ∧
      ∀ w, w ∈ rows.map (fun r => r.1) ↔
        w ∈ (AppData.loaded 7 exampleCSV).wordsOrder ∧
          ∃ wf, (AppData.loaded 7 exampleCSV).chainMap.search w = some (some wf) ∧
            FilterKeeps { FilterSortData.blank with spam_count_entry := "5".toList }
              (parseThresholds { FilterSortData.blank with spam_count_entry := "5".toList })
              w wf) :=
  ⟨by decide!, by decide!, by decide!,
    (query_filter_conjunction insertionSortBy insertionSortBy_contract
      { FilterSortData.blank with spam_count_entry := "5".toList }
      (AppData.loaded 7 exampleCSV) (by decide!)).1⟩

/-- C14, evaluated at the boundary 0.6: for a word with the entry (8, 2) the
contribution is the `double` nearest to 0.6 and `contribution / 0.2` evaluates
to `3 - 2^-51`, so the conversion to `int` gives 2 and the word is tagged spam
level 3, where `min(5, floor(0.6 / 0.2) + 1)` is 4; the entry (2, 8) is tagged
ham level 3 in the same way. At the other boundaries the level is the one of
the claim: (6, 4) gives 2, (7, 3) gives 3, (9, 1) gives 5, (1, 0) gives 5; a
contribution of 0 and a word without entry give no tag. -/
theorem highlight_level_at_boundary :
    contribution ⟨"offer".toList, 8, 2⟩ = roundDouble (3 / 5) ∧
    roundDouble (contribution ⟨"offer".toList, 8, 2⟩ / roundDouble (1 / 5)) = 3 - 1 / 2 ^ 51 ∧
    highlightTag (singleStore "offer".toList 8 2) "offer".toList =
      some (some (HighlightTag.spam 3)) ∧
    exactLevel ((8 - 2) / (8 + 2)) = 4 ∧
    highlightTag (singleStore "offer".toList 2 8) "offer".toList =
      some (some (HighlightTag.ham 3)) ∧
    highlightTag (singleStore "offer".toList 6 4) "offer".toList =
      some (some (HighlightTag.spam 2)) ∧
    highlightTag (singleStore "offer".toList 7 3) "offer".toList =
      some (some (HighlightTag.spam 3)) ∧
    highlightTag (singleStore "offer".toList 9 1) "offer".toList =
      some (some (HighlightTag.spam 5)) ∧
    highlightTag (singleStore "offer".toList 1 0) "offer".toList =
      some (some (HighlightTag.spam 5)) ∧
    highlightTag (singleStore "offer".toList 5 5) "offer".toList = some none ∧
    highlightTag (singleStore "offer".toList 5 5) "hello".toList = some none := by
  decide!

theorem getlineDelim_cons (ss : Str) (h : ss ≠ []) :
    getlineDelim commaChar ss =
      some (ss.takeWhile (fun c => !(c == commaChar)),
        (ss.dropWhile (fun c => !(c == commaChar))).drop 1) := by
  cases ss with
  | nil => exact absurd rfl h
  | cons a r =>
    have e : (fun c : Char => decide (c ≠ commaChar)) = fun c => !(c == commaChar) := by
      funext c
      by_cases hc : c = commaChar <;> simp [hc]
    simp only [getlineDelim, e]

theorem takeWhile_dropWhile_nil (p : Char → Bool) (s : Str) (h : s.dropWhile p = []) :
    s.takeWhile p = s ∧ ∀ c ∈ s, p c = true := by
  have := List.takeWhile_append_dropWhile p s
  rw [h, List.append_nil] at this
  refine ⟨this, ?_⟩
  intro c hc
  rw [← this] at hc
  exact List.mem_takeWhile_imp hc

theorem commaFields_ne_nil (s : Str) : commaFields s ≠ [] :=
  List.splitOnP_ne_nil _ s

theorem streamFields_cons (ss : Str) (h : ss ≠ []) :
    streamFields ss = ss.takeWhile (fun c => !(c == commaChar)) ::
      streamFields ((ss.dropWhile (fun c => !(c == commaChar))).drop 1) := by
  have hsplit := splitOnP_takeWhile (fun c => c == commaChar) ss
  have happ := List.takeWhile_append_dropWhile (fun c => !(c == commaChar)) ss
  cases hd : ss.dropWhile (fun c => !(c == commaChar)) with
  | nil =>
    obtain ⟨htw, hall⟩ := takeWhile_dropWhile_nil _ ss hd
    rw [hd] at hsplit
    have hlast : ss.getLast? ≠ some commaChar := by
      intro hl
      have hm := List.mem_of_getLast?_eq_some hl
      have := hall commaChar hm
      simp at this
    simp only [streamFields, h, hlast, if_false, commaFields, hsplit, List.drop_nil, if_true]
  | cons c r =>
    have hc : (c == commaChar) = true := dropWhile_not_head (fun c => c == commaChar) ss c r hd
    have hceq : c = commaChar := by simpa using hc
    rw [hd] at hsplit happ
    simp only [List.drop_succ_cons, List.drop_zero]
    by_cases hr : r = []
    · subst hr
      have hlast : ss.getLast? = some commaChar := by
        rw [← happ, List.getLast?_append_cons, hceq]
        rfl
      simp only [streamFields, h, hlast, if_false, if_true, commaFields, hsplit,
        List.splitOnP_nil]
      rfl
    · have hlast : ss.getLast? = r.getLast? := by
        rw [← happ, List.getLast?_append_cons]
        cases r with
        | nil => exact absurd rfl hr
        | cons b r1 => exact List.getLast?_cons_cons
      have hne := commaFields_ne_nil r
      unfold commaFields at hne
      simp only [streamFields, h, hr, hlast, if_false, commaFields, hsplit]
      split_ifs
      · rw [List.dropLast_cons_of_ne_nil hne]
      · rfl

theorem splitCSVLineLoop_spec (fuel : Nat) :
    ∀ (ss : Str) (tokens : List Str), ss.length < fuel →
      splitCSVLineLoop fuel ss tokens = tokens ++ (streamFields ss).map stripQuotes := by
  induction fuel with
  | zero => intro ss tokens h; omega
  | succ fuel ih =>
    intro ss tokens h
    unfold splitCSVLineLoop
    by_cases hs : ss = []
    · subst hs
      simp [getlineDelim, streamFields]
    · rw [getlineDelim_cons ss hs]
      simp only []
      have hlen : ((ss.dropWhile (fun c => !(c == commaChar))).drop 1).length < fuel := by
        have h1 : (ss.dropWhile (fun c => !(c == commaChar))).length ≤ ss.length :=
          List.Sublist.length_le (List.dropWhile_sublist _)
        have h2 : ss.length ≠ 0 := fun h0 => hs (List.length_eq_zero.mp h0)
        rw [List.length_drop]
        omega
      rw [ih _ _ hlen, streamFields_cons ss hs]
      simp

/-- The fields `splitCSVLine` returns: those of the line split at every comma,
without the field after a final comma and with none for the empty line; one
pair of surrounding quotes is removed from a field (a field that is a single
quote becomes empty). -/
theorem splitCSVLine_eq (line : Str) :
    splitCSVLine line = (streamFields line).map stripQuotes := by
  unfold splitCSVLine
  rw [splitCSVLineLoop_spec _ line [] (Nat.lt_succ_self _)]
  rfl

theorem splitOnP_length (p : Char → Bool) (s : Str) :
    (s.splitOnP p).length = (s.filter p).length + 1 := by
  induction s with
  | nil => simp [List.splitOnP_nil]
  | cons c s ih =>
    rw [List.splitOnP_cons]
    by_cases hc : p c = true
    · simp [hc, ih]
    · simp only [Bool.not_eq_true] at hc
      simp only [hc, Bool.false_eq_true, if_false, List.filter_cons_of_neg, not_false_eq_true]
      rw [← ih]
      cases h : s.splitOnP p with
      | nil => exact absurd h (List.splitOnP_ne_nil p s)
      | cons a l => simp [List.modifyHead]

/-- For a line that is not empty and does not end with a comma, `splitCSVLine`
returns the fields of the line split at every comma, one more than there are
commas, each with one layer of surrounding quotes removed. -/
theorem splitCSVLine_regular (line : Str) (h1 : line ≠ [])
    (h2 : line.getLast? ≠ some commaChar) :
    splitCSVLine line = (commaFields line).map stripQuotes ∧
    (splitCSVLine line).length = (line.filter fun c => c == commaChar).length + 1 := by
  have e : splitCSVLine line = (commaFields line).map stripQuotes := by
    rw [splitCSVLine_eq]
    simp only [streamFields, h1, h2, if_false]
  refine ⟨e, ?_⟩
  rw [e, List.length_map]
  exact splitOnP_length _ line

/-- C21, evaluated on the line `a,b,`: it has two commas and the three fields
`a`, `b` and the empty field, of which `splitCSVLine` returns the first two;
the empty line has no comma and one (empty) field, and `splitCSVLine` returns
none; the field that is a single double quote is not wrapped in a pair of
quotes, and is returned as the empty field. -/
theorem splitCSVLine_drops_trailing_field :
    commaFields "a,b,".toList = ["a".toList, "b".toList, []] ∧
    splitCSVLine "a,b,".toList = ["a".toList, "b".toList] ∧
    commaFields [] = [[]] ∧
    splitCSVLine [] = [] ∧
    splitCSVLine ("x,".toList ++ [quoteChar]) = ["x".toList, []] ∧
    splitCSVLine ("a,,b,".toList ++ [quoteChar] ++ "c".toList ++ [quoteChar]) =
      ["a".toList, [], "b".toList, "c".toList] := by
  decide

/-! ### The entry counter -/

theorem chain_insert_wf (m m1 : ChainingHashMap) (hwf : m.WF) (e : WordFreq)
    (h : m.insert e = some m1) : m1.WF := by
  have hv := chain_insert_valid m m1 e h
  obtain ⟨m2, h2, hwf2, -⟩ := chaining_insert_finite_map m hwf e hv
  rw [h] at h2
  rw [Option.some.inj h2]
  exact hwf2

theorem chain_count_exact (m : ChainingHashMap) (hwf : m.WF) :
    CountExact m.search m.getCount := by
  refine ⟨m.table.flatten.map WordFreq.word, ?_, ?_, ?_⟩
  · unfold List.Nodup
    rw [List.pairwise_map, List.pairwise_flatten]
    refine ⟨?_, ?_⟩
    · intro b hb
      have := hwf.nodup b hb
      unfold List.Nodup at this
      exact List.pairwise_map.mp this
    · rw [List.pairwise_iff_getElem]
      intro i j hi hj hij x hx y hy hxy
      have h1 := hwf.home i m.table[i] (List.getElem?_eq_getElem hi) x hx
      have h2 := hwf.home j m.table[j] (List.getElem?_eq_getElem hj) y hy
      rw [hxy, h2] at h1
      have : j = i := by exact_mod_cast h1
      omega
  · intro w
    constructor
    · intro hw
      simp only [List.mem_map, List.mem_flatten] at hw
      obtain ⟨wf, ⟨b, hb, hwfb⟩, hword⟩ := hw
      obtain ⟨i, hi, hbi⟩ := List.getElem_of_mem hb
      have hhome := hwf.home i b (by rw [List.getElem?_eq_getElem hi, hbi]) wf hwfb
      rw [hword] at hhome
      have hv : HashMap.validKey m.size w := by
        unfold HashMap.validKey
        rw [hhome]
        exact Int.ofNat_nonneg i
      have hbucket : m.bucket w = b := by
        unfold ChainingHashMap.bucket
        rw [hhome, Int.toNat_ofNat, List.getD_eq_getElem?_getD, List.getElem?_eq_getElem hi, hbi]
        rfl
      rw [chain_search_eq m hwf w hv, hbucket]
      cases hs : ChainingHashMap.searchChain w b with
      | none =>
        have := (searchChain_eq_none_iff w b).mp hs
        exact absurd (List.mem_map.mpr ⟨wf, hwfb, hword⟩) this
      | some wf1 => exact ⟨wf1, rfl⟩
    · rintro ⟨wf, hs⟩
      obtain ⟨hword, b, hb, hmem⟩ := chain_search_mem m w wf hs
      simp only [List.mem_map, List.mem_flatten]
      exact ⟨wf, ⟨b, hb, hmem⟩, hword⟩
  · unfold ChainingHashMap.getCount
    rw [hwf.count_eq, List.length_map, List.length_flatten]

theorem vecGet_nil {α : Type} (i : Int) : vecGet ([] : List α) i = none := by
  unfold vecGet
  split_ifs <;> rfl

theorem chain_count_exact_cleared (m : ChainingHashMap) (ht : m.table = []) (hc : m.count = 0) :
    CountExact m.search m.getCount := by
  refine ⟨[], List.nodup_nil, ?_, ?_⟩
  · intro w
    constructor
    · intro h; simp at h
    · rintro ⟨wf, h⟩
      unfold ChainingHashMap.search at h
      rw [ht, vecGet_nil] at h
      simp at h
  · simp [ChainingHashMap.getCount, hc]

theorem chain_runOps_invariant (ops : List StoreOp) :
    ∀ m m1 : ChainingHashMap, (m.WF ∨ (m.table = [] ∧ m.count = 0)) →
      m.runOps ops = some m1 → (m1.WF ∨ (m1.table = [] ∧ m1.count = 0)) := by
  induction ops with
  | nil =>
    intro m m1 hm h
    simp only [ChainingHashMap.runOps, Option.some.injEq] at h
    rw [← h]; exact hm
  | cons op ops ih =>
    intro m m1 hm h
    simp only [ChainingHashMap.runOps] at h
    cases hs : m.applyOp op with
    | none => simp [hs] at h
    | some m2 =>
      simp only [hs] at h
      refine ih m2 m1 ?_ h
      cases op with
      | insert data =>
        simp only [ChainingHashMap.applyOp] at hs
        rcases hm with hm | hm
        · exact Or.inl (chain_insert_wf m m2 hm data hs)
        · exfalso
          unfold ChainingHashMap.insert at hs
          rw [hm.1] at hs
          simp only [vecGet_nil] at hs
          exact Option.noConfusion hs
      | clear =>
        simp only [ChainingHashMap.applyOp, Option.some.injEq] at hs
        rw [← hs]
        exact Or.inr ⟨rfl, rfl⟩
theorem tmod_neg_of_neg (a : Int) (n : Nat) (hn : 0 < n) (h : Int.tmod a n < 0) :
    Int.tmod (Int.tmod a n + 0) n < 0 := by
  rw [Int.add_zero]
  cases a with
  | ofNat k =>
    exfalso
    have := Int.tmod_nonneg (n : Int) (Int.ofNat_nonneg k)
    exact absurd h (not_lt.mpr this)
  | negSucc k =>
    have e : Int.tmod (Int.negSucc k) (n : Int) = -(((k + 1) % n : Nat) : Int) := rfl
    rw [e] at h ⊢
    have hr : 0 < (k + 1) % n := by omega
    obtain ⟨r, hr1⟩ : ∃ r, (k + 1) % n = r + 1 := ⟨(k + 1) % n - 1, by omega⟩
    have hlt : (k + 1) % n < n := Nat.mod_lt _ hn
    rw [hr1]
    have e2 : (-(((r + 1 : Nat)) : Int)) = Int.negSucc r := rfl
    rw [e2]
    have e3 : Int.tmod (Int.negSucc r) (n : Int) = -(((r + 1) % n : Nat) : Int) := rfl
    rw [e3, Nat.mod_eq_of_lt (by omega)]
    omega

theorem open_insert_valid (m : OpenAddressingHashMap) (hs : m.Shape) (e : WordFreq)
    (o : InsertOutcome) (h : m.insert e = some o) : HashMap.validKey m.size e.word := by
  by_contra hv
  unfold HashMap.validKey at hv
  have hneg : HashMap.hash e.word m.size < 0 := not_le.mp hv
  obtain ⟨s, hsz⟩ : ∃ s, m.size = s + 1 := ⟨m.size - 1, by have := hs.1; omega⟩
  have hidx := tmod_neg_of_neg (absInt32 (HashMap.hashVal e.word)) m.size hs.1 hneg
  unfold OpenAddressingHashMap.insert at h
  rw [hsz] at h
  unfold OpenAddressingHashMap.insertLoop at h
  rw [← hsz] at h
  have hv0 : vecGet m.table
      (Int.tmod (HashMap.hash e.word m.size + ((0 : Nat) : Int)) (m.size : Int)) = none := by
    unfold vecGet
    rw [if_pos]
    exact hidx
  simp only [hv0] at h
  exact Option.noConfusion h

theorem open_search_valid (m : OpenAddressingHashMap) (hs : m.Shape) (w : Str)
    (r : Option WordFreq) (h : m.search w = some r) : HashMap.validKey m.size w := by
  by_contra hv
  unfold HashMap.validKey at hv
  have hneg : HashMap.hash w m.size < 0 := not_le.mp hv
  obtain ⟨s, hsz⟩ : ∃ s, m.size = s + 1 := ⟨m.size - 1, by have := hs.1; omega⟩
  have hidx := tmod_neg_of_neg (absInt32 (HashMap.hashVal w)) m.size hs.1 hneg
  unfold OpenAddressingHashMap.search at h
  rw [hsz] at h
  unfold OpenAddressingHashMap.searchLoop at h
  rw [← hsz] at h
  have hv0 : vecGet m.table
      (Int.tmod (HashMap.hash w m.size + ((0 : Nat) : Int)) (m.size : Int)) = none := by
    unfold vecGet
    rw [if_pos]
    exact hidx
  simp only [hv0] at h
  exact Option.noConfusion h

theorem open_insert_wf (m : OpenAddressingHashMap) (hwf : m.WF) (e : WordFreq)
    (o : InsertOutcome) (h : m.insert e = some o) : o.map.WF := by
  have hs := hwf.shape
  have hv := open_insert_valid m hs e o h
  rcases probe_cases m hs e.word m.size with hsk | ⟨k, hk, hsk, slot, hslot, hcase⟩
  · rw [insert_exhausted m hs e hv hsk] at h
    rw [← Option.some.inj h]
    exact hwf
  · obtain ⟨occ, x⟩ := slot
    cases occ with
    | false =>
      rw [insert_at_empty m hs e hv k hk hsk x hslot] at h
      rw [← Option.some.inj h]
      exact wf_set_slot m hwf e hv k hk hsk (false, x) hslot (Or.inl rfl) (m.count + 1) (by simp)
    | true =>
      have hw : x.word = e.word := by
        rcases hcase with hc | hc
        · exact absurd hc (by simp)
        · exact hc
      rw [insert_at_match m hs e hv k hk hsk x hslot hw] at h
      rw [← Option.some.inj h]
      exact wf_set_slot m hwf e hv k hk hsk (true, x) hslot (Or.inr hw) m.count (by simp)

theorem stored_index_unique (m : OpenAddressingHashMap) (hwf : m.WF) (j1 j2 : Nat)
    (wf1 wf2 : WordFreq) (h1 : m.table[j1]? = some (true, wf1))
    (h2 : m.table[j2]? = some (true, wf2)) (hw : wf1.word = wf2.word) : j1 = j2 := by
  obtain ⟨-, k1, -, hp1, hs1⟩ := hwf.reach j1 wf1 h1
  obtain ⟨-, k2, -, hp2, hs2⟩ := hwf.reach j2 wf2 h2
  rw [hw] at hp1 hs1
  rcases lt_trichotomy k1 k2 with hlt | heq | hgt
  · exfalso
    obtain ⟨wf3, h3, hne⟩ := hs2 k1 hlt
    rw [hp1, h1] at h3
    have : wf1 = wf3 := by
      have := Option.some.inj h3
      exact (Prod.mk.inj this).2
    rw [← this] at hne
    exact hne hw
  · rw [← hp1, ← hp2, heq]
  · exfalso
    obtain ⟨wf3, h3, hne⟩ := hs1 k2 hgt
    rw [hp2, h2] at h3
    have : wf2 = wf3 := by
      have := Option.some.inj h3
      exact (Prod.mk.inj this).2
    rw [← this] at hne
    exact hne rfl

theorem open_count_exact (m : OpenAddressingHashMap) (hwf : m.WF) :
    CountExact m.search m.getCount ∧
    m.getCount = ((m.table.filter fun slot => slot.1).length : Int) ∧
    m.getCount ≤ (m.size : Int) ∧ m.getLoadFactor ≤ 1 := by
  have hs := hwf.shape
  have hle : m.getCount ≤ (m.size : Int) := by
    unfold OpenAddressingHashMap.getCount
    rw [hwf.count_eq, ← hs.2]
    exact_mod_cast List.length_filter_le _ _
  refine ⟨⟨(m.table.filter fun slot => slot.1).map fun slot => slot.2.word, ?_, ?_, ?_⟩,
    hwf.count_eq, hle, ?_⟩
  · unfold List.Nodup
    rw [List.pairwise_map]
    have hp : m.table.Pairwise fun a b => a.1 = true → b.1 = true → a.2.word ≠ b.2.word := by
      rw [List.pairwise_iff_getElem]
      intro i j hi hj hij ha hb hab
      have h1 : m.table[i]? = some (true, m.table[i].2) := by
        rw [List.getElem?_eq_getElem hi, ← ha]
      have h2 : m.table[j]? = some (true, m.table[j].2) := by
        rw [List.getElem?_eq_getElem hj, ← hb]
      have := stored_index_unique m hwf i j _ _ h1 h2 hab
      omega
    refine (hp.filter fun slot => slot.1).imp_of_mem ?_
    intro a b ha hb hab
    exact hab (List.mem_filter.mp ha).2 (List.mem_filter.mp hb).2
  · intro w
    constructor
    · intro hw
      simp only [List.mem_map, List.mem_filter] at hw
      obtain ⟨slot, ⟨hmem, hocc⟩, hword⟩ := hw
      obtain ⟨j, hj, hslot⟩ := List.getElem_of_mem hmem
      have h1 : m.table[j]? = some (true, slot.2) := by
        rw [List.getElem?_eq_getElem hj, hslot, ← hocc]
      have := search_stored m hwf j slot.2 h1
      rw [hword] at this
      exact ⟨slot.2, this⟩
    · rintro ⟨wf, hsearch⟩
      have hv := open_search_valid m hs w _ hsearch
      rcases search_result m hs w hv with hnone | ⟨j, wf1, hslot, hword, -⟩
      · rw [hnone] at hsearch
        exact absurd hsearch (by simp)
      · simp only [List.mem_map, List.mem_filter]
        exact ⟨(true, wf1), ⟨(List.mem_iff_getElem?.mpr ⟨j, hslot⟩), rfl⟩, hword⟩
  · unfold OpenAddressingHashMap.getCount
    rw [hwf.count_eq, List.length_map]
  · unfold OpenAddressingHashMap.getLoadFactor
    have hpos : (0 : ℚ) < (m.size : ℚ) := by exact_mod_cast hs.1
    rw [div_le_one hpos]
    have : m.count ≤ (m.size : Int) := hle
    exact_mod_cast this

theorem open_runOps_invariant (ops : List StoreOp) :
    ∀ m m1 : OpenAddressingHashMap, m.WF → m.runOps ops = some m1 → m1.WF := by
  induction ops with
  | nil =>
    intro m m1 hm h
    simp only [OpenAddressingHashMap.runOps, Option.some.injEq] at h
    rw [← h]; exact hm
  | cons op ops ih =>
    intro m m1 hm h
    simp only [OpenAddressingHashMap.runOps] at h
    cases hs : m.applyOp op with
    | none => simp [hs] at h
    | some m2 =>
      simp only [hs] at h
      refine ih m2 m1 ?_ h
      cases op with
      | insert data =>
        simp only [OpenAddressingHashMap.applyOp, Option.map_eq_some'] at hs
        obtain ⟨o, ho, hmap⟩ := hs
        rw [← hmap]
        exact open_insert_wf m hm data o ho
      | clear =>
        simp only [OpenAddressingHashMap.applyOp, Option.some.injEq] at hs
        rw [← hs, (open_clear_eq_fresh m).1]
        exact open_wf_mk0 m.size hm.shape.1

theorem open_runOps_size (ops : List StoreOp) :
    ∀ m m1 : OpenAddressingHashMap, m.runOps ops = some m1 → m1.size = m.size := by
  induction ops with
  | nil =>
    intro m m1 h
    simp only [OpenAddressingHashMap.runOps, Option.some.injEq] at h
    rw [← h]
  | cons op ops ih =>
    intro m m1 h
    simp only [OpenAddressingHashMap.runOps] at h
    cases hs : m.applyOp op with
    | none => simp [hs] at h
    | some m2 =>
      simp only [hs] at h
      rw [ih m2 m1 h]
      cases op with
      | insert data =>
        simp only [OpenAddressingHashMap.applyOp, Option.map_eq_some'] at hs
        obtain ⟨o, ho, hmap⟩ := hs
        rw [← hmap]
        exact (open_insert_entries m data o ho).1
      | clear =>
        simp only [OpenAddressingHashMap.applyOp, Option.some.injEq] at hs
        rw [← hs]
        rfl

/-- In every state reached from a freshly constructed store (of a capacity
`n > 0`) by a sequence of `insert` and `clear` calls all of which are defined,
`getCount()` is the number of distinct words for which `search` returns an
entry, in both backends; for `OpenAddressingHashMap` it is also the number of
occupied slots, it never exceeds the capacity, and the load factor is at most
1. (For `ChainingHashMap` no `insert` after a `clear` is defined, and no
`search` in the cleared store is.) -/
theorem counter_exact_defined_runs (n : Nat) (hn : 0 < n) (ops : List StoreOp) :
    (∀ m, (ChainingHashMap.mk0 n).runOps ops = some m → CountExact m.search m.getCount) ∧
    (∀ m, (OpenAddressingHashMap.mk0 n).runOps ops = some m →
      CountExact m.search m.getCount ∧
      m.getCount = ((m.table.filter fun slot => slot.1).length : Int) ∧
      m.getCount ≤ (m.size : Int) ∧ m.size = n ∧ m.getLoadFactor ≤ 1) := by
  constructor
  · intro m h
    rcases chain_runOps_invariant ops _ m (Or.inl (chain_wf_mk0 n hn)) h with hwf | ⟨ht, hc⟩
    · exact chain_count_exact m hwf
    · exact chain_count_exact_cleared m ht hc
  · intro m h
    have hwf := open_runOps_invariant ops _ m (open_wf_mk0 n hn) h
    obtain ⟨h1, h2, h3, h4⟩ := open_count_exact m hwf
    exact ⟨h1, h2, h3, open_runOps_size ops _ m h, h4⟩

/-! ### The thresholds of the query -/

/-- A threshold is the number parsed from its own text as long as no earlier
text made `stod` throw. -/
theorem parseThresholds_until_failure (fs : FilterSortData) :
    (∀ t1, entryValue fs.spam_count_entry = some t1 →
      (parseThresholds fs).spam_count_threshold = t1) ∧
    (∀ t1 t2, entryValue fs.spam_count_entry = some t1 →
      entryValue fs.ham_count_entry = some t2 →
      (parseThresholds fs).ham_count_threshold = t2) ∧
    (∀ t1 t2 t3, entryValue fs.spam_count_entry = some t1 →
      entryValue fs.ham_count_entry = some t2 → entryValue fs.spam_score_entry = some t3 →
      (parseThresholds fs).spam_score_threshold = t3) ∧
    (∀ t1 t2 t3 t4, entryValue fs.spam_count_entry = some t1 →
      entryValue fs.ham_count_entry = some t2 → entryValue fs.spam_score_entry = some t3 →
      entryValue fs.ham_score_entry = some t4 →
      (parseThresholds fs).ham_score_threshold = t4) := by
  refine ⟨?_, ?_, ?_, ?_⟩
  · intro t1 h1
    simp only [parseThresholds, h1]
    cases entryValue fs.ham_count_entry <;> simp only []
    cases entryValue fs.spam_score_entry <;> simp only []
    cases entryValue fs.ham_score_entry <;> simp only []
  · intro t1 t2 h1 h2
    simp only [parseThresholds, h1, h2]
    cases entryValue fs.spam_score_entry <;> simp only []
    cases entryValue fs.ham_score_entry <;> simp only []
  · intro t1 t2 t3 h1 h2 h3
    simp only [parseThresholds, h1, h2, h3]
    cases entryValue fs.ham_score_entry <;> simp only []
  · intro t1 t2 t3 t4 h1 h2 h3 h4
    simp only [parseThresholds, h1, h2, h3, h4]

/-- C23, evaluated on the filter input with the spam-count text `abc` and the
ham-count text `5` (both directions "above"): `stod` throws on `abc`, the one
`try` block is left, and the ham-count threshold stays 0.0 although its own text
is the valid number 5. On the example dataset (free = (9, 1), meeting = (1, 9))
the query returns both words, where the ham-count threshold 5 alone returns
only `meeting`. -/
theorem thresholds_share_one_try_block :
    stod "abc".toList = none ∧ stod "5".toList = some 5 ∧
    parseThresholds { FilterSortData.blank with
      spam_count_entry := "abc".toList, ham_count_entry := "5".toList } = ⟨0, 0, 0, 0⟩ ∧
    on_apply_filter_button_clicked insertionSortBy
      { FilterSortData.blank with
        spam_count_entry := "abc".toList, ham_count_entry := "5".toList }
      (AppData.loaded 7 exampleCSV) =
        some [("free".toList, 9, 1, 10), ("meeting".toList, 1, 9, 10)] ∧
    on_apply_filter_button_clicked insertionSortBy
      { FilterSortData.blank with ham_count_entry := "5".toList }
      (AppData.loaded 7 exampleCSV) = some [("meeting".toList, 1, 9, 10)] := by
  decide!

/-! ### The words `highlightWords` looks up -/

theorem splitOnP_no_sep (p : Char → Bool) (s : Str) (h : ∀ c ∈ s, p c = false) :
    s.splitOnP p = [s] := by
  induction s with
  | nil => exact List.splitOnP_nil p
  | cons c s ih =>
    rw [List.splitOnP_cons, h c (List.mem_cons_self _ _),
      ih fun x hx => h x (List.mem_cons_of_mem _ hx)]
    rfl

theorem splitOnP_at_sep (p : Char → Bool) (w : Str) (h : ∀ c ∈ w, p c = false) (sep : Char)
    (hsep : p sep = true) (rest : Str) :
    (w ++ sep :: rest).splitOnP p = w :: rest.splitOnP p := by
  induction w with
  | nil => simp [List.splitOnP_cons, hsep]
  | cons c w ih =>
    rw [List.cons_append, List.splitOnP_cons, h c (List.mem_cons_self _ _),
      ih fun x hx => h x (List.mem_cons_of_mem _ hx)]
    rfl

theorem splitOnP_congr (p q : Char → Bool) (s : Str) (h : ∀ c ∈ s, p c = q c) :
    s.splitOnP p = s.splitOnP q := by
  induction s with
  | nil => simp [List.splitOnP_nil]
  | cons c s ih =>
    rw [List.splitOnP_cons, List.splitOnP_cons, h c (List.mem_cons_self _ _),
      ih fun x hx => h x (List.mem_cons_of_mem _ hx)]

theorem splitOnP_mem (p : Char → Bool) (s : Str) :
    ∀ w ∈ s.splitOnP p, ∀ c ∈ w, c ∈ s ∧ p c = false := by
  induction s with
  | nil =>
    intro w hw c hc
    simp only [List.splitOnP_nil, List.mem_singleton] at hw
    subst hw
    simp at hc
  | cons a s ih =>
    intro w hw c hc
    rw [List.splitOnP_cons] at hw
    by_cases ha : p a = true
    · simp only [ha, if_true, List.mem_cons] at hw
      rcases hw with hw | hw
      · subst hw; simp at hc
      · exact ⟨List.mem_cons_of_mem _ (ih w hw c hc).1, (ih w hw c hc).2⟩
    · simp only [Bool.not_eq_true] at ha
      simp only [ha, Bool.false_eq_true, if_false] at hw
      cases hsp : s.splitOnP p with
      | nil => exact absurd hsp (List.splitOnP_ne_nil p s)
      | cons b l =>
        rw [hsp] at hw ih
        simp only [List.modifyHead, List.mem_cons] at hw
        rcases hw with hw | hw
        · subst hw
          simp only [List.mem_cons] at hc
          rcases hc with hc | hc
          · subst hc; exact ⟨List.mem_cons_self _ _, ha⟩
          · have := ih b (List.mem_cons_self _ _) c hc
            exact ⟨List.mem_cons_of_mem _ this.1, this.2⟩
        · have := ih w (List.mem_cons_of_mem _ hw) c hc
          exact ⟨List.mem_cons_of_mem _ this.1, this.2⟩

theorem highlightScan_spec (chars : List Char) :
    ∀ (word : Str) (inWord : Bool) (lookups : List Str),
      (∀ c ∈ word, isalnum c = true) → inWord = !word.isEmpty →
      highlightScan (chars ++ [Char.ofNat 32]) word inWord lookups =
        lookups ++ ((word ++ chars).splitOnP fun c => !isalnum c).filter fun w => w ≠ [] := by
  induction chars with
  | nil =>
    intro word inWord lookups hw hin
    have hsp : (word ++ []).splitOnP (fun c => !isalnum c) = [word] := by
      rw [List.append_nil]
      exact splitOnP_no_sep _ word fun c hc => by simp [hw c hc]
    have h32 : isalnum (Char.ofNat 32) = false := by decide
    rw [hsp]
    simp only [List.nil_append, highlightScan, h32, Bool.false_eq_true, if_false]
    cases word with
    | nil =>
      simp only [List.isEmpty_nil, Bool.not_true] at hin
      simp [hin]
    | cons a w =>
      simp only [List.isEmpty_cons, Bool.not_false] at hin
      simp [hin]
  | cons c rest ih =>
    intro word inWord lookups hw hin
    rw [List.cons_append]
    by_cases hc : isalnum c = true
    · simp only [highlightScan, hc, if_true]
      rw [ih (word ++ [c]) true lookups
        (by
          intro x hx
          rcases List.mem_append.mp hx with hx | hx
          · exact hw x hx
          · rw [List.mem_singleton.mp hx]; exact hc)
        (by simp)]
      simp
    · simp only [Bool.not_eq_true] at hc
      have hsplit : (word ++ c :: rest).splitOnP (fun c => !isalnum c) =
          word :: rest.splitOnP (fun c => !isalnum c) :=
        splitOnP_at_sep _ word (fun x hx => by simp [hw x hx]) c (by simp [hc]) rest
      rw [hsplit]
      simp only [highlightScan, hc, Bool.false_eq_true, if_false]
      cases word with
      | nil =>
        simp only [List.isEmpty_nil, Bool.not_true] at hin
        subst hin
        simp only [Bool.false_eq_true, if_false]
        rw [ih [] false lookups (by simp) (by simp)]
        simp
      | cons a w =>
        simp only [List.isEmpty_cons, Bool.not_false] at hin
        subst hin
        simp only [if_true]
        rw [ih [] false _ (by simp) (by simp)]
        simp

/-- The words `highlightWords` looks up are the maximal runs of alphanumeric
characters of the text, as they are written. -/
theorem highlightLookups_eq (text : Str) :
    highlightLookups text =
      (text.splitOnP fun c => !isalnum c).filter fun w => w ≠ [] := by
  unfold highlightLookups
  rw [highlightScan_spec text [] false [] (by simp) (by simp)]
  simp

theorem lowerOrDigit_facts (c : Char) (h : isLowerOrDigit c) :
    isalnum c = true ∧ tolower c = c ∧ isspace c = false := by
  have e65 : c.val ≥ 65 ↔ 65 ≤ c.toNat := Iff.rfl
  have e90 : c.val ≤ 90 ↔ c.toNat ≤ 90 := Iff.rfl
  have e97 : c.val ≥ 97 ↔ 97 ≤ c.toNat := Iff.rfl
  have e122 : c.val ≤ 122 ↔ c.toNat ≤ 122 := Iff.rfl
  have e48 : c.val ≥ 48 ↔ 48 ≤ c.toNat := Iff.rfl
  have e57 : c.val ≤ 57 ↔ c.toNat ≤ 57 := Iff.rfl
  unfold isLowerOrDigit at h
  refine ⟨?_, ?_, ?_⟩
  · unfold isalnum
    simp only [Char.isAlphanum, Char.isAlpha, Char.isUpper, Char.isLower, Char.isDigit,
      Bool.or_eq_true, Bool.and_eq_true, decide_eq_true_eq]
    rw [e65, e90, e97, e122, e48, e57]
    omega
  · unfold tolower
    have hc : ¬ (c.toNat ≥ 65 ∧ c.toNat ≤ 90) := by omega
    simp only [Char.toLower, hc, if_false]
  · unfold isspace
    simp only [Bool.or_eq_false_iff, Bool.and_eq_false_iff, decide_eq_false_iff_not]
    omega

theorem isspace_not_isalnum (c : Char) (h : isspace c = true) : isalnum c = false := by
  have e65 : c.val ≥ 65 ↔ 65 ≤ c.toNat := Iff.rfl
  have e90 : c.val ≤ 90 ↔ c.toNat ≤ 90 := Iff.rfl
  have e97 : c.val ≥ 97 ↔ 97 ≤ c.toNat := Iff.rfl
  have e122 : c.val ≤ 122 ↔ c.toNat ≤ 122 := Iff.rfl
  have e48 : c.val ≥ 48 ↔ 48 ≤ c.toNat := Iff.rfl
  have e57 : c.val ≤ 57 ↔ c.toNat ≤ 57 := Iff.rfl
  unfold isspace at h
  simp only [Bool.or_eq_true, Bool.and_eq_true, decide_eq_true_eq] at h
  unfold isalnum
  rw [Bool.eq_false_iff]
  simp only [Char.isAlphanum, Char.isAlpha, Char.isUpper, Char.isLower, Char.isDigit, ne_eq,
    Bool.or_eq_true, Bool.and_eq_true, decide_eq_true_eq]
  rw [e65, e90, e97, e122, e48, e57]
  omega

/-- On a text made of lowercase letters, digits and white space only, the words
`highlightWords` looks up are the tokens of the classification path. -/
theorem highlightLookups_plain_text (text : Str)
    (h : ∀ c ∈ text, isLowerOrDigit c ∨ isspace c = true) :
    highlightLookups text = tokenize text := by
  have hsame : text.splitOnP (fun c => !isalnum c) = text.splitOnP isspace := by
    refine splitOnP_congr _ _ text ?_
    intro c hc
    rcases h c hc with h1 | h1
    · have := lowerOrDigit_facts c h1
      simp [this.1, this.2.2]
    · simp [h1, isspace_not_isalnum c h1]
  have htok : tokenize text =
      ((whitespaceWords text).map normalizeWord).filter (fun w => w ≠ []) := by
    unfold tokenize
    rw [tokenizeLoop_spec _ text [] (le_refl _)]
    rfl
  have hid : (whitespaceWords text).map normalizeWord = whitespaceWords text := by
    conv_rhs => rw [← List.map_id (whitespaceWords text)]
    refine List.map_congr_left ?_
    intro w hw
    simp only [whitespaceWords, List.mem_filter] at hw
    refine normalizeWord_fixed w ?_
    intro c hc
    obtain ⟨hmem, hns⟩ := splitOnP_mem isspace text w hw.1 c hc
    rcases h c hmem with h1 | h1
    · exact ⟨(lowerOrDigit_facts c h1).2.1, (lowerOrDigit_facts c h1).1⟩
    · rw [h1] at hns
      exact absurd hns (by decide)
  rw [highlightLookups_eq, htok, hid, hsame]
  simp [whitespaceWords, List.filter_filter]

/-- C24, evaluated on the text `Free offer, don't!`: `highlightWords` looks up
`Free`, `offer`, `don`, `t` (no lowercasing, every non-alphanumeric character
ends a word), the classification path produces `free`, `offer`, `dont`. On the
text `Free` with the example store (free = (9, 1)) the token `free` gives the
probability 0.9, and the word `Free`, which has no entry, is not tagged. -/
theorem highlight_lookups_differ :
    highlightLookups "Free offer, don't!".toList =
      ["Free".toList, "offer".toList, "don".toList, "t".toList] ∧
    tokenize "Free offer, don't!".toList =
      ["free".toList, "offer".toList, "dont".toList] ∧
    highlightLookups "Free".toList = ["Free".toList] ∧
    tokenize "Free".toList = ["free".toList] ∧
    classifyWithProbability exampleStore (7 / 10) (tokenize "Free".toList) =
      (true, roundDouble (9 / 10)) ∧
    highlightTag exampleStore "Free".toList = some none ∧
    highlightTag exampleStore "free".toList = some (some (HighlightTag.spam 5)) := by
  decide!


/-! ### The probability -/

/-- C4, evaluated on the store offer = (6, 4), deal = (7, 3), win = (8, 2), the
token list `[offer, deal, win]` and the threshold 0.7 (the `double` nearest to
7/10, the default): the scores are 0.6, 0.7, 0.8, their arithmetic mean is 7/10,
which is not below the threshold, but the sum accumulated in `double`s is
`2.0999999999999996` and the quotient `0.6999999999999998`, so the result is
`(false, 0.6999999999999998)`. On the example dataset the lists `[free]`,
`[meeting]`, `[unknown]` give `(true, 0.9)`, `(false, 0.1)`, `(false, 0)`, the
numbers being the nearest `double`s; an empty list gives `(false, 0)`. -/
theorem classify_mean_rounds_below_threshold :
    matchedRatios boundaryStore ["offer".toList, "deal".toList, "win".toList] =
      [3 / 5, 7 / 10, 4 / 5] ∧
    meanOrZero (matchedRatios boundaryStore ["offer".toList, "deal".toList, "win".toList]) =
      7 / 10 ∧
    roundDouble (7 / 10) ≤ 7 / 10 ∧
    classifyWithProbability boundaryStore (roundDouble (7 / 10))
        ["offer".toList, "deal".toList, "win".toList] =
      (false, 6305039478318693 / 9007199254740992) ∧
    classifyWithProbability exampleStore (roundDouble (7 / 10)) ["free".toList] =
      (true, roundDouble (9 / 10)) ∧
    classifyWithProbability exampleStore (roundDouble (7 / 10)) ["meeting".toList] =
      (false, roundDouble (1 / 10)) ∧
    classifyWithProbability exampleStore (roundDouble (7 / 10)) ["unknown".toList] =
      (false, 0) ∧
    classifyWithProbability exampleStore (roundDouble (7 / 10)) [] = (false, 0) := by
  decide!

/-! ### The range of the probability -/

/-- C22, evaluated on a `ChainingHashMap` of the default capacity 10007 and the
calls `insert(("free", 9, 1))`, `clear()`: the state reached has the counter 0
and a table without buckets, so `search("free")` (as for every word) indexes
outside the vector and has no defined result, and neither has a further
`insert`; the counter cannot be compared with the words `search` finds. The
same calls leave an `OpenAddressingHashMap` with the counter 1 and `free`
found. -/
theorem chaining_counter_after_clear :
    ((ChainingHashMap.mk0 10007).runOps
        [StoreOp.insert ⟨"free".toList, 9, 1⟩, StoreOp.clear]).map
      (fun m => (m.getCount, m.table.length)) = some (0, 0) ∧
    ((ChainingHashMap.mk0 10007).runOps
        [StoreOp.insert ⟨"free".toList, 9, 1⟩, StoreOp.clear]).bind
      (fun m => m.search "free".toList) = none ∧
    (ChainingHashMap.mk0 10007).runOps
        [StoreOp.insert ⟨"free".toList, 9, 1⟩, StoreOp.clear,
          StoreOp.insert ⟨"free".toList, 9, 1⟩] = none ∧
    ((OpenAddressingHashMap.mk0 10007).runOps
        [StoreOp.insert ⟨"free".toList, 9, 1⟩, StoreOp.clear,
          StoreOp.insert ⟨"free".toList, 9, 1⟩]).map
      (fun m => (m.getCount, m.search "free".toList)) =
        some (1, some (some ⟨"free".toList, 9, 1⟩)) := by
  decide!
